import Mathlib

/-!
Shallow embedding of the `rule-engine` Rust crate (src/rust/src/) and proofs
about its specification claims.

Modelling conventions:
* Rust `char` is Lean `Char`; Rust `String`/`str` values are `List Char`
  (the sequence of Unicode scalar values).  Byte views (`as_bytes`, `bytes()`)
  are obtained through an explicit UTF-8 encoder `utf8Bytes`.
* Arena indices (`u32` node ids) are kept as `Nat`; the source stores them as
  `u32`, which is lossless while an arena holds fewer than 2^32 nodes.
* The `u32` per-rule counters of `CandidateResult` wrap at 2^32 exactly like
  release-mode Rust arithmetic, so increments are taken modulo 2^32.
* `HashMap`s are modelled as association lists looked up by first match;
  iteration order (which the source leaves to the hash map) is fixed to
  insertion order.  All claims proved here are insensitive to that order.
* Code that can panic (slice indexing, `assert!`) is modelled in `Except`
  where the panic behaviour is the subject of a claim; elsewhere the
  operations are total on the well-formed states in which the source runs
  them.
-/

set_option maxHeartbeats 1000000
set_option maxRecDepth 2000

/-- Character list of a string literal (Rust `str` as a sequence of `char`). -/
def cs (s : String) : List Char := s.data

/-- A char is ASCII when its code point is below 128 (the dense-table range). -/
def charIsAscii (c : Char) : Bool := c.toNat < 128

/-- UTF-8 encoding of one Unicode scalar value, as natural numbers below 256.
Mirrors the byte view Rust exposes through `str::as_bytes` / `str::bytes`. -/
def utf8Bytes (c : Char) : List Nat :=
  let n := c.toNat
  if n < 128 then [n]
  else if n < 2048 then [192 + n / 64, 128 + n % 64]
  else if n < 65536 then [224 + n / 4096, 128 + (n / 64) % 64, 128 + n % 64]
  else [240 + n / 262144, 128 + (n / 4096) % 64, 128 + (n / 64) % 64, 128 + n % 64]

/-- UTF-8 byte sequence of a string (Rust `str::as_bytes`). -/
def strBytes (s : List Char) : List Nat := (s.map utf8Bytes).flatten

/-- Boolean prefix test on lists (Rust `str::starts_with`, byte/char agnostic
because both sides are well-formed strings). -/
def isPrefL : List Char → List Char → Bool
  | [], _ => true
  | _ :: _, [] => false
  | p :: ps, s :: ss => p = s && isPrefL ps ss

/-- Boolean suffix test (Rust `str::ends_with`). -/
def isSuffL (p s : List Char) : Bool := isPrefL p.reverse s.reverse

/-- Boolean substring test (Rust `str::contains` with a string needle). -/
def isSubstrL : List Char → List Char → Bool
  | p, [] => p.isEmpty
  | p, s :: ss => isPrefL p (s :: ss) || isSubstrL p ss

/-- Prefix test on byte lists. -/
def isPrefB : List Nat → List Nat → Bool
  | [], _ => true
  | _ :: _, [] => false
  | p :: ps, s :: ss => p = s && isPrefB ps ss

/-! ## Data model (src/rust/src/rule.rs, src/rust/src/url.rs) -/

/-- String-matching operators supported by rule conditions (rule.rs). -/
inductive Operator where
  | equals
  | contains
  | startsWith
  | endsWith
deriving DecidableEq, Repr

/-- The decomposed parts of a URL that conditions can target (rule.rs). -/
inductive UrlPart where
  | host
  | path
  | file
  | query
deriving DecidableEq, Repr

/-- Ordinal index of a URL part, 0-3 (rule.rs `UrlPart::ordinal`). -/
def UrlPart.ordinal : UrlPart → Nat
  | .host => 0
  | .path => 1
  | .file => 2
  | .query => 3

/-- All URL parts in ordinal order (rule.rs `UrlPart::ALL`). -/
def UrlPart.ALL : List UrlPart := [.host, .path, .file, .query]

/-- A single condition within a rule (rule.rs `Condition`). -/
structure Condition where
  part : UrlPart
  operator : Operator
  value : List Char
  negated : Bool
deriving DecidableEq, Repr

/-- A named rule: priority is `i32` in the source, kept as `Int` (rule.rs). -/
structure Rule where
  name : List Char
  priority : Int
  conditions : List Condition
  result : List Char
deriving DecidableEq, Repr

/-- Immutable parsed URL (url.rs `ParsedUrl`). -/
structure ParsedUrl where
  host : List Char
  path : List Char
  file : List Char
  query : List Char
deriving DecidableEq, Repr

/-- Value of the specified URL part (url.rs `ParsedUrl::part`). -/
def ParsedUrl.part (u : ParsedUrl) : UrlPart → List Char
  | .host => u.host
  | .path => u.path
  | .file => u.file
  | .query => u.query

/-- Direct operator check against a URL part (engine.rs
`RuleEngine::matches_direct`). -/
def matchesDirect (cond : Condition) (url : ParsedUrl) : Bool :=
  let value := url.part cond.part
  match cond.operator with
  | .equals => value = cond.value
  | .contains => isSubstrL cond.value value
  | .startsWith => isPrefL cond.value value
  | .endsWith => isSuffL cond.value value

/-! ## Trie (src/rust/src/trie.rs)

Arena-stored character trie.  A node's ASCII transitions are the dense table
for code points 0-127 (`none` is the `NO_NODE` sentinel); `extended` is the
lazily created sparse map for non-ASCII code points, kept as an association
list in insertion order. -/

/-- Arena node of the trie (trie.rs `TrieNode`). -/
structure TrieNode (V : Type) where
  ascii : Nat → Option Nat
  extended : List (Char × Nat)
  values : List V

/-- Fresh node with no transitions and no values (trie.rs `TrieNode::new`). -/
def TrieNode.empty {V : Type} : TrieNode V :=
  { ascii := fun _ => none, extended := [], values := [] }

/-- First-match lookup in an association list (models `HashMap::get`). -/
def lookupA {V : Type} [DecidableEq Char] : List (Char × V) → Char → Option V
  | [], _ => none
  | (k, v) :: rest, c => if k = c then some v else lookupA rest c

/-- Child of a node on a character: dense table below 128, sparse map above
(trie.rs `TrieNode::child`). -/
def TrieNode.child {V : Type} (n : TrieNode V) (c : Char) : Option Nat :=
  if c.toNat < 128 then n.ascii c.toNat else lookupA n.extended c

/-- Read a node of the arena.  The source indexes the arena vector directly;
all reads it performs are in bounds. -/
def getNode {V : Type} (nodes : List (TrieNode V)) (i : Nat) : TrieNode V :=
  nodes.getD i TrieNode.empty

/-- Replace the node at an index. -/
def setNode {V : Type} (nodes : List (TrieNode V)) (i : Nat) (n : TrieNode V) :
    List (TrieNode V) := nodes.set i n

/-- Add a transition on `c` to a node. -/
def TrieNode.withChild {V : Type} (n : TrieNode V) (c : Char) (t : Nat) :
    TrieNode V :=
  if c.toNat < 128 then
    { n with ascii := fun b => if b = c.toNat then some t else n.ascii b }
  else
    { n with extended := n.extended ++ [(c, t)] }

/-- Walk to the child on `c`, creating it when absent
(trie.rs `TrieNode::child_or_create`). -/
def childOrCreate {V : Type} (nodes : List (TrieNode V)) (pi : Nat) (c : Char) :
    List (TrieNode V) × Nat :=
  match (getNode nodes pi).child c with
  | some id => (nodes, id)
  | none =>
      let newId := nodes.length
      let nodes := nodes ++ [TrieNode.empty]
      (setNode nodes pi ((getNode nodes pi).withChild c newId), newId)

/-- The trie itself (trie.rs `Trie`). -/
structure Trie (V : Type) where
  nodes : List (TrieNode V)
  emptyKeyValues : List V
  hasKeys : Bool

/-- Fresh trie holding only the root node (trie.rs `Trie::new`). -/
def Trie.new {V : Type} : Trie V :=
  { nodes := [TrieNode.empty], emptyKeyValues := [], hasKeys := false }

/-- Emptiness test (trie.rs `Trie::is_empty`). -/
def Trie.isEmptyT {V : Type} (t : Trie V) : Bool :=
  !t.hasKeys && t.emptyKeyValues.isEmpty

/-- Character walk used by insert, creating nodes on demand. -/
def insertWalk {V : Type} (nodes : List (TrieNode V)) (cur : Nat) :
    List Char → List (TrieNode V) × Nat
  | [] => (nodes, cur)
  | c :: rest =>
      let p := childOrCreate nodes cur c
      insertWalk p.1 p.2 rest

/-- Append a value to a node's list. -/
def pushValue {V : Type} (nodes : List (TrieNode V)) (i : Nat) (v : V) :
    List (TrieNode V) :=
  setNode nodes i { getNode nodes i with values := (getNode nodes i).values ++ [v] }

/-- Insert a value under a key (trie.rs `Trie::insert`). -/
def Trie.insert {V : Type} (t : Trie V) (key : List Char) (v : V) : Trie V :=
  if key = [] then
    { t with hasKeys := true, emptyKeyValues := t.emptyKeyValues ++ [v] }
  else
    let p := insertWalk t.nodes 0 key
    { t with hasKeys := true, nodes := pushValue p.1 p.2 v }

/-- Values emitted by the character walk of `find_prefixes_of`, in callback
order (trie.rs `Trie::find_prefixes_of`, after the empty-key values). -/
def walkCollect {V : Type} (nodes : List (TrieNode V)) (cur : Nat) :
    List Char → List V
  | [] => []
  | c :: rest =>
      match (getNode nodes cur).child c with
      | some nxt => (getNode nodes nxt).values ++ walkCollect nodes nxt rest
      | none => []

/-- All values whose key is a prefix of the input, in emission order
(trie.rs `Trie::find_prefixes_of`). -/
def Trie.findPrefixesOf {V : Type} (t : Trie V) (input : List Char) : List V :=
  t.emptyKeyValues ++ walkCollect t.nodes 0 input

/-- Byte walk over the dense tables only.  A byte below 128 indexes the dense
table (for ASCII characters the byte equals the code point); a byte at or
above 128 has no dense entry, so the walk terminates. -/
def byteWalkCollect {V : Type} (nodes : List (TrieNode V)) (cur : Nat) :
    List Nat → List V
  | [] => []
  | b :: rest =>
      if b < 128 then
        match (getNode nodes cur).ascii b with
        | some nxt => (getNode nodes nxt).values ++ byteWalkCollect nodes nxt rest
        | none => []
      else []

/-- Modelled from the spec: `Trie::find_prefixes_of_bytes` is called from
`RuleIndex::query_candidates_into` but absent from src/trie.rs.  Spec section
4.1 gives each node a dense direct-indexed transition table for byte values
0-127 and terminates the walk silently at any step with no transition, so the
byte-oriented walk uses the dense table for bytes below 128 and stops on any
byte at or above 128 (such a byte is not a code point and has no dense
entry).  Empty-key values are emitted unconditionally at query start. -/
def Trie.findPrefixesOfBytes {V : Type} (t : Trie V) (input : List Nat) :
    List V :=
  t.emptyKeyValues ++ byteWalkCollect t.nodes 0 input

/-! ## Aho-Corasick automaton (src/rust/src/aho_corasick.rs)

Two-phase structure: a char trie while inserting, converted by `build` into a
goto-only DFA.  Transition rows are functions from code points below 128 to an
optional state (`none` is the `NO_STATE` sentinel); `extended` holds non-ASCII
transitions. -/

/-- Build-phase node (aho_corasick.rs `BuildNode`). -/
structure ACNode (V : Type) where
  ascii : Nat → Option Nat
  extended : List (Char × Nat)
  output : List V

/-- Fresh build node. -/
def ACNode.empty {V : Type} : ACNode V :=
  { ascii := fun _ => none, extended := [], output := [] }

/-- The automaton (aho_corasick.rs `AhoCorasick`).  `buildNodes` is the
insert-phase trie (`None` in the source once `build` has taken it, modelled
by the emptied list); the goto table, extended table and output lists are
populated by `build`. -/
structure AC (V : Type) where
  buildNodes : List (ACNode V)
  emptyPatternValues : List V
  hasPatterns : Bool
  gotoTable : List (Nat → Option Nat)
  extendedGoto : List (List (Char × Nat))
  output : List (List V)
  built : Bool

/-- Fresh automaton with only the root build node (aho_corasick.rs
`AhoCorasick::new`). -/
def AC.new {V : Type} : AC V :=
  { buildNodes := [ACNode.empty], emptyPatternValues := [], hasPatterns := false,
    gotoTable := [], extendedGoto := [], output := [], built := false }

/-- Emptiness test (aho_corasick.rs `AhoCorasick::is_empty`). -/
def AC.isEmptyAC {V : Type} (ac : AC V) : Bool :=
  !ac.hasPatterns && ac.emptyPatternValues.isEmpty

/-- Build-phase goto lookup (aho_corasick.rs `get_goto_build`). -/
def getGotoBuild {V : Type} (nodes : List (ACNode V)) (state : Nat) (c : Char) :
    Option Nat :=
  if c.toNat < 128 then (nodes.getD state ACNode.empty).ascii c.toNat
  else lookupA (nodes.getD state ACNode.empty).extended c

/-- Build-phase goto update (aho_corasick.rs `set_goto_build`). -/
def setGotoBuild {V : Type} (nodes : List (ACNode V)) (state : Nat) (c : Char)
    (target : Nat) : List (ACNode V) :=
  let n := nodes.getD state ACNode.empty
  if c.toNat < 128 then
    nodes.set state { n with ascii := fun b => if b = c.toNat then some target else n.ascii b }
  else
    nodes.set state { n with extended := n.extended ++ [(c, target)] }

/-- Insert-phase walk of a pattern, creating states on demand
(aho_corasick.rs `AhoCorasick::insert`, loop body). -/
def acInsertWalk {V : Type} (nodes : List (ACNode V)) (state : Nat) :
    List Char → List (ACNode V) × Nat
  | [] => (nodes, state)
  | c :: rest =>
      match getGotoBuild nodes state c with
      | some next => acInsertWalk nodes next rest
      | none =>
          let newId := nodes.length
          let nodes := setGotoBuild nodes state c newId
          acInsertWalk (nodes ++ [ACNode.empty]) newId rest

/-- Insert a pattern with a value.  The source panics when called after
`build()`; that behaviour is modelled separately by `AC.insertE`, and this
total version is the behaviour on the pre-build states in which the index
construction runs it (aho_corasick.rs `AhoCorasick::insert`). -/
def AC.insert {V : Type} (ac : AC V) (pattern : List Char) (v : V) : AC V :=
  if pattern = [] then
    { ac with hasPatterns := true,
              emptyPatternValues := ac.emptyPatternValues ++ [v] }
  else
    let p := acInsertWalk ac.buildNodes 0 pattern
    let nodes := p.1
    let last := p.2
    let n := nodes.getD last ACNode.empty
    { ac with hasPatterns := true,
              buildNodes := nodes.set last { n with output := n.output ++ [v] } }

/-- Insert with the `assert!(!self.built)` guard: a call after `build()` is a
panic, modelled as an error (aho_corasick.rs lines 59-61). -/
def AC.insertE {V : Type} (ac : AC V) (pattern : List Char) (v : V) :
    Except String (AC V) :=
  if ac.built then .error "Cannot insert after build()"
  else .ok (ac.insert pattern v)

/-- Search-phase goto lookup during build (aho_corasick.rs
`get_goto_search`). -/
def getGotoSearch (goto : List (Nat → Option Nat))
    (ext : List (List (Char × Nat))) (state : Nat) (c : Char) : Option Nat :=
  if c.toNat < 128 then (goto.getD state (fun _ => none)) c.toNat
  else lookupA (ext.getD state []) c

/-- Failure-chain climb with fuel (aho_corasick.rs `follow_failure`).  The
chain strictly descends in depth, so a fuel of the arena size is enough. -/
def followFailAux (goto : List (Nat → Option Nat))
    (ext : List (List (Char × Nat))) (fail : List Nat) (c : Char) :
    Nat → Nat → Nat
  | 0, state => state
  | fuel + 1, state =>
      if state ≠ 0 ∧ getGotoSearch goto ext state c = none then
        followFailAux goto ext fail c fuel (fail.getD state 0)
      else state

/-- Failure target for a new child (aho_corasick.rs `follow_failure`). -/
def followFail (goto : List (Nat → Option Nat))
    (ext : List (List (Char × Nat))) (fail : List Nat) (parent : Nat)
    (c : Char) : Nat :=
  let state := followFailAux goto ext fail c (goto.length + 1) (fail.getD parent 0)
  match getGotoSearch goto ext state c with
  | some target => target
  | none => 0

/-- Merge the failure state's output list into a state's output list
(aho_corasick.rs `merge_output`). -/
def mergeOutput {V : Type} (output : List (List V)) (state failState : Nat) :
    List (List V) :=
  if (output.getD failState []).isEmpty then output
  else output.set state (output.getD state [] ++ output.getD failState [])

/-- Children of a state in processing order: ASCII slots ascending, then the
extended pairs in map order. -/
def acChildren (row : Nat → Option Nat) (ext : List (Char × Nat)) :
    List (Char × Nat) :=
  ((List.range 128).filterMap fun b => (row b).map fun t => (Char.ofNat b, t))
    ++ ext

/-- One dequeue step of the failure-link BFS (aho_corasick.rs `build`,
phase 2 loop body): for each child compute its failure state, merge the
failure state's output, and enqueue the child. -/
def phase2Step {V : Type} (goto : List (Nat → Option Nat))
    (ext : List (List (Char × Nat))) (cur : Nat)
    (st : List Nat × List (List V)) :
    (List Nat × List (List V)) × List Nat :=
  let kids := acChildren (goto.getD cur (fun _ => none)) (ext.getD cur [])
  kids.foldl
    (fun acc kid =>
      let fail := acc.1.1
      let out := acc.1.2
      let f := followFail goto ext fail cur kid.1
      ((fail.set kid.2 f, mergeOutput out kid.2 f), acc.2 ++ [kid.2]))
    ((st.1, st.2), [])

/-- Failure-link BFS with fuel (aho_corasick.rs `build`, phase 2). -/
def phase2Loop {V : Type} (goto : List (Nat → Option Nat))
    (ext : List (List (Char × Nat))) :
    Nat → List Nat → List Nat → List (List V) → List Nat × List (List V)
  | 0, _, fail, out => (fail, out)
  | _ + 1, [], fail, out => (fail, out)
  | fuel + 1, cur :: rest, fail, out =>
      let r := phase2Step goto ext cur (fail, out)
      phase2Loop goto ext fuel (rest ++ r.2) r.1.1 r.1.2

/-- One dequeue step of the DFA completion (aho_corasick.rs `build`, phase 3
loop body): inherit missing ASCII slots from the failure state, enqueue
original children, then inherit missing extended transitions. -/
def phase3Step (goto : List (Nat → Option Nat))
    (ext : List (List (Char × Nat))) (fail : List Nat) (cur : Nat) :
    (List (Nat → Option Nat) × List (List (Char × Nat))) × List Nat :=
  let f := fail.getD cur 0
  let row := goto.getD cur (fun _ => none)
  let frow := goto.getD f (fun _ => none)
  let newRow : Nat → Option Nat := fun b =>
    match row b with
    | some t => some t
    | none => frow b
  let asciiKids := (List.range 128).filterMap row
  let extKids := ((ext.getD cur []).map Prod.snd).filter (· ≠ 0)
  let curExt := ext.getD cur []
  let inherited := (ext.getD f []).filter fun kv => lookupA curExt kv.1 = none
  ((goto.set cur newRow, ext.set cur (curExt ++ inherited)),
    asciiKids ++ extKids)

/-- DFA-completion BFS with fuel (aho_corasick.rs `build`, phase 3). -/
def phase3Loop (fail : List Nat) :
    Nat → List Nat → List (Nat → Option Nat) → List (List (Char × Nat)) →
    List (Nat → Option Nat) × List (List (Char × Nat))
  | 0, _, goto, ext => (goto, ext)
  | _ + 1, [], goto, ext => (goto, ext)
  | fuel + 1, cur :: rest, goto, ext =>
      let r := phase3Step goto ext fail cur
      phase3Loop fail fuel (rest ++ r.2) r.1.1 r.1.2

/-- Construct the goto-only DFA (aho_corasick.rs `AhoCorasick::build`).
Queues are fuelled by the arena size: each state enters each BFS queue at
most once (states form a tree under the original transitions), so the fuel
is never exhausted before a queue empties. -/
def AC.build {V : Type} (ac : AC V) : AC V :=
  let nodes := ac.buildNodes
  let stateCount := nodes.length
  let goto0 : List (Nat → Option Nat) := nodes.map ACNode.ascii
  let ext : List (List (Char × Nat)) := nodes.map ACNode.extended
  let out0 : List (List V) := nodes.map ACNode.output
  let fail0 : List Nat := List.replicate stateCount 0
  -- Phase 1: complete the root row with self-loops and queue depth-1 states.
  let rootRow := goto0.getD 0 (fun _ => none)
  let rootRow1 : Nat → Option Nat := fun b =>
    if b < 128 then some ((rootRow b).getD 0) else rootRow b
  let goto1 := goto0.set 0 rootRow1
  let queue1 := ((List.range 128).filterMap rootRow)
    ++ (ext.getD 0 []).map Prod.snd
  -- Phase 2: failure links and output merging.
  let p2 := phase2Loop goto1 ext (stateCount + 1) queue1 fail0 out0
  let fail := p2.1
  let out := p2.2
  -- Phase 3: DFA completion, seeded with the root's children.
  let queue3 := ((List.range 128).filterMap fun b =>
      match rootRow1 b with
      | some t => if t ≠ 0 then some t else none
      | none => none)
    ++ (ext.getD 0 []).map Prod.snd
  let p3 := phase3Loop fail (stateCount + 1) queue3 goto1 ext
  { buildNodes := [], emptyPatternValues := ac.emptyPatternValues,
    hasPatterns := ac.hasPatterns,
    gotoTable := p3.1, extendedGoto := p3.2, output := out, built := true }

/-- Completed-DFA transition (aho_corasick.rs `next_state`): ASCII characters
go through the goto table; non-ASCII characters go through the extended map,
falling back to the root.  A `none` in the goto row is the `NO_STATE`
sentinel, which the search would index out of bounds (a panic); on built
automata it never occurs and the total version maps it to the out-of-range
index `gotoTable.length`, whose rows and outputs are empty. -/
def AC.nextState {V : Type} (ac : AC V) (state : Nat) (c : Char) : Nat :=
  if c.toNat < 128 then
    ((ac.gotoTable.getD state (fun _ => none)) c.toNat).getD ac.gotoTable.length
  else ((lookupA (ac.extendedGoto.getD state []) c).getD 0)

/-- Values emitted by the scan loop of `search`, in callback order. -/
def acScan {V : Type} (ac : AC V) (state : Nat) : List Char → List V
  | [] => []
  | c :: rest =>
      let s := ac.nextState state c
      ac.output.getD s [] ++ acScan ac s rest

/-- Char-oriented search (aho_corasick.rs `AhoCorasick::search`): emits the
empty-pattern values, then walks the text with exactly one transition lookup
per character.  The `debug_assert!(self.built)` of the source is compiled out
of release builds and is not part of this total model; see `AC.searchE`. -/
def AC.search {V : Type} (ac : AC V) (text : List Char) : List V :=
  ac.emptyPatternValues ++ acScan ac 0 text

/-- Byte scan loop of `search_bytes`: one goto-table lookup per byte below
128, reset to the root for bytes at or above 128. -/
def acScanBytes {V : Type} (ac : AC V) (state : Nat) : List Nat → List V
  | [] => []
  | b :: rest =>
      let s := if b < 128 then
          ((ac.gotoTable.getD state (fun _ => none)) b).getD ac.gotoTable.length
        else 0
      ac.output.getD s [] ++ acScanBytes ac s rest

/-- Byte-oriented search (aho_corasick.rs `AhoCorasick::search_bytes`). -/
def AC.searchBytes {V : Type} (ac : AC V) (text : List Nat) : List V :=
  ac.emptyPatternValues ++ acScanBytes ac 0 text

/-- Scan loop with panics modelled: `goto_table[state]`,
`extended_goto[state]` and `output[state]` are direct slice indexings and
panic when out of bounds (which is how a release-mode search on an unbuilt
automaton, whose tables are empty, fails on any nonempty text). -/
def acScanE {V : Type} (ac : AC V) (state : Nat) :
    List Char → Except String (List V)
  | [] => .ok []
  | c :: rest =>
      match (if c.toNat < 128 then (ac.gotoTable.get? state).map (fun row => (row c.toNat).getD ac.gotoTable.length)
             else (ac.extendedGoto.get? state).map (fun m => (lookupA m c).getD 0)) with
      | none => .error "index out of bounds"
      | some s =>
          match ac.output.get? s with
          | none => .error "index out of bounds"
          | some out =>
              match acScanE ac s rest with
              | .ok vs => .ok (out ++ vs)
              | .error e => .error e

/-- Search with panic behaviour modelled (aho_corasick.rs
`AhoCorasick::search` as compiled in release mode, where the
`debug_assert!` is absent): emits the empty-pattern values, then scans. -/
def AC.searchE {V : Type} (ac : AC V) (text : List Char) :
    Except String (List V) :=
  match acScanE ac 0 text with
  | .ok vs => .ok (ac.emptyPatternValues ++ vs)
  | .error e => .error e

/-- Byte scan loop with panics modelled (aho_corasick.rs `search_bytes`): a
byte at or above 128 moves to the root without a table access, but the
subsequent `output[state]` indexing still panics on an unbuilt automaton. -/
def acScanBytesE {V : Type} (ac : AC V) (state : Nat) :
    List Nat → Except String (List V)
  | [] => .ok []
  | b :: rest =>
      match (if b < 128 then (ac.gotoTable.get? state).map (fun row => (row b).getD ac.gotoTable.length)
             else some 0) with
      | none => .error "index out of bounds"
      | some s =>
          match ac.output.get? s with
          | none => .error "index out of bounds"
          | some out =>
              match acScanBytesE ac s rest with
              | .ok vs => .ok (out ++ vs)
              | .error e => .error e

/-- Byte search with panic behaviour modelled (aho_corasick.rs
`AhoCorasick::search_bytes` as compiled in release mode). -/
def AC.searchBytesE {V : Type} (ac : AC V) (text : List Nat) :
    Except String (List V) :=
  match acScanBytesE ac 0 text with
  | .ok vs => .ok (ac.emptyPatternValues ++ vs)
  | .error e => .error e

/-! ## Candidate buffer (src/rust/src/rule_index.rs, `CandidateResult`)

Counts are `u32` in the source; increments wrap at 2^32 like release-mode
Rust arithmetic. -/

/-- The `u32` modulus. -/
def U32MOD : Nat := 4294967296

/-- Dense per-rule counters with sparse touched-id tracking
(rule_index.rs `CandidateResult`). -/
structure CandidateResult where
  satisfiedCounts : List Nat
  touched : List Nat
deriving DecidableEq, Repr

/-- Fresh empty buffer (rule_index.rs `CandidateResult::new`). -/
def CandidateResult.new : CandidateResult :=
  { satisfiedCounts := [], touched := [] }

/-- Zero the slots named by the touched list, in order. -/
def zeroTouched (counts : List Nat) : List Nat → List Nat
  | [] => counts
  | id :: rest => zeroTouched (counts.set id 0) rest

/-- Sparse reset and growth (rule_index.rs
`CandidateResult::ensure_capacity_and_reset`): zero previously touched
entries, clear the touched list, grow with zeros to at least `n` slots. -/
def CandidateResult.ensureCapacityAndReset (c : CandidateResult) (n : Nat) :
    CandidateResult :=
  let counts := zeroTouched c.satisfiedCounts c.touched
  let counts :=
    if counts.length < n then counts ++ List.replicate (n - counts.length) 0
    else counts
  { satisfiedCounts := counts, touched := [] }

/-- Count one satisfied condition for a rule (rule_index.rs
`CandidateResult::increment`): a zero slot is first recorded in the touched
list, then the slot is incremented (wrapping `u32`). -/
def CandidateResult.increment (c : CandidateResult) (ruleId : Nat) :
    CandidateResult :=
  let slot := c.satisfiedCounts.getD ruleId 0
  { satisfiedCounts := c.satisfiedCounts.set ruleId ((slot + 1) % U32MOD),
    touched := if slot = 0 then c.touched ++ [ruleId] else c.touched }

/-- All non-negated conditions satisfied (rule_index.rs
`CandidateResult::all_satisfied`): the slot equals the rule's non-negated
condition count. -/
def CandidateResult.allSatisfied (c : CandidateResult) (ruleId : Nat)
    (nonNegatedCounts : List Nat) : Bool :=
  c.satisfiedCounts.getD ruleId 0 = nonNegatedCounts.getD ruleId 0

/-- At least one satisfied condition (rule_index.rs
`CandidateResult::is_candidate`). -/
def CandidateResult.isCandidate (c : CandidateResult) (ruleId : Nat) : Bool :=
  0 < c.satisfiedCounts.getD ruleId 0

/-! ## Rule index (src/rust/src/rule_index.rs, `RuleIndex`) -/

/-- Append an id under a key of an equals map, creating the entry on first
use (models `HashMap::entry(..).or_default().push(id)`). -/
def eqInsert (m : List (List Char × List Nat)) (key : List Char) (id : Nat) :
    List (List Char × List Nat) :=
  match m with
  | [] => [(key, [id])]
  | (k, ids) :: rest =>
      if k = key then (k, ids ++ [id]) :: rest else (k, ids) :: eqInsert rest key id

/-- First-match lookup in an equals map (models `HashMap::get`). -/
def eqLookup (m : List (List Char × List Nat)) (key : List Char) :
    Option (List Nat) :=
  match m with
  | [] => none
  | (k, ids) :: rest => if k = key then some ids else eqLookup rest key

/-- Point update of a per-part array (models writing one slot of a
`[T; URL_PART_COUNT]`). -/
def updPart {T : Type} (f : UrlPart → T) (p : UrlPart) (g : T → T) :
    UrlPart → T :=
  fun q => if q = p then g (f q) else f q

/-- Accumulator for the index-construction fold over all rules. -/
structure IdxBuild where
  eq : UrlPart → List (List Char × List Nat)
  sw : UrlPart → Trie Nat
  ew : UrlPart → Trie Nat
  ct : UrlPart → AC Nat
  counts : List Nat

/-- Process one condition of rule `i` (rule_index.rs `RuleIndex::new`, inner
loop): negated conditions are skipped; a non-negated condition bumps the
rule's non-negated count and is inserted into the structure of its
(part, operator) slot.  EndsWith keys are the code-point-reversed value
(`cond.value.chars().rev()`). -/
def condInsert (i : Nat) (b : IdxBuild) (cond : Condition) : IdxBuild :=
  if cond.negated then b
  else
    let b := { b with counts := b.counts.set i ((b.counts.getD i 0 + 1) % U32MOD) }
    let p := cond.part
    match cond.operator with
    | .equals => { b with eq := updPart b.eq p (fun m => eqInsert m cond.value i) }
    | .startsWith => { b with sw := updPart b.sw p (fun t => t.insert cond.value i) }
    | .endsWith => { b with ew := updPart b.ew p (fun t => t.insert cond.value.reverse i) }
    | .contains => { b with ct := updPart b.ct p (fun a => a.insert cond.value i) }

/-- Process one rule (rule_index.rs `RuleIndex::new`, outer loop). -/
def ruleInsert (b : IdxBuild) (pair : Nat × Rule) : IdxBuild :=
  pair.2.conditions.foldl (condInsert pair.1) b

/-- The compiled per-(part, operator) index (rule_index.rs `RuleIndex`).
The source's `rule_ids` map sends the position `i` in the input list to the
dense id `i as u32`; it is the identity here (`RuleIndex.ruleId`). -/
structure RuleIndex where
  equalsIndexes : UrlPart → List (List Char × List Nat)
  startsWithIndexes : UrlPart → Trie Nat
  endsWithIndexes : UrlPart → Trie Nat
  containsAcIndexes : UrlPart → AC Nat
  ruleCount : Nat
  nonNegatedCounts : List Nat
  hasEquals : UrlPart → Bool
  hasStartsWith : UrlPart → Bool
  hasEndsWith : UrlPart → Bool
  hasContains : UrlPart → Bool

/-- Build the index from the rule list (rule_index.rs `RuleIndex::new`):
fold every non-negated condition into its slot, build each Aho-Corasick
automaton, and record per-slot emptiness flags. -/
def RuleIndex.new (rules : List Rule) : RuleIndex :=
  let start : IdxBuild :=
    { eq := fun _ => [], sw := fun _ => Trie.new, ew := fun _ => Trie.new,
      ct := fun _ => AC.new, counts := List.replicate rules.length 0 }
  let b := rules.enum.foldl ruleInsert start
  let ct := fun p => (b.ct p).build
  { equalsIndexes := b.eq,
    startsWithIndexes := b.sw,
    endsWithIndexes := b.ew,
    containsAcIndexes := ct,
    ruleCount := rules.length,
    nonNegatedCounts := b.counts,
    hasEquals := fun p => !(b.eq p).isEmpty,
    hasStartsWith := fun p => !(b.sw p).isEmptyT,
    hasEndsWith := fun p => !(b.ew p).isEmptyT,
    hasContains := fun p => !(b.ct p).isEmptyAC }

/-- Dense id of the rule at a position (rule_index.rs `RuleIndex::rule_id`;
the map stores `i -> i as u32`). -/
def RuleIndex.ruleId (_ : RuleIndex) (ruleIndex : Nat) : Nat := ruleIndex

/-- Query one URL part against the four operator structures of its slot
(rule_index.rs `RuleIndex::query_candidates_into`, loop body).  The reversed
byte buffer for EndsWith is `value.bytes().rev()`. -/
def queryStep (idx : RuleIndex) (url : ParsedUrl) (cand : CandidateResult)
    (part : UrlPart) : CandidateResult :=
  let value := url.part part
  let cand :=
    if idx.hasEquals part then
      match eqLookup (idx.equalsIndexes part) value with
      | some ids => ids.foldl CandidateResult.increment cand
      | none => cand
    else cand
  let cand :=
    if idx.hasStartsWith part then
      ((idx.startsWithIndexes part).findPrefixesOfBytes (strBytes value)).foldl
        CandidateResult.increment cand
    else cand
  let cand :=
    if idx.hasEndsWith part then
      ((idx.endsWithIndexes part).findPrefixesOfBytes (strBytes value).reverse).foldl
        CandidateResult.increment cand
    else cand
  if idx.hasContains part then
    ((idx.containsAcIndexes part).searchBytes (strBytes value)).foldl
      CandidateResult.increment cand
  else cand

/-- Query into an existing buffer (rule_index.rs
`RuleIndex::query_candidates_into`): reset, then visit the parts in ordinal
order. -/
def RuleIndex.queryCandidatesInto (idx : RuleIndex) (url : ParsedUrl)
    (cand : CandidateResult) : CandidateResult :=
  UrlPart.ALL.foldl (queryStep idx url) (cand.ensureCapacityAndReset idx.ruleCount)

/-- Query into a fresh buffer (rule_index.rs `RuleIndex::query_candidates`). -/
def RuleIndex.queryCandidates (idx : RuleIndex) (url : ParsedUrl) :
    CandidateResult :=
  idx.queryCandidatesInto url (CandidateResult.new.ensureCapacityAndReset idx.ruleCount)

/-! ## Rule engine (src/rust/src/engine.rs) -/

/-- Placeholder rule for out-of-range list reads; the source never reads out
of range. -/
def dfltRule : Rule := { name := [], priority := 0, conditions := [], result := [] }

/-- Comparator underlying the entry sort (engine.rs `RuleEngine::new` with
rule.rs `impl Ord for Rule`): position `a` may precede position `b` exactly
when `rules[b].priority <= rules[a].priority` (descending priority). -/
def ruleLe (rules : List Rule) (a b : Nat) : Bool :=
  (rules.getD b dfltRule).priority ≤ (rules.getD a dfltRule).priority

/-- Stable insertion into a sorted position list: the new element goes after
every element allowed to precede it, so ties keep insertion order. -/
def insertSorted (le : Nat → Nat → Bool) (x : Nat) : List Nat → List Nat
  | [] => [x]
  | y :: ys => if le y x then y :: insertSorted le x ys else x :: y :: ys

/-- Stable sort of `0, .., n-1` (engine.rs `indices.sort_by(...)`; Rust's
`sort_by` is stable, and a stable sort of a total preorder is extensionally
unique, so insertion sort is the same function). -/
def stableSortIdx (le : Nat → Nat → Bool) (l : List Nat) : List Nat :=
  l.foldl (fun acc i => insertSorted le i acc) []

/-- Precomputed evaluation entry (engine.rs `SortedEntry`). -/
structure SortedEntry where
  ruleIndex : Nat
  ruleId : Nat
  allNegated : Bool
deriving DecidableEq, Repr

/-- The engine (engine.rs `RuleEngine`). -/
structure RuleEngine where
  rules : List Rule
  entries : List SortedEntry
  index : RuleIndex

/-- Build the engine (engine.rs `RuleEngine::new`): compile the index, sort
positions by descending priority (stable), precompute ids and the
all-negated flag. -/
def RuleEngine.new (rules : List Rule) : RuleEngine :=
  let index := RuleIndex.new rules
  let indices := stableSortIdx (ruleLe rules) (List.range rules.length)
  let entries := indices.map fun i =>
    { ruleIndex := i, ruleId := index.ruleId i,
      allNegated := (rules.getD i dfltRule).conditions.all Condition.negated }
  { rules := rules, entries := entries, index := index }

/-- True when none of the rule's negated conditions match the URL
(engine.rs `RuleEngine::no_negated_conditions_match`). -/
def noNegatedConditionsMatch (rule : Rule) (url : ParsedUrl) : Bool :=
  rule.conditions.all fun cond => !(cond.negated && matchesDirect cond url)

/-- Walk the sorted entries (engine.rs `RuleEngine::evaluate`, loop): skip
non-candidates that are not all-negated; return the first entry whose count
equals its non-negated total and whose negated conditions all fail. -/
def findAccepted (rules : List Rule) (nonNeg : List Nat)
    (cand : CandidateResult) (url : ParsedUrl) :
    List SortedEntry → Option (List Char)
  | [] => none
  | e :: rest =>
      if !cand.isCandidate e.ruleId && !e.allNegated then
        findAccepted rules nonNeg cand url rest
      else if cand.allSatisfied e.ruleId nonNeg
          && noNegatedConditionsMatch (rules.getD e.ruleIndex dfltRule) url then
        some (rules.getD e.ruleIndex dfltRule).result
      else findAccepted rules nonNeg cand url rest

/-- Evaluate a URL (engine.rs `RuleEngine::evaluate`).  The source reuses a
thread-local `CandidateResult`, which `query_candidates_into` resets before
use; the reusable scratch state is modelled by passing a fresh buffer. -/
def RuleEngine.evaluate (e : RuleEngine) (url : ParsedUrl) :
    Option (List Char) :=
  let cand := e.index.queryCandidatesInto url CandidateResult.new
  findAccepted e.rules e.index.nonNegatedCounts cand url e.entries

/-! ## Concrete instances exercising the index pipeline -/

/-- Single rule whose only condition is `Path Contains "a"` (not negated). -/
def ruleContainsA : Rule :=
  { name := cs ("r"), priority := 0,
    conditions := [{ part := .path, operator := .contains, value := cs ("a"), negated := false }],
    result := cs ("r") }

/-- URL whose path is `"aa"`: the pattern `"a"` occurs twice in it. -/
def urlPathAA : ParsedUrl :=
  { host := cs ("h"), path := cs ("aa"), file := [], query := [] }

/-- The character U+00E9 (a two-byte code point in UTF-8). -/
def eAcute : Char := Char.ofNat 233

/-- Single rule whose only condition is `Host Contains "\u{e9}"` (not
negated, non-ASCII value). -/
def ruleContainsAcute : Rule :=
  { name := cs ("e"), priority := 0,
    conditions := [{ part := .host, operator := .contains, value := [eAcute], negated := false }],
    result := cs ("e") }

/-- URL whose host is `"x\u{e9}y"`, which contains `"\u{e9}"`. -/
def urlAcuteHost : ParsedUrl :=
  { host := [Char.ofNat 120, eAcute, Char.ofNat 121], path := [], file := [], query := [] }

/-- C1: the claim states that `evaluate` returns the highest-priority rule
all of whose non-negated conditions match and none of whose negated
conditions match.  On the rule set `[Path Contains "a"]` and the URL with
path `"aa"` the single rule matches — its only condition holds by the
engine's own direct matcher and it has no negated conditions — yet
`evaluate` returns `none`: the Aho-Corasick scan emits the rule id once per
occurrence of `"a"`, the candidate count reaches 2, and the engine's
equality test `counts[id] == N[id]` (with `N[id] = 1`) fails.  The code
therefore contradicts the claimed (and documented) evaluation semantics on
this input. -/
theorem c1_evaluate_misses_matching_rule :
    (RuleEngine.new [ruleContainsA]).evaluate urlPathAA = none ∧
    ruleContainsA.conditions.all (fun c => matchesDirect c urlPathAA) = true ∧
    ruleContainsA.conditions.all (fun c => !c.negated) = true := by decide

/-- C2: the claim states that after one index query `counts[i] <= N[i]` for
every rule, with equality exactly when every non-negated condition matches.
On the rule set `[Path Contains "a"]` and the URL with path `"aa"` the
query leaves `counts[0] = 2` while `N[0] = 1`: the Aho-Corasick search
emits the rule id once per occurrence of the pattern, so a condition whose
value occurs several times in the part contributes several increments and
the claimed invariant `counts[i] <= N[i]` fails. -/
theorem c2_counts_exceed_non_negated :
    ((RuleIndex.new [ruleContainsA]).queryCandidates urlPathAA).satisfiedCounts.getD 0 0 = 2 ∧
    (RuleIndex.new [ruleContainsA]).nonNegatedCounts.getD 0 0 = 1 := by decide

/-- C3: the claim states that a non-negated Contains condition with a
non-ASCII value that semantically matches the URL part still contributes
its increment through the sparse non-ASCII map or fallback.  On the rule
set `[Host Contains "\u{e9}"]` and the URL with host `"x\u{e9}y"` the
condition matches by the engine's own direct matcher, but the index query
leaves `counts[0] = 0` and `evaluate` returns `none`: the index calls the
byte-oriented `search_bytes`, which resets the automaton to the root on
every byte at or above 128 (its documented precondition — all patterns
ASCII — is violated by the non-ASCII condition value), so the non-ASCII
pattern can never be reached and no increment is emitted. -/
theorem c3_nonascii_contains_not_counted :
    ((RuleIndex.new [ruleContainsAcute]).queryCandidates urlAcuteHost).satisfiedCounts.getD 0 0 = 0 ∧
    ruleContainsAcute.conditions.all (fun c => matchesDirect c urlAcuteHost) = true ∧
    (RuleEngine.new [ruleContainsAcute]).evaluate urlAcuteHost = none := by decide

/-! ## Claim C7: CandidateResult operation sequences

The interleavings of `ensure_capacity_and_reset` and `increment` named by
the claim are modelled as explicit operation lists acting on the buffer
state. -/

/-- One operation on a `CandidateResult` buffer. -/
inductive COp where
  | ensure (n : Nat)
  | inc (i : Nat)
deriving DecidableEq, Repr

/-- Run one operation. -/
def runCOp (c : CandidateResult) : COp → CandidateResult
  | .ensure n => c.ensureCapacityAndReset n
  | .inc i => c.increment i

/-- Run a sequence of operations from the left. -/
def runCOps (c : CandidateResult) (ops : List COp) : CandidateResult :=
  ops.foldl runCOp c

/-- Well-formed interleavings: every `increment i` happens under a most
recent `ensure_capacity_and_reset n` with `i < n` (in particular after at
least one reset, since the source would index out of bounds otherwise). -/
def wfCOps : Option Nat → List COp → Bool
  | _, [] => true
  | _, .ensure n :: rest => wfCOps (some n) rest
  | none, .inc _ :: _ => false
  | some n, .inc i :: rest => i < n && wfCOps (some n) rest

/-- Capacity requested by the most recent `ensure` of the sequence. -/
def lastEnsure : List COp → Option Nat
  | [] => none
  | .ensure n :: rest => some ((lastEnsure rest).getD n)
  | .inc _ :: rest => lastEnsure rest

/-- Number of `increment i` operations after the most recent `ensure`,
accumulated left to right. -/
def incsSinceResetAux (acc i : Nat) : List COp → Nat
  | [] => acc
  | .ensure _ :: rest => incsSinceResetAux 0 i rest
  | .inc j :: rest => incsSinceResetAux (if j = i then acc + 1 else acc) i rest

/-- Number of `increment i` operations since the most recent reset. -/
def incsSinceReset (i : Nat) (ops : List COp) : Nat := incsSinceResetAux 0 i ops

/-- Ghost counter transformer for one increment. -/
def bumpG (g : Nat → Nat) (i : Nat) : Nat → Nat :=
  fun j => if i = j then g j + 1 else g j

/-- Ghost counters after a sequence of operations. -/
def gAfter (g : Nat → Nat) : List COp → Nat → Nat
  | [] => g
  | .ensure _ :: rest => gAfter (fun _ => 0) rest
  | .inc i :: rest => gAfter (bumpG g i) rest

/-- State invariant tying a buffer to ghost per-index counters: the counts
are the ghost counters modulo 2^32, every nonzero slot is recorded in the
touched list, and all touched ids are in range. -/
def CandInv (s : CandidateResult) (n : Nat) (g : Nat → Nat) : Prop :=
  n ≤ s.satisfiedCounts.length ∧
  (∀ i, s.satisfiedCounts.getD i 0 = g i % U32MOD) ∧
  (∀ j, s.satisfiedCounts.getD j 0 ≠ 0 → j ∈ s.touched) ∧
  (∀ j, j ∈ s.touched → j < s.satisfiedCounts.length)

theorem getD_set_self (l : List Nat) (i a : Nat) (h : i < l.length) :
    (l.set i a).getD i 0 = a := by
  simp [List.getD_eq_getElem?_getD, List.getElem?_set_self, h]

theorem getD_set_ne (l : List Nat) (i j a : Nat) (h : i ≠ j) :
    (l.set i a).getD j 0 = l.getD j 0 := by
  simp [List.getD_eq_getElem?_getD, List.getElem?_set_ne h]

theorem getD_append_repl (l : List Nat) (k j : Nat) :
    (l ++ List.replicate k 0).getD j 0 = l.getD j 0 := by
  rcases lt_or_ge j l.length with h | h
  · simp [List.getD_eq_getElem?_getD, List.getElem?_append_left h]
  · rcases lt_or_ge j (l.length + k) with h2 | h2
    · have e1 : (l ++ List.replicate k 0)[j]? = some 0 := by
        rw [List.getElem?_append_right h, List.getElem?_replicate]
        simp only [if_pos (by omega : j - l.length < k)]
      simp [List.getD_eq_getElem?_getD, e1, List.getElem?_eq_none h]
    · have hj : (l ++ List.replicate k 0).length ≤ j := by simp; omega
      simp [List.getD_eq_getElem?_getD, List.getElem?_eq_none h,
        List.getElem?_eq_none hj]

theorem zeroTouched_length (ids counts : List Nat) :
    (zeroTouched counts ids).length = counts.length := by
  induction ids generalizing counts with
  | nil => rfl
  | cons id rest ih => rw [zeroTouched, ih]; simp

theorem zeroTouched_getD_notmem (ids counts : List Nat) (j : Nat)
    (h : j ∉ ids) :
    (zeroTouched counts ids).getD j 0 = counts.getD j 0 := by
  induction ids generalizing counts with
  | nil => rfl
  | cons id rest ih =>
      rw [zeroTouched, ih _ (by intro hmem; exact h (List.mem_cons_of_mem _ hmem)),
        getD_set_ne]
      intro hid
      exact h (hid ▸ List.mem_cons_self id rest)

theorem zeroTouched_getD_mem (ids counts : List Nat) (j : Nat)
    (hmem : j ∈ ids) (hlt : j < counts.length) :
    (zeroTouched counts ids).getD j 0 = 0 := by
  induction ids generalizing counts with
  | nil => simp at hmem
  | cons id rest ih =>
      rw [zeroTouched]
      by_cases hr : j ∈ rest
      · exact ih _ hr (by simpa using hlt)
      · have hid : id = j := by
          rcases List.mem_cons.mp hmem with h | h
          · exact h.symm
          · exact absurd h hr
        subst hid
        rw [zeroTouched_getD_notmem _ _ _ hr, getD_set_self _ _ _ hlt]

/-- After a reset every slot reads zero, provided every nonzero slot was
recorded as touched. -/
theorem ensure_reset_zeroes (s : CandidateResult) (m : Nat)
    (hc : ∀ j, s.satisfiedCounts.getD j 0 ≠ 0 → j ∈ s.touched)
    (ht : ∀ j, j ∈ s.touched → j < s.satisfiedCounts.length) :
    ∀ j, (s.ensureCapacityAndReset m).satisfiedCounts.getD j 0 = 0 := by
  intro j
  have key : (zeroTouched s.satisfiedCounts s.touched).getD j 0 = 0 := by
    by_cases hz : s.satisfiedCounts.getD j 0 = 0
    · by_cases hmem : j ∈ s.touched
      · exact zeroTouched_getD_mem _ _ _ hmem (ht j hmem)
      · rw [zeroTouched_getD_notmem _ _ _ hmem, hz]
    · exact zeroTouched_getD_mem _ _ _ (hc j hz) (ht j (hc j hz))
  rw [CandidateResult.ensureCapacityAndReset]
  by_cases hlen : (zeroTouched s.satisfiedCounts s.touched).length < m
  · simp only [hlen, if_true]
    rw [getD_append_repl]
    exact key
  · simp only [hlen, if_false]
    exact key

/-- `ensure_capacity_and_reset` reestablishes the invariant with fresh
capacity and zeroed ghost counters. -/
theorem CandInv.ensure (s : CandidateResult) (n : Nat) (g : Nat → Nat)
    (h : CandInv s n g) (m : Nat) :
    CandInv (s.ensureCapacityAndReset m) m (fun _ => 0) := by
  obtain ⟨hlen, hcnt, htch, hrng⟩ := h
  refine ⟨?_, ?_, ?_, ?_⟩
  · rw [CandidateResult.ensureCapacityAndReset]
    by_cases hlt : (zeroTouched s.satisfiedCounts s.touched).length < m
    · simp only [hlt, if_true]
      simp [zeroTouched_length]
      omega
    · simp only [hlt, if_false]
      simp only [zeroTouched_length] at hlt ⊢
      omega
  · intro i
    rw [ensure_reset_zeroes s m htch hrng i]
    simp [U32MOD]
  · intro j hj
    rw [ensure_reset_zeroes s m htch hrng j] at hj
    exact absurd rfl hj
  · intro j hj
    rw [CandidateResult.ensureCapacityAndReset] at hj
    by_cases hlt : (zeroTouched s.satisfiedCounts s.touched).length < m <;>
      simp [hlt] at hj

theorem increment_counts (s : CandidateResult) (i : Nat) :
    (s.increment i).satisfiedCounts
      = s.satisfiedCounts.set i ((s.satisfiedCounts.getD i 0 + 1) % U32MOD) := rfl

theorem increment_touched (s : CandidateResult) (i : Nat) :
    (s.increment i).touched
      = if s.satisfiedCounts.getD i 0 = 0 then s.touched ++ [i] else s.touched := rfl

/-- `increment i` (with `i` in capacity) bumps slot `i` modulo 2^32 and
preserves the invariant. -/
theorem CandInv.inc (s : CandidateResult) (n : Nat) (g : Nat → Nat)
    (h : CandInv s n g) (i : Nat) (hi : i < n) :
    CandInv (s.increment i) n (bumpG g i) := by
  obtain ⟨hlen, hcnt, htch, hrng⟩ := h
  have hilen : i < s.satisfiedCounts.length := lt_of_lt_of_le hi hlen
  refine ⟨?_, ?_, ?_, ?_⟩
  · rw [increment_counts]
    simpa using hlen
  · intro j
    by_cases hij : i = j
    · subst hij
      rw [increment_counts, getD_set_self _ _ _ hilen, hcnt i, bumpG]
      simp [Nat.mod_add_mod]
    · rw [increment_counts, getD_set_ne _ _ _ _ hij, hcnt j, bumpG]
      simp [hij]
  · intro j hj
    rw [increment_counts] at hj
    rw [increment_touched]
    by_cases hz : s.satisfiedCounts.getD i 0 = 0
    · rw [if_pos hz]
      by_cases hij : i = j
      · subst hij
        exact List.mem_append_right _ (List.mem_singleton.mpr rfl)
      · rw [getD_set_ne _ _ _ _ hij] at hj
        exact List.mem_append_left _ (htch j hj)
    · rw [if_neg hz]
      by_cases hij : i = j
      · subst hij
        exact htch i hz
      · rw [getD_set_ne _ _ _ _ hij] at hj
        exact htch j hj
  · intro j hj
    rw [increment_touched] at hj
    rw [increment_counts, List.length_set]
    by_cases hz : s.satisfiedCounts.getD i 0 = 0
    · rw [if_pos hz] at hj
      rcases List.mem_append.mp hj with hmem | hmem
      · exact hrng j hmem
      · rw [List.mem_singleton.mp hmem]
        exact hilen
    · rw [if_neg hz] at hj
      exact hrng j hj

/-- Capacity tracked along a run. -/
def nAfter (n : Nat) : List COp → Nat
  | [] => n
  | .ensure m :: rest => nAfter m rest
  | .inc _ :: rest => nAfter n rest

theorem gAfter_eq_incsAux (ops : List COp) :
    ∀ (g : Nat → Nat) (i : Nat), gAfter g ops i = incsSinceResetAux (g i) i ops := by
  induction ops with
  | nil => intro g i; rfl
  | cons op rest ih =>
      intro g i
      cases op with
      | ensure m => exact ih (fun _ => 0) i
      | inc j =>
          rw [gAfter, incsSinceResetAux, ih (bumpG g j) i, bumpG]

theorem wf_none_imp_zero (ops : List COp) (h : wfCOps none ops = true) :
    wfCOps (some 0) ops = true := by
  induction ops with
  | nil => rfl
  | cons op rest ih =>
      cases op with
      | ensure m => exact h
      | inc i => exact absurd h (by rw [wfCOps]; simp)

theorem nAfter_lastEnsure (ops : List COp) :
    ∀ k, nAfter k ops = (lastEnsure ops).getD k := by
  induction ops with
  | nil => intro k; rfl
  | cons op rest ih =>
      intro k
      cases op with
      | ensure m =>
          rw [nAfter, lastEnsure, ih m]
          simp
      | inc i => rw [nAfter, lastEnsure, ih k]

theorem candInv_new : CandInv CandidateResult.new 0 (fun _ => 0) := by
  refine ⟨Nat.zero_le _, ?_, ?_, ?_⟩
  · intro i; simp [CandidateResult.new, U32MOD]
  · intro j hj; simp [CandidateResult.new] at hj
  · intro j hj; simp [CandidateResult.new] at hj

theorem runCOps_inv (ops : List COp) :
    ∀ (s : CandidateResult) (n : Nat) (g : Nat → Nat),
      wfCOps (some n) ops = true → CandInv s n g →
      CandInv (runCOps s ops) (nAfter n ops) (gAfter g ops) := by
  induction ops with
  | nil => intro s n g _ hinv; exact hinv
  | cons op rest ih =>
      intro s n g hwf hinv
      cases op with
      | ensure m =>
          rw [wfCOps] at hwf
          exact ih _ m _ hwf (hinv.ensure _ _ _ m)
      | inc i =>
          rw [wfCOps] at hwf
          have hi : i < n := by
            have := (Bool.and_eq_true _ _).mp hwf
            simpa using this.1
          have hrest : wfCOps (some n) rest = true :=
            ((Bool.and_eq_true _ _).mp hwf).2
          exact ih _ n _ hrest (hinv.inc _ _ _ i hi)

theorem runCOps_append_one (s : CandidateResult) (ops : List COp) (op : COp) :
    runCOps s (ops ++ [op]) = runCOp (runCOps s ops) op := by
  rw [runCOps, runCOps, List.foldl_append]
  rfl

/-- C7: the claim says `counts[i]` equals the raw number of `increment(i)`
calls since the most recent reset.  The counters are `u32` and wrap: after
2^32 increments of slot 0 since the reset the slot reads 0, not 2^32, so the
claim as stated fails on this operation sequence. -/
theorem c7_wrap_counterexample :
    (runCOps CandidateResult.new
        (COp.ensure 1 :: List.replicate U32MOD (COp.inc 0))).satisfiedCounts.getD 0 0 = 0 ∧
    incsSinceReset 0 (COp.ensure 1 :: List.replicate U32MOD (COp.inc 0)) = U32MOD ∧
    (0 : Nat) ≠ U32MOD := by
  have hrep : ∀ (m : Nat) (s : CandidateResult) (v : Nat),
      0 < s.satisfiedCounts.length → s.satisfiedCounts.getD 0 0 = v → v < U32MOD →
      (runCOps s (List.replicate m (COp.inc 0))).satisfiedCounts.getD 0 0
        = (v + m) % U32MOD := by
    intro m
    induction m with
    | zero =>
        intro s v _ hv hlt
        simpa [runCOps, Nat.mod_eq_of_lt hlt] using hv
    | succ m ihm =>
        intro s v hlen hv hlt
        rw [List.replicate_succ]
        have step : runCOps s (COp.inc 0 :: List.replicate m (COp.inc 0))
            = runCOps (s.increment 0) (List.replicate m (COp.inc 0)) := rfl
        rw [step]
        have h1 : (s.increment 0).satisfiedCounts.getD 0 0 = (v + 1) % U32MOD := by
          rw [increment_counts, getD_set_self _ _ _ hlen, hv]
        have h2 : 0 < (s.increment 0).satisfiedCounts.length := by
          rw [increment_counts, List.length_set]; exact hlen
        rw [ihm _ _ h2 h1 (Nat.mod_lt _ (by norm_num [U32MOD]))]
        rw [Nat.mod_add_mod]
        ring_nf
  have haux : ∀ (m acc : Nat),
      incsSinceResetAux acc 0 (List.replicate m (COp.inc 0)) = acc + m := by
    intro m
    induction m with
    | zero => intro acc; simp [incsSinceResetAux]
    | succ m ihm =>
        intro acc
        rw [List.replicate_succ, incsSinceResetAux, if_pos rfl, ihm]
        omega
  refine ⟨?_, ?_, by norm_num [U32MOD]⟩
  · have step : ∀ L : List COp, runCOps CandidateResult.new (COp.ensure 1 :: L)
        = runCOps (CandidateResult.new.ensureCapacityAndReset 1) L := fun _ => rfl
    rw [step, hrep U32MOD _ 0 (by decide) (by decide) (by norm_num [U32MOD])]
    simp
  · rw [incsSinceReset, incsSinceResetAux, haux]
    omega

/-- C7 (amended): for every well-formed interleaving of
`ensure_capacity_and_reset(n)` and `increment(i)` (`i < n`) operations
starting from a fresh buffer, `counts[i]` equals the number of
`increment(i)` calls since the most recent reset reduced modulo 2^32 (the
counters are `u32`), `is_candidate(i)` returns true exactly when that
reduced count is nonzero, and a further reset — which zeroes only the
touched entries — leaves every entry reading zero. -/
theorem c7_candidate_counts_mod (ops : List COp)
    (hwf : wfCOps none ops = true) :
    (∀ n i, lastEnsure ops = some n → i < n →
      (runCOps CandidateResult.new ops).satisfiedCounts.getD i 0
          = incsSinceReset i ops % U32MOD ∧
      (runCOps CandidateResult.new ops).isCandidate i
          = decide (0 < incsSinceReset i ops % U32MOD)) ∧
    (∀ m j,
      (runCOps CandidateResult.new (ops ++ [COp.ensure m])).satisfiedCounts.getD j 0
        = 0) := by
  have hinv := runCOps_inv ops CandidateResult.new 0 (fun _ => 0)
    (wf_none_imp_zero ops hwf) candInv_new
  obtain ⟨hlen, hcnt, htch, hrng⟩ := hinv
  constructor
  · intro n i _ _
    have hval : (runCOps CandidateResult.new ops).satisfiedCounts.getD i 0
        = incsSinceReset i ops % U32MOD := by
      rw [hcnt i, gAfter_eq_incsAux, incsSinceReset]
    refine ⟨hval, ?_⟩
    rw [CandidateResult.isCandidate, hval]
  · intro m j
    rw [runCOps_append_one]
    exact ensure_reset_zeroes _ m htch hrng j

/-- C7 witness: a concrete well-formed interleaving, with the amended
theorem applied at it. -/
theorem c7_candidate_counts_mod_witness :
    wfCOps none [COp.ensure 2, COp.inc 0, COp.inc 0, COp.inc 1] = true ∧
    (runCOps CandidateResult.new
        [COp.ensure 2, COp.inc 0, COp.inc 0, COp.inc 1]).satisfiedCounts.getD 0 0
      = incsSinceReset 0 [COp.ensure 2, COp.inc 0, COp.inc 0, COp.inc 1] % U32MOD :=
  ⟨by decide,
    ((c7_candidate_counts_mod _ (by decide)).1 2 0 (by decide) (by decide)).1⟩

/-! ## Claim C9: misuse of the automaton lifecycle -/

/-- C9: the claim says calling `search` before `build()` is fatal for every
text.  In a release build the guard is only a `debug_assert!` (the source's
own doc comment says it panics "in debug builds"), and on the empty text the
scan loop touches no table, so the call returns normally with the
empty-pattern values: here an unbuilt automaton holding the pattern
`"test"` searches the empty text and returns `ok`. -/
theorem c9_search_unbuilt_empty_returns :
    (AC.new.insert (cs ("test")) 1).built = false ∧
    (AC.new.insert (cs ("test")) 1).searchE [] = .ok [] := by
  constructor
  · rfl
  · rfl

/-- C9 (amended): `insert` after `build()` panics for every pattern and
value (the `assert!` is unconditional); `search` and `search_bytes` before
`build()` — where the goto, extended and output tables are still empty —
panic on every nonempty text through an out-of-bounds table indexing, but
return normally on the empty text in release builds, where the
`debug_assert!` guard is compiled out. -/
theorem c9_lifecycle_misuse_panics :
    (∀ (V : Type) (ac : AC V) (p : List Char) (v : V), ac.built = true →
      ac.insertE p v = .error "Cannot insert after build()") ∧
    (∀ (V : Type) (ac : AC V), ac.gotoTable = [] → ac.extendedGoto = [] →
      ∀ (c : Char) (rest : List Char),
        ac.searchE (c :: rest) = .error "index out of bounds") ∧
    (∀ (V : Type) (ac : AC V), ac.gotoTable = [] → ac.output = [] →
      ∀ (b : Nat) (rest : List Nat),
        ac.searchBytesE (b :: rest) = .error "index out of bounds") := by
  refine ⟨?_, ?_, ?_⟩
  · intro V ac p v hb
    rw [AC.insertE, if_pos hb]
  · intro V ac hg he c rest
    rw [AC.searchE, acScanE, hg, he]
    by_cases hc : c.toNat < 128 <;> simp [hc]
  · intro V ac hg ho b rest
    rw [AC.searchBytesE, acScanBytesE, hg, ho]
    by_cases hb : b < 128 <;> simp [hb]

/-- C9 witness: the amended theorem applied at concrete misuse states — an
automaton built empty rejects an insert, and a fresh automaton holding one
pattern fails a one-character search and a one-byte byte search. -/
theorem c9_lifecycle_misuse_panics_witness :
    ((AC.new (V := Nat)).build.built = true ∧
      (AC.new (V := Nat)).build.insertE (cs ("test")) 1
        = .error "Cannot insert after build()") ∧
    ((AC.new.insert (cs ("test")) 1).searchE (cs ("t"))
        = .error "index out of bounds") ∧
    ((AC.new.insert (cs ("test")) 1).searchBytesE [116]
        = .error "index out of bounds") :=
  ⟨⟨rfl, c9_lifecycle_misuse_panics.1 Nat _ _ 1 rfl⟩,
    c9_lifecycle_misuse_panics.2.1 Nat _ rfl rfl (Char.ofNat 116) [],
    c9_lifecycle_misuse_panics.2.2 Nat _ rfl rfl 116 []⟩

/-! ## URL parser (src/rust/src/url.rs, `UrlParser`)

The parser is modelled at the level of characters: the source computes byte
indices into UTF-8 text and slices at them, which corresponds one-to-one to
character positions of the characters found.  `to_lowercase` is modelled
code-point-wise with `Char.toLower` and `trim`/whitespace with
`Char.isWhitespace`; error messages (the source formats the offending URL
into the message) are not modelled — every caller only branches on
`Ok`/`Err`. -/

/-- Trim leading and trailing whitespace (Rust `str::trim`). -/
def trimL (s : List Char) : List Char :=
  ((s.dropWhile Char.isWhitespace).reverse.dropWhile Char.isWhitespace).reverse

/-- Index of the first occurrence of a pattern (Rust `str::find` with a
string pattern), counting from `i`. -/
def findSubAux (pat : List Char) : Nat → List Char → Option Nat
  | i, [] => if pat.isEmpty then some i else none
  | i, c :: rest =>
      if isPrefL pat (c :: rest) then some i else findSubAux pat (i + 1) rest

/-- Index of the first occurrence of a pattern. -/
def findSub (s pat : List Char) : Option Nat := findSubAux pat 0 s

/-- Index of the first occurrence of a character (Rust `str::find(char)`). -/
def findCharAux (c : Char) : Nat → List Char → Option Nat
  | _, [] => none
  | i, x :: rest => if x = c then some i else findCharAux c (i + 1) rest

/-- Index of the first occurrence of a character. -/
def findChar (s : List Char) (c : Char) : Option Nat := findCharAux c 0 s

/-- Index of the last occurrence of a character (Rust `str::rfind(char)`). -/
def rfindCharAux (c : Char) : Nat → Option Nat → List Char → Option Nat
  | _, acc, [] => acc
  | i, acc, x :: rest => rfindCharAux c (i + 1) (if x = c then some i else acc) rest

/-- Index of the last occurrence of a character. -/
def rfindChar (s : List Char) (c : Char) : Option Nat := rfindCharAux c 0 none s

/-- Start of the host in the trimmed input (url.rs
`UrlParser::find_host_start`): an error when the scheme separator sits at
position 0, otherwise just past the separator, or 0 when absent. -/
def findHostStart (toParse : List Char) : Except Unit Nat :=
  match findSub toParse (cs ("://")) with
  | some 0 => .error ()
  | some pos => .ok (pos + 3)
  | none => .ok 0

/-- First delimiter position or the end of input (url.rs
`UrlParser::first_delimiter_or_end`). -/
def firstDelimiterOrEnd (toParse : List Char)
    (pathStart queryStart : Option Nat) : Nat :=
  match pathStart, queryStart with
  | some p, some q => min p q
  | some p, none => p
  | none, some q => q
  | none, none => toParse.length

/-- Strip a `:port` suffix from a host candidate (url.rs `extract_host`,
port-stripping step). -/
def stripPort (host : List Char) : List Char :=
  match findChar host ':' with
  | some colon => host.take colon
  | none => host

/-- Extract and lowercase the host (url.rs `UrlParser::extract_host`):
slice from `hostStart` to the first delimiter, strip the port, error when
empty. -/
def extractHost (toParse : List Char) (hostStart : Nat)
    (pathStart queryStart : Option Nat) : Except Unit (List Char) :=
  let hostEnd := firstDelimiterOrEnd toParse pathStart queryStart
  let host := stripPort ((toParse.take hostEnd).drop hostStart)
  if host.isEmpty then .error () else .ok (host.map Char.toLower)

/-- Extract the path (url.rs `UrlParser::extract_path`). -/
def extractPath (toParse : List Char)
    (pathStart queryStart : Option Nat) : List Char :=
  match pathStart, queryStart with
  | some p, none => toParse.drop p
  | some p, some q => if p < q then (toParse.take q).drop p else []
  | none, _ => []

/-- Extract the query (url.rs `UrlParser::extract_query`). -/
def extractQuery (toParse : List Char) (queryStart : Option Nat) : List Char :=
  match queryStart with
  | some q => toParse.drop (q + 1)
  | none => []

/-- Extract the file component from the path (url.rs
`UrlParser::extract_file`): the part after the last `/`, the whole path
when it has no `/`, empty for an empty path. -/
def extractFile (path : List Char) : List Char :=
  if path.isEmpty then []
  else
    match rfindChar path '/' with
    | some pos => path.drop (pos + 1)
    | none => path

/-- Parse a raw URL (url.rs `UrlParser::parse`). -/
def UrlParser.parse (raw : List Char) : Except Unit ParsedUrl :=
  let trimmed := trimL raw
  if trimmed.isEmpty then .error ()
  else
    match findHostStart trimmed with
    | .error e => .error e
    | .ok hostStart =>
        let pathStart := (findChar (trimmed.drop hostStart) '/').map (· + hostStart)
        let queryStart := (findChar (trimmed.drop hostStart) '?').map (· + hostStart)
        match extractHost trimmed hostStart pathStart queryStart with
        | .error e => .error e
        | .ok host =>
            let path := extractPath trimmed pathStart queryStart
            .ok { host := host, path := path, file := extractFile path,
                  query := extractQuery trimmed queryStart }

deriving instance DecidableEq for Except

theorem extractHost_ok_ne (toParse : List Char) (hs : Nat)
    (ps qs : Option Nat) (hostv : List Char)
    (h : extractHost toParse hs ps qs = .ok hostv) : hostv ≠ [] := by
  rw [extractHost] at h
  by_cases he : (stripPort ((toParse.take
      (firstDelimiterOrEnd toParse ps qs)).drop hs)).isEmpty
  · rw [if_pos he] at h
    exact absurd h (by simp)
  · rw [if_neg he] at h
    have : hostv = (stripPort ((toParse.take
        (firstDelimiterOrEnd toParse ps qs)).drop hs)).map Char.toLower := by
      cases h; rfl
    rw [this]
    intro hnil
    rw [List.map_eq_nil_iff] at hnil
    rw [hnil] at he
    exact he rfl

/-- C10: the parser returns an error not only on blank input but whenever no
host can be extracted — when the scheme separator sits at position 0, or
when the host segment before the first `/` or `?` (after stripping a
`:port` suffix) is empty — and never returns a `ParsedUrl` with an empty
host; the inputs `"://x"`, `"/path"` and `":8080/path"` named by the claim
all fail. -/
theorem c10_parse_requires_host :
    (∀ raw u, UrlParser.parse raw = .ok u → u.host ≠ []) ∧
    (∀ raw, trimL raw = [] → UrlParser.parse raw = .error ()) ∧
    (∀ raw, findSub (trimL raw) (cs ("://")) = some 0 →
      UrlParser.parse raw = .error ()) ∧
    (∀ raw hs, findHostStart (trimL raw) = .ok hs →
      stripPort (((trimL raw).take (firstDelimiterOrEnd (trimL raw)
          ((findChar ((trimL raw).drop hs) '/').map (· + hs))
          ((findChar ((trimL raw).drop hs) '?').map (· + hs)))).drop hs) = [] →
      UrlParser.parse raw = .error ()) ∧
    UrlParser.parse (cs ("://x")) = .error () ∧
    UrlParser.parse (cs ("/path")) = .error () ∧
    UrlParser.parse (cs (":8080/path")) = .error () := by
  refine ⟨?_, ?_, ?_, ?_, by decide, by decide, by decide⟩
  · intro raw u h
    rw [UrlParser.parse] at h
    by_cases ht : (trimL raw).isEmpty
    · rw [if_pos ht] at h
      exact absurd h (by simp)
    · rw [if_neg ht] at h
      cases hfh : findHostStart (trimL raw) with
      | error e => rw [hfh] at h; exact absurd h (by simp)
      | ok hs =>
          rw [hfh] at h
          simp only at h
          cases heh : extractHost (trimL raw) hs
              ((findChar ((trimL raw).drop hs) '/').map (· + hs))
              ((findChar ((trimL raw).drop hs) '?').map (· + hs)) with
          | error e => rw [heh] at h; exact absurd h (by simp)
          | ok hostv =>
              rw [heh] at h
              simp only [Except.ok.injEq] at h
              have hne := extractHost_ok_ne _ _ _ _ _ heh
              rw [← h]
              exact hne
  · intro raw ht
    rw [UrlParser.parse, if_pos (by rw [ht]; rfl)]
  · intro raw hsep
    rw [UrlParser.parse]
    by_cases ht : (trimL raw).isEmpty
    · rw [if_pos ht]
    · rw [if_neg ht]
      have : findHostStart (trimL raw) = .error () := by
        rw [findHostStart, hsep]
      rw [this]
  · intro raw hs hfh hseg
    rw [UrlParser.parse]
    by_cases ht : (trimL raw).isEmpty
    · rw [if_pos ht]
    · rw [if_neg ht, hfh]
      simp only
      have : extractHost (trimL raw) hs
          ((findChar ((trimL raw).drop hs) '/').map (· + hs))
          ((findChar ((trimL raw).drop hs) '?').map (· + hs)) = .error () := by
        rw [extractHost, if_pos (by rw [hseg]; rfl)]
      rw [this]

/-- C10 witness: the theorem applied at concrete inputs — a successfully
parsed URL has a nonempty host, and a blank line is rejected. -/
theorem c10_parse_requires_host_witness :
    ({ host := cs ("example.com"), path := cs ("/path"), file := cs ("path"),
       query := [] } : ParsedUrl).host ≠ [] ∧
    UrlParser.parse (cs ("  ")) = .error () :=
  ⟨c10_parse_requires_host.1 (cs ("https://example.com/path")) _ (by decide),
    c10_parse_requires_host.2.1 (cs ("  ")) (by decide)⟩

/-! ## Batch processor (src/rust/src/batch.rs)

`process_lines` maps `evaluate_line` over the non-blank lines with a rayon
parallel iterator whose `collect` preserves encounter order; the shallow
embedding is the order-preserving filter-then-map. -/

/-- Result of evaluating one URL line (batch.rs `UrlResult`). -/
structure UrlResult where
  url : List Char
  result : List Char
deriving DecidableEq, Repr

/-- Evaluate one line (batch.rs `BatchProcessor::evaluate_line`): parse the
trimmed line; on parse failure the result is `INVALID_URL`, on a
no-rule-matched evaluation it is `NO_MATCH`. -/
def evaluateLine (e : RuleEngine) (line : List Char) : UrlResult :=
  let stripped := trimL line
  match UrlParser.parse stripped with
  | .ok parsed =>
      match e.evaluate parsed with
      | some r => { url := stripped, result := r }
      | none => { url := stripped, result := cs ("NO_MATCH") }
  | .error _ => { url := stripped, result := cs ("INVALID_URL") }

/-- Batch evaluation (batch.rs `BatchProcessor::process_lines`): skip lines
that trim to nothing, evaluate the rest in input order. -/
def processLines (e : RuleEngine) (lines : List (List Char)) : List UrlResult :=
  (lines.filter fun line => !(trimL line).isEmpty).map (evaluateLine e)

/-- C8: batch processing yields exactly one result per non-blank line, in
input order (the result at position `j` is the evaluation of the `j`-th
non-blank line); a line whose URL fails to parse yields `INVALID_URL`
without affecting the rest, and a parsed line matching no rule yields
`NO_MATCH`. -/
theorem c8_batch_per_line (e : RuleEngine) (lines : List (List Char)) :
    (processLines e lines).length
        = (lines.filter fun l => !(trimL l).isEmpty).length ∧
    (∀ j : Nat, (processLines e lines)[j]?
        = ((lines.filter fun l => !(trimL l).isEmpty)[j]?).map (evaluateLine e)) ∧
    (∀ l, (UrlParser.parse (trimL l)).isOk = false →
      evaluateLine e l = { url := trimL l, result := cs ("INVALID_URL") }) ∧
    (∀ l u, UrlParser.parse (trimL l) = .ok u → e.evaluate u = none →
      evaluateLine e l = { url := trimL l, result := cs ("NO_MATCH") }) ∧
    (∀ l u r, UrlParser.parse (trimL l) = .ok u → e.evaluate u = some r →
      evaluateLine e l = { url := trimL l, result := r }) := by
  refine ⟨by rw [processLines, List.length_map], ?_, ?_, ?_, ?_⟩
  · intro j
    rw [processLines, List.getElem?_map]
  · intro l hp
    cases hc : UrlParser.parse (trimL l) with
    | ok u => rw [hc] at hp; exact Bool.noConfusion (show true = false from hp)
    | error err => simp [evaluateLine, hc]
  · intro l u hp he
    simp [evaluateLine, hp, he]
  · intro l u r hp he
    simp [evaluateLine, hp, he]

/-- C8 witness: the theorem applied at a concrete engine and batch — the
unparsable line `"://bad-url"` yields `INVALID_URL` and an unmatched URL
yields `NO_MATCH`. -/
theorem c8_batch_per_line_witness :
    evaluateLine (RuleEngine.new [ruleContainsA]) (cs ("://bad-url"))
        = { url := cs ("://bad-url"), result := cs ("INVALID_URL") } ∧
    evaluateLine (RuleEngine.new [ruleContainsA]) (cs ("https://other.org/nix"))
        = { url := cs ("https://other.org/nix"), result := cs ("NO_MATCH") } := by
  constructor
  · have h := (c8_batch_per_line (RuleEngine.new [ruleContainsA]) []).2.2.1
      (cs ("://bad-url")) (by decide)
    rw [h]
    congr 1
  · have h := (c8_batch_per_line (RuleEngine.new [ruleContainsA]) []).2.2.2.1
      (cs ("https://other.org/nix"))
      { host := cs ("other.org"), path := cs ("/nix"), file := cs ("nix"), query := [] }
      (by decide) (by decide)
    rw [h]
    congr 1

/-! ## Claim C4: the indexed EndsWith path

The counterexample below shows the claimed byte-reversal equivalence fails
for a non-ASCII value (the insert side reverses code points, the query side
reverses bytes); the amended equivalence is proved for ASCII values over
the singleton trie holding the condition's entry, exactly the reduction the
claim describes. -/

theorem getNode_setNode_self {V : Type} (nodes : List (TrieNode V)) (i : Nat)
    (n : TrieNode V) (h : i < nodes.length) :
    getNode (setNode nodes i n) i = n := by
  rw [getNode, setNode, List.getD_eq_getElem?_getD, List.getElem?_set_self h]
  rfl

theorem getNode_setNode_ne {V : Type} (nodes : List (TrieNode V)) (i j : Nat)
    (n : TrieNode V) (h : i ≠ j) :
    getNode (setNode nodes i n) j = getNode nodes j := by
  rw [getNode, setNode, getNode, List.getD_eq_getElem?_getD,
    List.getD_eq_getElem?_getD, List.getElem?_set_ne h]

theorem getNode_append_lt {V : Type} (nodes : List (TrieNode V))
    (x : TrieNode V) (n : Nat) (h : n < nodes.length) :
    getNode (nodes ++ [x]) n = getNode nodes n := by
  rw [getNode, getNode, List.getD_eq_getElem?_getD, List.getD_eq_getElem?_getD,
    List.getElem?_append_left h]

theorem getNode_append_self {V : Type} (nodes : List (TrieNode V))
    (x : TrieNode V) :
    getNode (nodes ++ [x]) nodes.length = x := by
  rw [getNode, List.getD_eq_getElem?_getD, List.getElem?_append_right le_rfl]
  simp

theorem pushValue_length {V : Type} (nodes : List (TrieNode V)) (i : Nat)
    (v : V) : (pushValue nodes i v).length = nodes.length := by
  rw [pushValue, setNode, List.length_set]

theorem getNode_pushValue_self {V : Type} (nodes : List (TrieNode V)) (i : Nat)
    (v : V) (h : i < nodes.length) :
    getNode (pushValue nodes i v) i
      = { getNode nodes i with values := (getNode nodes i).values ++ [v] } := by
  rw [pushValue, getNode_setNode_self _ _ _ h]

theorem getNode_pushValue_ne {V : Type} (nodes : List (TrieNode V)) (i j : Nat)
    (v : V) (h : i ≠ j) :
    getNode (pushValue nodes i v) j = getNode nodes j := by
  rw [pushValue, getNode_setNode_ne _ _ _ _ h]

theorem withChild_values {V : Type} (n : TrieNode V) (c : Char) (t : Nat) :
    (n.withChild c t).values = n.values := by
  rw [TrieNode.withChild]
  by_cases hc : c.toNat < 128 <;> simp [hc]

theorem byteWalkCollect_cons_some {V : Type} (nodes : List (TrieNode V))
    (cur nxt b : Nat) (bs : List Nat) (hb : b < 128)
    (h : (getNode nodes cur).ascii b = some nxt) :
    byteWalkCollect nodes cur (b :: bs)
      = (getNode nodes nxt).values ++ byteWalkCollect nodes nxt bs := by
  rw [byteWalkCollect, if_pos hb, h]

theorem byteWalkCollect_cons_none {V : Type} (nodes : List (TrieNode V))
    (cur b : Nat) (bs : List Nat) (hb : b < 128)
    (h : (getNode nodes cur).ascii b = none) :
    byteWalkCollect nodes cur (b :: bs) = [] := by
  rw [byteWalkCollect, if_pos hb, h]

theorem byteWalkCollect_cons_big {V : Type} (nodes : List (TrieNode V))
    (cur b : Nat) (bs : List Nat) (hb : ¬b < 128) :
    byteWalkCollect nodes cur (b :: bs) = [] := by
  rw [byteWalkCollect, if_neg hb]

/-- Inserting a key below a childless node and depositing `v` at the tip
grows the arena by one fresh chain node per character, leaves every other
node untouched, and makes the byte walk below that node emit exactly `[v]`
— precisely when the key is nonempty, all-ASCII, and its code points, read
as bytes, are a prefix of the walked input. -/
theorem insertWalk_chain {V : Type} (key : List Char) :
    ∀ (nodes : List (TrieNode V)) (cur : Nat) (v : V),
      cur < nodes.length →
      (getNode nodes cur).ascii = (fun _ => none) →
      (getNode nodes cur).extended = [] →
      (pushValue (insertWalk nodes cur key).1 (insertWalk nodes cur key).2 v).length
          = nodes.length + key.length ∧
      (∀ n, n < nodes.length → n ≠ cur →
        getNode (pushValue (insertWalk nodes cur key).1 (insertWalk nodes cur key).2 v) n
          = getNode nodes n) ∧
      (getNode (pushValue (insertWalk nodes cur key).1 (insertWalk nodes cur key).2 v) cur).values
          = (getNode nodes cur).values ++ (if key = [] then [v] else []) ∧
      (∀ input : List Nat,
        byteWalkCollect (pushValue (insertWalk nodes cur key).1 (insertWalk nodes cur key).2 v) cur input
          = if key ≠ [] ∧ (∀ c ∈ key, c.toNat < 128)
                ∧ isPrefB (key.map Char.toNat) input = true
            then [v] else []) := by
  induction key with
  | nil =>
      intro nodes cur v hcur hascii hext
      have hwalk : insertWalk nodes cur ([] : List Char) = (nodes, cur) := rfl
      rw [hwalk]
      have hget := getNode_pushValue_self nodes cur v hcur
      refine ⟨by simpa using pushValue_length nodes cur v, ?_, ?_, ?_⟩
      · intro n _ hn
        exact getNode_pushValue_ne nodes cur n v (fun h => hn h.symm)
      · rw [hget]; simp
      · intro input
        have hcond : ¬(([] : List Char) ≠ [] ∧ (∀ c ∈ ([] : List Char), c.toNat < 128)
            ∧ isPrefB (([] : List Char).map Char.toNat) input = true) := by
          intro h; exact h.1 rfl
        rw [if_neg hcond]
        cases input with
        | nil => rfl
        | cons b bs =>
            by_cases hb : b < 128
            · refine byteWalkCollect_cons_none _ _ _ _ hb ?_
              rw [hget]
              show (getNode nodes cur).ascii b = none
              rw [hascii]
            · exact byteWalkCollect_cons_big _ _ _ _ hb
  | cons c rest ih =>
      intro nodes cur v hcur hascii hext
      have hchild : (getNode nodes cur).child c = none := by
        rw [TrieNode.child]
        by_cases hc : c.toNat < 128
        · rw [if_pos hc, hascii]
        · rw [if_neg hc, hext]; rfl
      have hcc : childOrCreate nodes cur c
          = (setNode (nodes ++ [TrieNode.empty]) cur
              ((getNode nodes cur).withChild c nodes.length), nodes.length) := by
        rw [childOrCreate, hchild]
        simp only
        rw [getNode_append_lt _ _ _ hcur]
      have hwalk : insertWalk nodes cur (c :: rest)
          = insertWalk (setNode (nodes ++ [TrieNode.empty]) cur
              ((getNode nodes cur).withChild c nodes.length)) nodes.length rest := by
        rw [insertWalk, hcc]
      have h1len : (setNode (nodes ++ [TrieNode.empty]) cur
          ((getNode nodes cur).withChild c nodes.length)).length
            = nodes.length + 1 := by
        rw [setNode, List.length_set, List.length_append]
        rfl
      have hN : nodes.length < (setNode (nodes ++ [TrieNode.empty]) cur
          ((getNode nodes cur).withChild c nodes.length)).length := by
        rw [h1len]; omega
      have hgetN : getNode (setNode (nodes ++ [TrieNode.empty]) cur
          ((getNode nodes cur).withChild c nodes.length)) nodes.length
            = TrieNode.empty := by
        rw [getNode_setNode_ne _ _ _ _ (Nat.ne_of_lt hcur), getNode_append_self]
      have hgetCur : getNode (setNode (nodes ++ [TrieNode.empty]) cur
          ((getNode nodes cur).withChild c nodes.length)) cur
            = (getNode nodes cur).withChild c nodes.length := by
        refine getNode_setNode_self _ _ _ ?_
        rw [List.length_append]
        simp only [List.length_singleton]
        omega
      have hother : ∀ n, n < nodes.length → n ≠ cur →
          getNode (setNode (nodes ++ [TrieNode.empty]) cur
            ((getNode nodes cur).withChild c nodes.length)) n = getNode nodes n := by
        intro n hn hnc
        rw [getNode_setNode_ne _ _ _ _ (fun h => hnc h.symm),
          getNode_append_lt _ _ _ hn]
      obtain ⟨i1, i2, i3, i4⟩ := ih
        (setNode (nodes ++ [TrieNode.empty]) cur
          ((getNode nodes cur).withChild c nodes.length)) nodes.length v hN
        (by rw [hgetN]; rfl) (by rw [hgetN]; rfl)
      rw [hwalk]
      have hcurlt1 : cur < (setNode (nodes ++ [TrieNode.empty]) cur
          ((getNode nodes cur).withChild c nodes.length)).length := by
        rw [h1len]; omega
      have hcurArena : getNode (pushValue
          (insertWalk (setNode (nodes ++ [TrieNode.empty]) cur
            ((getNode nodes cur).withChild c nodes.length)) nodes.length rest).1
          (insertWalk (setNode (nodes ++ [TrieNode.empty]) cur
            ((getNode nodes cur).withChild c nodes.length)) nodes.length rest).2 v) cur
          = (getNode nodes cur).withChild c nodes.length := by
        rw [i2 cur hcurlt1 (Nat.ne_of_lt hcur), hgetCur]
      refine ⟨?_, ?_, ?_, ?_⟩
      · rw [i1, h1len, List.length_cons]
        omega
      · intro n hn hnc
        rw [i2 n (by omega) (Nat.ne_of_lt hn), hother n hn hnc]
      · rw [hcurArena, withChild_values]
        simp
      · intro input
        cases input with
        | nil =>
            have hcond : ¬((c :: rest) ≠ [] ∧ (∀ x ∈ c :: rest, x.toNat < 128)
                ∧ isPrefB ((c :: rest).map Char.toNat) [] = true) := by
              rintro ⟨_, _, hp⟩
              rw [List.map_cons, isPrefB] at hp
              exact Bool.noConfusion hp
            rw [if_neg hcond]
            rfl
        | cons b bs =>
            by_cases hb : b < 128
            · by_cases hc : c.toNat < 128
              · by_cases hbc : b = c.toNat
                · have hstep : (getNode (pushValue
                      (insertWalk (setNode (nodes ++ [TrieNode.empty]) cur
                        ((getNode nodes cur).withChild c nodes.length)) nodes.length rest).1
                      (insertWalk (setNode (nodes ++ [TrieNode.empty]) cur
                        ((getNode nodes cur).withChild c nodes.length)) nodes.length rest).2 v)
                      cur).ascii b = some nodes.length := by
                    rw [hcurArena, TrieNode.withChild, if_pos hc]
                    show (if b = c.toNat then some nodes.length
                        else (getNode nodes cur).ascii b) = some nodes.length
                    rw [if_pos hbc]
                  rw [byteWalkCollect_cons_some _ _ _ _ _ hb hstep, i3, i4 bs, hgetN]
                  have hpref : isPrefB ((c :: rest).map Char.toNat) (b :: bs)
                      = isPrefB (rest.map Char.toNat) bs := by
                    rw [List.map_cons, isPrefB]
                    simp [hbc]
                  by_cases hrest : rest = []
                  · subst hrest
                    have hcond : (c :: ([] : List Char)) ≠ []
                        ∧ (∀ x ∈ [c], x.toNat < 128)
                        ∧ isPrefB ([c].map Char.toNat) (b :: bs) = true := by
                      refine ⟨by simp, by simpa using hc, ?_⟩
                      rw [List.map_cons, List.map_nil, isPrefB]
                      simp [hbc, isPrefB]
                    rw [if_pos hcond]
                    have hneg : ¬(([] : List Char) ≠ []
                        ∧ (∀ x ∈ ([] : List Char), x.toNat < 128)
                        ∧ isPrefB (([] : List Char).map Char.toNat) bs = true) := by
                      intro h; exact h.1 rfl
                    rw [if_neg hneg]
                    simp [TrieNode.empty]
                  · have hval : (if rest = [] then [v] else ([] : List V)) = [] :=
                      if_neg hrest
                    rw [hval]
                    by_cases hrc : (∀ x ∈ rest, x.toNat < 128)
                        ∧ isPrefB (rest.map Char.toNat) bs = true
                    · have hc1 : rest ≠ [] ∧ (∀ x ∈ rest, x.toNat < 128)
                          ∧ isPrefB (rest.map Char.toNat) bs = true :=
                        ⟨hrest, hrc.1, hrc.2⟩
                      have hc2 : (c :: rest) ≠ [] ∧ (∀ x ∈ c :: rest, x.toNat < 128)
                          ∧ isPrefB ((c :: rest).map Char.toNat) (b :: bs) = true := by
                        refine ⟨by simp, ?_, by rw [hpref]; exact hrc.2⟩
                        intro x hx
                        rcases List.mem_cons.mp hx with h | h
                        · rw [h]; exact hc
                        · exact hrc.1 x h
                      rw [if_pos hc1, if_pos hc2]
                      simp [TrieNode.empty]
                    · have hc1 : ¬(rest ≠ [] ∧ (∀ x ∈ rest, x.toNat < 128)
                          ∧ isPrefB (rest.map Char.toNat) bs = true) := by
                        rintro ⟨_, h2, h3⟩; exact hrc ⟨h2, h3⟩
                      have hc2 : ¬((c :: rest) ≠ []
                          ∧ (∀ x ∈ c :: rest, x.toNat < 128)
                          ∧ isPrefB ((c :: rest).map Char.toNat) (b :: bs) = true) := by
                        rintro ⟨_, h2, h3⟩
                        rw [hpref] at h3
                        exact hrc ⟨fun x hx => h2 x (List.mem_cons_of_mem _ hx), h3⟩
                      rw [if_neg hc1, if_neg hc2]
                      simp [TrieNode.empty]
                · have hstep : (getNode (pushValue
                      (insertWalk (setNode (nodes ++ [TrieNode.empty]) cur
                        ((getNode nodes cur).withChild c nodes.length)) nodes.length rest).1
                      (insertWalk (setNode (nodes ++ [TrieNode.empty]) cur
                        ((getNode nodes cur).withChild c nodes.length)) nodes.length rest).2 v)
                      cur).ascii b = none := by
                    rw [hcurArena, TrieNode.withChild, if_pos hc]
                    show (if b = c.toNat then some nodes.length
                        else (getNode nodes cur).ascii b) = none
                    rw [if_neg hbc]
                    rw [hascii]
                  rw [byteWalkCollect_cons_none _ _ _ _ hb hstep]
                  have hcond : ¬((c :: rest) ≠ [] ∧ (∀ x ∈ c :: rest, x.toNat < 128)
                      ∧ isPrefB ((c :: rest).map Char.toNat) (b :: bs) = true) := by
                    rintro ⟨_, _, hp⟩
                    rw [List.map_cons, isPrefB, Bool.and_eq_true] at hp
                    exact hbc (of_decide_eq_true hp.1).symm
                  rw [if_neg hcond]
              · have hstep : (getNode (pushValue
                    (insertWalk (setNode (nodes ++ [TrieNode.empty]) cur
                      ((getNode nodes cur).withChild c nodes.length)) nodes.length rest).1
                    (insertWalk (setNode (nodes ++ [TrieNode.empty]) cur
                      ((getNode nodes cur).withChild c nodes.length)) nodes.length rest).2 v)
                    cur).ascii b = none := by
                  rw [hcurArena, TrieNode.withChild, if_neg hc]
                  show (getNode nodes cur).ascii b = none
                  rw [hascii]
                rw [byteWalkCollect_cons_none _ _ _ _ hb hstep]
                have hcond : ¬((c :: rest) ≠ [] ∧ (∀ x ∈ c :: rest, x.toNat < 128)
                    ∧ isPrefB ((c :: rest).map Char.toNat) (b :: bs) = true) := by
                  rintro ⟨_, ha, _⟩
                  exact hc (ha c (List.mem_cons_self c rest))
                rw [if_neg hcond]
            · rw [byteWalkCollect_cons_big _ _ _ _ hb]
              have hcond : ¬((c :: rest) ≠ [] ∧ (∀ x ∈ c :: rest, x.toNat < 128)
                  ∧ isPrefB ((c :: rest).map Char.toNat) (b :: bs) = true) := by
                rintro ⟨_, ha, hp⟩
                rw [List.map_cons, isPrefB, Bool.and_eq_true] at hp
                have hcb := of_decide_eq_true hp.1
                have := ha c (List.mem_cons_self c rest)
                omega
              rw [if_neg hcond]

/-- Byte-prefix scan over the singleton trie of one insert: the deposited
value is emitted exactly when the key — required nonempty — is all-ASCII
and a byte-prefix of the input; an empty key is emitted unconditionally. -/
theorem trieSingle_findBytes {V : Type} (key : List Char) (v : V)
    (input : List Nat) :
    ((Trie.new : Trie V).insert key v).findPrefixesOfBytes input
      = if key = [] then [v]
        else if (∀ c ∈ key, c.toNat < 128)
            ∧ isPrefB (key.map Char.toNat) input = true
          then [v] else [] := by
  by_cases hk : key = []
  · subst hk
    rw [if_pos rfl, Trie.insert, if_pos rfl, Trie.findPrefixesOfBytes]
    have hwalk : ∀ inp : List Nat,
        byteWalkCollect ([TrieNode.empty] : List (TrieNode V)) 0 inp = [] := by
      intro inp
      cases inp with
      | nil => rfl
      | cons b bs =>
          by_cases hb : b < 128
          · exact byteWalkCollect_cons_none _ _ _ _ hb rfl
          · exact byteWalkCollect_cons_big _ _ _ _ hb
    show ([] : List V) ++ [v] ++ byteWalkCollect [TrieNode.empty] 0 input = [v]
    rw [hwalk]
    rfl
  · rw [if_neg hk, Trie.insert, if_neg hk, Trie.findPrefixesOfBytes]
    obtain ⟨_, _, _, h4⟩ := insertWalk_chain key
      ((Trie.new : Trie V).nodes) 0 v (by rw [Trie.new]; simp) rfl rfl
    show ([] : List V) ++ byteWalkCollect
        (pushValue (insertWalk (Trie.new : Trie V).nodes 0 key).1
          (insertWalk (Trie.new : Trie V).nodes 0 key).2 v) 0 input = _
    rw [List.nil_append, h4 input]
    by_cases hcond : (∀ c ∈ key, c.toNat < 128)
        ∧ isPrefB (key.map Char.toNat) input = true
    · rw [if_pos ⟨hk, hcond.1, hcond.2⟩, if_pos hcond]
    · rw [if_neg (fun h => hcond ⟨h.2.1, h.2.2⟩), if_neg hcond]

theorem isPrefB_iff (p s : List Nat) : isPrefB p s = true ↔ p <+: s := by
  induction p generalizing s with
  | nil => simp [isPrefB]
  | cons x xs ih =>
      cases s with
      | nil =>
          rw [isPrefB]
          simp
      | cons y ys =>
          rw [isPrefB, Bool.and_eq_true, List.cons_prefix_cons, ih]
          simp

theorem isPrefL_iff (p s : List Char) : isPrefL p s = true ↔ p <+: s := by
  induction p generalizing s with
  | nil => simp [isPrefL]
  | cons x xs ih =>
      cases s with
      | nil =>
          rw [isPrefL]
          simp
      | cons y ys =>
          rw [isPrefL, Bool.and_eq_true, List.cons_prefix_cons, ih]
          simp

theorem isSuffL_iff (p s : List Char) : isSuffL p s = true ↔ p <:+ s := by
  rw [isSuffL, isPrefL_iff, List.reverse_prefix]

theorem strBytes_cons (c : Char) (s : List Char) :
    strBytes (c :: s) = utf8Bytes c ++ strBytes s := by
  rw [strBytes, List.map_cons, List.flatten_cons]
  rfl

theorem strBytes_append (a b : List Char) :
    strBytes (a ++ b) = strBytes a ++ strBytes b := by
  rw [strBytes, strBytes, strBytes, List.map_append, List.flatten_append]

theorem strBytes_ascii (s : List Char) (h : ∀ c ∈ s, c.toNat < 128) :
    strBytes s = s.map Char.toNat := by
  induction s with
  | nil => rfl
  | cons c rest ih =>
      rw [strBytes_cons, List.map_cons,
        ih (fun x hx => h x (List.mem_cons_of_mem _ hx))]
      have hc : utf8Bytes c = [c.toNat] := by
        rw [utf8Bytes]
        simp only [if_pos (h c (List.mem_cons_self c rest))]
      rw [hc]
      rfl

/-- Shape of one UTF-8 encoding: a leading byte followed by continuation
bytes; the leading byte is below 128 exactly for ASCII (which encodes as the
single byte of its code point), and all continuation bytes are at least
128. -/
theorem utf8Bytes_shape (c : Char) :
    ∃ b0 bs, utf8Bytes c = b0 :: bs
      ∧ (c.toNat < 128 → b0 = c.toNat ∧ bs = [])
      ∧ (¬c.toNat < 128 → 128 ≤ b0)
      ∧ (∀ b ∈ bs, 128 ≤ b) := by
  rw [utf8Bytes]
  by_cases h1 : c.toNat < 128
  · refine ⟨c.toNat, [], by simp [h1], fun _ => ⟨rfl, rfl⟩, fun h => absurd h1 h, by simp⟩
  · by_cases h2 : c.toNat < 2048
    · refine ⟨192 + c.toNat / 64, [128 + c.toNat % 64], by simp [h1, h2], ?_, ?_, ?_⟩
      · intro h; exact absurd h h1
      · intro _; omega
      · intro b hb
        simp at hb
        omega
    · by_cases h3 : c.toNat < 65536
      · refine ⟨224 + c.toNat / 4096,
          [128 + c.toNat / 64 % 64, 128 + c.toNat % 64], by simp [h1, h2, h3],
          ?_, ?_, ?_⟩
        · intro h; exact absurd h h1
        · intro _; omega
        · intro b hb
          simp at hb
          rcases hb with h | h <;> omega
      · refine ⟨240 + c.toNat / 262144,
          [128 + c.toNat / 4096 % 64, 128 + c.toNat / 64 % 64, 128 + c.toNat % 64],
          by simp [h1, h2, h3], ?_, ?_, ?_⟩
        · intro h; exact absurd h h1
        · intro _; omega
        · intro b hb
          simp at hb
          rcases hb with h | h | h <;> omega

theorem strBytes_nil_iff (u : List Char) : strBytes u = [] ↔ u = [] := by
  cases u with
  | nil => simp [strBytes]
  | cons c rest =>
      obtain ⟨b0, bs, he, _, _, _⟩ := utf8Bytes_shape c
      rw [strBytes_cons, he]
      simp

theorem char_toNat_inj (c d : Char) (h : c.toNat = d.toNat) : c = d := by
  apply Char.ext
  have h2 : c.val.toNat = d.val.toNat := h
  exact UInt32.toNat.inj h2

/-- A byte suffix made of ASCII code points decomposes at a character
boundary: when the UTF-8 bytes of `u` end in the byte image of an ASCII
string `value`, `u` itself ends in `value`. -/
theorem utf8_suffix_decompose (u : List Char) :
    ∀ (value : List Char) (xs : List Nat),
      (∀ c ∈ value, c.toNat < 128) →
      strBytes u = xs ++ value.map Char.toNat →
      ∃ u1, u = u1 ++ value ∧ strBytes u1 = xs := by
  induction u with
  | nil =>
      intro value xs hv heq
      have h0 : ([] : List Nat) = xs ++ value.map Char.toNat := heq
      have hxs : xs = [] ∧ value.map Char.toNat = [] :=
        List.append_eq_nil.mp h0.symm
      have hval : value = [] := List.map_eq_nil_iff.mp hxs.2
      refine ⟨[], by rw [hval]; rfl, by rw [hxs.1]; rfl⟩
  | cons c u1 ih =>
      intro value xs hv heq
      rw [strBytes_cons] at heq
      rcases List.append_eq_append_iff.mp heq with ⟨a, ha1, ha2⟩ | ⟨t, ht1, ht2⟩
      · -- xs = utf8 c ++ a and strBytes u1 = a ++ value.map
        obtain ⟨w, hw1, hw2⟩ := ih value a hv ha2
        exact ⟨c :: w, by rw [hw1]; rfl, by rw [strBytes_cons, hw2, ha1]⟩
      · -- utf8 c = xs ++ t and value.map = t ++ strBytes u1
        cases t with
        | nil =>
            rw [List.append_nil] at ht1
            rw [List.nil_append] at ht2
            obtain ⟨w, hw1, hw2⟩ := ih value [] hv
              (by rw [List.nil_append]; exact ht2.symm)
            have hwnil : w = [] := (strBytes_nil_iff w).mp hw2
            subst hwnil
            rw [List.nil_append] at hw1
            refine ⟨[c], by rw [hw1]; rfl, ?_⟩
            rw [strBytes_cons, ht1]
            simp [strBytes]
        | cons tb t1 =>
            have htb : tb < 128 := by
              cases value with
              | nil => exact absurd ht2 (by simp)
              | cons d value1 =>
                  rw [List.map_cons] at ht2
                  have : d.toNat = tb := (List.cons.injEq _ _ _ _ ▸ ht2).1
                  rw [← this]
                  exact hv d (List.mem_cons_self d value1)
            obtain ⟨b0, bs, he, hasc, hnasc, hcont⟩ := utf8Bytes_shape c
            cases xs with
            | cons x0 xs1 =>
                rw [he] at ht1
                have hbs : bs = xs1 ++ tb :: t1 :=
                  (List.cons.injEq _ _ _ _ ▸ ht1).2
                have : (128 : Nat) ≤ tb := by
                  refine hcont tb ?_
                  rw [hbs]
                  exact List.mem_append_right _ (List.mem_cons_self tb t1)
                omega
            | nil =>
                rw [List.nil_append] at ht1
                have hcascii : c.toNat < 128 := by
                  by_contra hna
                  have h128 := hnasc hna
                  rw [he] at ht1
                  have : b0 = tb := (List.cons.injEq _ _ _ _ ▸ ht1).1
                  omega
                obtain ⟨hb0, hbs⟩ := hasc hcascii
                rw [he, hb0, hbs] at ht1
                have htb2 : tb = c.toNat ∧ t1 = [] := by
                  constructor
                  · exact ((List.cons.injEq _ _ _ _ ▸ ht1).1).symm
                  · exact ((List.cons.injEq _ _ _ _ ▸ ht1).2).symm
                cases value with
                | nil => exact absurd ht2 (by simp)
                | cons d value1 =>
                    rw [List.map_cons, htb2.1, htb2.2, List.singleton_append] at ht2
                    have hdc : d = c := by
                      refine char_toNat_inj d c ?_
                      exact (List.cons.injEq _ _ _ _ ▸ ht2).1
                    have hrest : value1.map Char.toNat = strBytes u1 :=
                      (List.cons.injEq _ _ _ _ ▸ ht2).2
                    obtain ⟨w, hw1, hw2⟩ := ih value1 []
                      (fun x hx => hv x (List.mem_cons_of_mem _ hx))
                      (by rw [List.nil_append]; exact hrest.symm)
                    have hwnil : w = [] := (strBytes_nil_iff w).mp hw2
                    subst hwnil
                    rw [List.nil_append] at hw1
                    refine ⟨[], ?_, rfl⟩
                    rw [List.nil_append, hdc, hw1]

/-- ASCII suffixes transfer between the character view and the byte view. -/
theorem strBytes_suffix_iff (value u : List Char)
    (h : ∀ c ∈ value, c.toNat < 128) :
    (value.map Char.toNat) <:+ strBytes u ↔ value <:+ u := by
  constructor
  · rintro ⟨xs, hxs⟩
    obtain ⟨u1, hu, _⟩ := utf8_suffix_decompose u value xs h hxs.symm
    exact ⟨u1, hu.symm⟩
  · rintro ⟨u1, hu⟩
    refine ⟨strBytes u1, ?_⟩
    rw [← strBytes_ascii value h, ← strBytes_append, hu]

/-- C4: the claim says both reversals of the EndsWith reduction are
byte-reversals and that the scan emits the rule id exactly when the part
ends with the condition value.  The insert side actually reverses code
points (`cond.value.chars().rev()`), the query side reverses bytes
(`value.bytes().rev()`), and the two disagree on multi-byte values: for the
condition value `"\u{e9}"` and the part `"\u{e9}"` — which ends with the
value — the trie holds the two-byte key `C3 A9` while the byte-reversed
part reads `A9 C3`, so the scan emits nothing and the claimed equivalence
fails. -/
theorem c4_byte_reversal_counterexample :
    isSuffL [eAcute] [eAcute] = true ∧
    ((Trie.new : Trie Nat).insert ([eAcute].reverse) 7).findPrefixesOfBytes
        (strBytes [eAcute]).reverse = [] := by
  constructor
  · decide
  · decide

/-- C4 (amended): the insert-side reversal is code-point-wise, the
query-side reversal is byte-wise, and for every condition whose value is
ASCII the indexed EndsWith path is equivalent to the direct suffix check:
the byte-prefix scan of the byte-reversed part value over the trie holding
the code-point-reversed condition value emits the deposited id exactly when
the part ends with the value. -/
theorem c4_endswith_trie_equiv (value : List Char) (id : Nat) (u : List Char)
    (hascii : ∀ c ∈ value, c.toNat < 128) :
    id ∈ ((Trie.new : Trie Nat).insert value.reverse id).findPrefixesOfBytes
        (strBytes u).reverse
      ↔ isSuffL value u = true := by
  rw [trieSingle_findBytes]
  by_cases hv : value = []
  · subst hv
    rw [if_pos (show ([] : List Char).reverse = [] from rfl)]
    simp [isSuffL, isPrefL]
  · have hrv : value.reverse ≠ [] := by simpa using hv
    rw [if_neg hrv]
    have hrasc : ∀ c ∈ value.reverse, c.toNat < 128 := by
      intro c hcm
      exact hascii c (List.mem_reverse.mp hcm)
    have hmap : value.reverse.map Char.toNat = (value.map Char.toNat).reverse :=
      List.map_reverse _ _
    constructor
    · intro hmem
      by_cases hcond : (∀ c ∈ value.reverse, c.toNat < 128)
          ∧ isPrefB (value.reverse.map Char.toNat) (strBytes u).reverse = true
      · have hQ := hcond.2
        rw [hmap, isPrefB_iff, List.reverse_prefix] at hQ
        rw [isSuffL_iff]
        exact (strBytes_suffix_iff value u hascii).mp hQ
      · rw [if_neg hcond] at hmem
        simp at hmem
    · intro hsuff
      rw [isSuffL_iff] at hsuff
      have hQ : isPrefB (value.reverse.map Char.toNat) (strBytes u).reverse
          = true := by
        rw [hmap, isPrefB_iff, List.reverse_prefix]
        exact (strBytes_suffix_iff value u hascii).mpr hsuff
      rw [if_pos ⟨hrasc, hQ⟩]
      simp

/-- C4 witness: the amended equivalence applied at the ASCII condition value
`".ca"` and the part `"shop.ca"`. -/
theorem c4_endswith_trie_equiv_witness :
    7 ∈ ((Trie.new : Trie Nat).insert ((cs (".ca")).reverse) 7).findPrefixesOfBytes
        (strBytes (cs ("shop.ca"))).reverse :=
  (c4_endswith_trie_equiv (cs (".ca")) 7 (cs ("shop.ca")) (by decide)).mpr
    (by decide)

/-! ## Claim C6: rules whose conditions are all negated

A rule with only negated conditions has no entry in any index structure, so
its candidate count stays zero; since its non-negated count is also zero,
the engine's equality test always passes and only the direct negated check
decides.  The lemmas below show the id of such a rule never appears in any
of the sixteen per-slot structures and hence is never emitted. -/

theorem getD_set_self_g {α : Type} (l : List α) (i : Nat) (a d : α)
    (h : i < l.length) : (l.set i a).getD i d = a := by
  rw [List.getD_eq_getElem?_getD, List.getElem?_set_self h]
  rfl

theorem getD_set_ne_g {α : Type} (l : List α) (i j : Nat) (a d : α)
    (h : i ≠ j) : (l.set i a).getD j d = l.getD j d := by
  rw [List.getD_eq_getElem?_getD, List.getD_eq_getElem?_getD,
    List.getElem?_set_ne h]

/-- No entry of any trie node holds the value `i`. -/
def TrieNoVal (t : Trie Nat) (i : Nat) : Prop :=
  i ∉ t.emptyKeyValues ∧ ∀ n, i ∉ (getNode t.nodes n).values

/-- No output list of the automaton (build or search shape) holds `i`. -/
def ACNoVal (ac : AC Nat) (i : Nat) : Prop :=
  i ∉ ac.emptyPatternValues
    ∧ (∀ n, i ∉ (ac.buildNodes.getD n ACNode.empty).output)
    ∧ (∀ n, i ∉ ac.output.getD n [])

/-- No id list of the equals map holds `i`. -/
def EqNoVal (m : List (List Char × List Nat)) (i : Nat) : Prop :=
  ∀ kv ∈ m, i ∉ kv.2

theorem insertWalk_no_val {V : Type} (key : List Char) :
    ∀ (nodes : List (TrieNode V)) (cur : Nat) (P : V → Prop),
      (∀ n, ∀ v ∈ (getNode nodes n).values, P v) →
      ∀ n, ∀ v ∈ (getNode (insertWalk nodes cur key).1 n).values, P v := by
  induction key with
  | nil => intro nodes cur P h n; exact h n
  | cons c rest ih =>
      intro nodes cur P h n
      rw [insertWalk]
      rcases hcc : (getNode nodes cur).child c with _ | id
      · -- creation branch
        have hstep : childOrCreate nodes cur c
            = (setNode (nodes ++ [TrieNode.empty]) cur
                ((getNode (nodes ++ [TrieNode.empty]) cur).withChild c nodes.length),
               nodes.length) := by
          rw [childOrCreate, hcc]
        rw [hstep]
        refine ih _ _ P ?_ n
        intro m v hv
        by_cases hm : m = cur
        · subst hm
          by_cases hlt : m < (nodes ++ [TrieNode.empty]).length
          · rw [getNode_setNode_self _ _ _ hlt, withChild_values] at hv
            by_cases hcl : m < nodes.length
            · rw [getNode_append_lt _ _ _ hcl] at hv
              exact h m v hv
            · by_cases hce : m = nodes.length
              · rw [hce, getNode_append_self] at hv
                exact absurd hv (by simp [TrieNode.empty])
              · have : (nodes ++ [TrieNode.empty]).length ≤ m := by
                  rw [List.length_append]
                  simp only [List.length_singleton]
                  omega
                omega
          · rw [setNode, List.set_eq_of_length_le (by omega)] at hv
            by_cases hcl : m < nodes.length
            · rw [getNode_append_lt _ _ _ hcl] at hv
              exact h m v hv
            · by_cases hce : m = nodes.length
              · rw [hce, getNode_append_self] at hv
                exact absurd hv (by simp [TrieNode.empty])
              · rw [getNode] at hv
                rw [List.getD_eq_getElem?_getD, List.getElem?_eq_none (by
                  rw [List.length_append]
                  simp only [List.length_singleton]
                  omega)] at hv
                exact absurd hv (by simp [TrieNode.empty])
        · rw [getNode_setNode_ne _ _ _ _ (fun hh => hm hh.symm)] at hv
          by_cases hml : m < nodes.length
          · rw [getNode_append_lt _ _ _ hml] at hv
            exact h m v hv
          · by_cases hme : m = nodes.length
            · rw [hme, getNode_append_self] at hv
              exact absurd hv (by simp [TrieNode.empty])
            · rw [getNode, List.getD_eq_getElem?_getD, List.getElem?_eq_none (by
                rw [List.length_append]
                simp only [List.length_singleton]
                omega)] at hv
              exact absurd hv (by simp [TrieNode.empty])
      · have hstep : childOrCreate nodes cur c = (nodes, id) := by
          rw [childOrCreate, hcc]
        rw [hstep]
        exact ih _ _ P h n

theorem pushValue_vals {V : Type} (nodes : List (TrieNode V)) (l : Nat) (v : V)
    (P : V → Prop) (hP : ∀ n, ∀ w ∈ (getNode nodes n).values, P w) (hv : P v) :
    ∀ n, ∀ w ∈ (getNode (pushValue nodes l v) n).values, P w := by
  intro n w hw
  by_cases hn : n = l
  · subst hn
    by_cases hlt : n < nodes.length
    · rw [getNode_pushValue_self _ _ _ hlt] at hw
      simp only at hw
      rcases List.mem_append.mp hw with hm | hm
      · exact hP n w hm
      · rw [List.mem_singleton.mp hm]
        exact hv
    · rw [pushValue, setNode, List.set_eq_of_length_le (by omega)] at hw
      exact hP n w hw
  · rw [getNode_pushValue_ne _ _ _ _ (fun hh => hn hh.symm)] at hw
    exact hP n w hw

theorem trie_insert_no_val (t : Trie Nat) (i : Nat) (key : List Char) (v : Nat)
    (h : TrieNoVal t i) (hv : v ≠ i) : TrieNoVal (t.insert key v) i := by
  obtain ⟨he, hn⟩ := h
  rw [Trie.insert]
  by_cases hk : key = []
  · rw [if_pos hk]
    refine ⟨?_, hn⟩
    intro hmem
    rcases List.mem_append.mp hmem with hm | hm
    · exact he hm
    · exact hv (List.mem_singleton.mp hm).symm
  · rw [if_neg hk]
    refine ⟨he, ?_⟩
    intro n
    have hwalk := insertWalk_no_val key t.nodes 0 (fun w => w ≠ i)
      (fun m w hw hwi => hn m (hwi ▸ hw))
    have := pushValue_vals (insertWalk t.nodes 0 key).1
      (insertWalk t.nodes 0 key).2 v (fun w => w ≠ i) hwalk hv n
    intro hmem
    exact this i hmem rfl

theorem byteWalk_no_val {V : Type} (nodes : List (TrieNode V)) (P : V → Prop)
    (h : ∀ n, ∀ v ∈ (getNode nodes n).values, P v) :
    ∀ (input : List Nat) (cur : Nat), ∀ v ∈ byteWalkCollect nodes cur input, P v := by
  intro input
  induction input with
  | nil => intro cur v hv; exact absurd hv (by simp [byteWalkCollect])
  | cons b bs ih =>
      intro cur v hv
      by_cases hb : b < 128
      · rcases ha : (getNode nodes cur).ascii b with _ | nxt
        · rw [byteWalkCollect_cons_none _ _ _ _ hb ha] at hv
          exact absurd hv (by simp)
        · rw [byteWalkCollect_cons_some _ _ _ _ _ hb ha] at hv
          rcases List.mem_append.mp hv with hm | hm
          · exact h nxt v hm
          · exact ih nxt v hm
      · rw [byteWalkCollect_cons_big _ _ _ _ hb] at hv
        exact absurd hv (by simp)

theorem trie_find_no_val (t : Trie Nat) (i : Nat) (input : List Nat)
    (h : TrieNoVal t i) : i ∉ t.findPrefixesOfBytes input := by
  obtain ⟨he, hn⟩ := h
  rw [Trie.findPrefixesOfBytes]
  intro hmem
  rcases List.mem_append.mp hmem with hm | hm
  · exact he hm
  · exact byteWalk_no_val t.nodes (fun w => w ≠ i)
      (fun m w hw hwi => hn m (hwi ▸ hw)) input 0 i hm rfl

theorem setGotoBuild_length {V : Type} (nodes : List (ACNode V)) (s : Nat)
    (c : Char) (t : Nat) :
    (setGotoBuild nodes s c t).length = nodes.length := by
  rw [setGotoBuild]
  by_cases hc : c.toNat < 128
  · rw [if_pos hc, List.length_set]
  · rw [if_neg hc, List.length_set]

theorem setGotoBuild_output {V : Type} (nodes : List (ACNode V)) (s : Nat)
    (c : Char) (t n : Nat) :
    ((setGotoBuild nodes s c t).getD n ACNode.empty).output
      = (nodes.getD n ACNode.empty).output := by
  rw [setGotoBuild]
  by_cases hlt : s < nodes.length
  · by_cases hc : c.toNat < 128
    · rw [if_pos hc]
      by_cases hn : s = n
      · subst hn
        rw [getD_set_self_g _ _ _ _ hlt]
      · rw [getD_set_ne_g _ _ _ _ _ hn]
    · rw [if_neg hc]
      by_cases hn : s = n
      · subst hn
        rw [getD_set_self_g _ _ _ _ hlt]
      · rw [getD_set_ne_g _ _ _ _ _ hn]
  · have hset : ∀ x : ACNode V, nodes.set s x = nodes :=
      fun x => List.set_eq_of_length_le (by omega)
    by_cases hc : c.toNat < 128
    · rw [if_pos hc, hset]
    · rw [if_neg hc, hset]

theorem acStep_output {V : Type} (nodes : List (ACNode V)) (state : Nat)
    (c : Char) (N m : Nat) :
    ((setGotoBuild nodes state c N ++ [ACNode.empty]).getD m ACNode.empty).output
      = (nodes.getD m ACNode.empty).output := by
  have hlen := setGotoBuild_length nodes state c N
  by_cases hm : m < nodes.length
  · rw [List.getD_eq_getElem?_getD, List.getElem?_append_left (by omega),
      ← List.getD_eq_getElem?_getD, setGotoBuild_output]
  · have hrhs : (nodes.getD m ACNode.empty).output = [] := by
      rw [List.getD_eq_getElem?_getD, List.getElem?_eq_none (by omega)]
      rfl
    rw [hrhs]
    by_cases hme : m = nodes.length
    · subst hme
      rw [List.getD_eq_getElem?_getD, List.getElem?_append_right (by omega)]
      rw [hlen]
      simp [ACNode.empty]
    · rw [List.getD_eq_getElem?_getD, List.getElem?_eq_none (by
        rw [List.length_append, hlen]
        simp only [List.length_singleton]
        omega)]
      rfl

theorem acInsertWalk_output {V : Type} (pattern : List Char) :
    ∀ (nodes : List (ACNode V)) (state : Nat) (P : V → Prop),
      (∀ n, ∀ v ∈ (nodes.getD n ACNode.empty).output, P v) →
      ∀ n, ∀ v ∈ ((acInsertWalk nodes state pattern).1.getD n ACNode.empty).output, P v := by
  induction pattern with
  | nil => intro nodes state P h n; exact h n
  | cons c rest ih =>
      intro nodes state P h n
      rcases hg : getGotoBuild nodes state c with _ | next
      · have hstep : acInsertWalk nodes state (c :: rest)
            = acInsertWalk (setGotoBuild nodes state c nodes.length
                ++ [ACNode.empty]) nodes.length rest := by
          rw [acInsertWalk, hg]
        rw [hstep]
        refine ih _ nodes.length P ?_ n
        intro m v hv
        rw [acStep_output] at hv
        exact h m v hv
      · have hstep : acInsertWalk nodes state (c :: rest)
            = acInsertWalk nodes next rest := by
          rw [acInsertWalk, hg]
        rw [hstep]
        exact ih nodes next P h n

theorem ac_insert_no_val (ac : AC Nat) (i : Nat) (pattern : List Char)
    (v : Nat) (hv : v ≠ i)
    (he : i ∉ ac.emptyPatternValues)
    (hb : ∀ n, i ∉ (ac.buildNodes.getD n ACNode.empty).output) :
    i ∉ (ac.insert pattern v).emptyPatternValues
      ∧ ∀ n, i ∉ ((ac.insert pattern v).buildNodes.getD n ACNode.empty).output := by
  rw [AC.insert]
  by_cases hp : pattern = []
  · rw [if_pos hp]
    refine ⟨?_, hb⟩
    intro hmem
    rcases List.mem_append.mp hmem with hm | hm
    · exact he hm
    · exact hv (List.mem_singleton.mp hm).symm
  · rw [if_neg hp]
    refine ⟨he, ?_⟩
    intro n
    have hwalk := acInsertWalk_output pattern ac.buildNodes 0 (fun w => w ≠ i)
      (fun m w hw hwi => hb m (hwi ▸ hw))
    simp only
    intro hmem
    by_cases hn : n = (acInsertWalk ac.buildNodes 0 pattern).2
    · rw [hn] at hmem
      by_cases hlt : (acInsertWalk ac.buildNodes 0 pattern).2
          < (acInsertWalk ac.buildNodes 0 pattern).1.length
      · rw [getD_set_self_g _ _ _ _ hlt] at hmem
        simp only at hmem
        rcases List.mem_append.mp hmem with hm | hm
        · exact hwalk _ i hm rfl
        · exact hv (List.mem_singleton.mp hm).symm
      · rw [List.set_eq_of_length_le (by omega)] at hmem
        exact hwalk _ i hmem rfl
    · rw [getD_set_ne_g _ _ _ _ _ (fun hh => hn hh.symm)] at hmem
      exact hwalk _ i hmem rfl

theorem mergeOutput_no_val {V : Type} (output : List (List V)) (s f : Nat)
    (P : V → Prop) (h : ∀ n, ∀ v ∈ output.getD n [], P v) :
    ∀ n, ∀ v ∈ (mergeOutput output s f).getD n [], P v := by
  intro n v hv
  rw [mergeOutput] at hv
  by_cases hemp : (output.getD f []).isEmpty
  · rw [if_pos hemp] at hv
    exact h n v hv
  · rw [if_neg hemp] at hv
    by_cases hn : s = n
    · rw [← hn] at hv
      by_cases hlt : s < output.length
      · rw [getD_set_self_g _ _ _ _ hlt] at hv
        rcases List.mem_append.mp hv with hm | hm
        · exact h s v hm
        · exact h f v hm
      · rw [List.set_eq_of_length_le (by omega)] at hv
        exact h s v hv
    · rw [getD_set_ne_g _ _ _ _ _ hn] at hv
      exact h n v hv

theorem phase2Step_no_val {V : Type} (goto : List (Nat → Option Nat))
    (ext : List (List (Char × Nat))) (cur : Nat) (P : V → Prop)
    (st : List Nat × List (List V))
    (hst : ∀ n, ∀ v ∈ st.2.getD n [], P v) :
    ∀ n, ∀ v ∈ ((phase2Step goto ext cur st).1.2).getD n [], P v := by
  have hgen : ∀ (kids : List (Char × Nat))
      (acc : (List Nat × List (List V)) × List Nat),
      (∀ n, ∀ v ∈ acc.1.2.getD n [], P v) →
      ∀ n, ∀ v ∈ (kids.foldl
        (fun acc kid =>
          ((acc.1.1.set kid.2 (followFail goto ext acc.1.1 cur kid.1),
            mergeOutput acc.1.2 kid.2 (followFail goto ext acc.1.1 cur kid.1)),
           acc.2 ++ [kid.2])) acc).1.2.getD n [], P v := by
    intro kids
    induction kids with
    | nil => intro acc hacc; exact hacc
    | cons kid rest ih =>
        intro acc hacc
        rw [List.foldl_cons]
        exact ih _ (mergeOutput_no_val _ _ _ P hacc)
  intro n v hv
  exact hgen (acChildren (goto.getD cur fun _ => none) (ext.getD cur []))
    ((st.1, st.2), []) hst n v hv

theorem phase2Loop_no_val {V : Type} (goto : List (Nat → Option Nat))
    (ext : List (List (Char × Nat))) (P : V → Prop) :
    ∀ (fuel : Nat) (queue fail : List Nat) (out : List (List V)),
      (∀ n, ∀ v ∈ out.getD n [], P v) →
      ∀ n, ∀ v ∈ (phase2Loop goto ext fuel queue fail out).2.getD n [], P v := by
  intro fuel
  induction fuel with
  | zero => intro queue fail out h n; exact h n
  | succ fuel ih =>
      intro queue fail out h n
      cases queue with
      | nil => exact h n
      | cons cur rest =>
          rw [phase2Loop]
          exact ih _ _ _ (phase2Step_no_val goto ext cur P (fail, out) h) n

theorem getD_map_output {V : Type} (nodes : List (ACNode V)) (m : Nat) :
    (nodes.map ACNode.output).getD m [] = (nodes.getD m ACNode.empty).output := by
  by_cases hm : m < nodes.length
  · rw [List.getD_eq_getElem?_getD, List.getElem?_map, List.getD_eq_getElem?_getD,
      List.getElem?_eq_getElem hm]
    simp
  · rw [List.getD_eq_getElem?_getD,
      List.getElem?_eq_none (by rw [List.length_map]; omega),
      List.getD_eq_getElem?_getD, List.getElem?_eq_none (by omega)]
    rfl

theorem ac_build_no_val (ac : AC Nat) (i : Nat)
    (hb : ∀ n, i ∉ (ac.buildNodes.getD n ACNode.empty).output) :
    ∀ n, i ∉ ac.build.output.getD n [] := by
  intro n hmem
  refine phase2Loop_no_val _ _ (fun w => w ≠ i) _ _ _ _ ?_ n i hmem rfl
  intro m v hv hvi
  rw [getD_map_output] at hv
  exact hb m (hvi ▸ hv)

theorem acScanBytes_no_val {V : Type} (ac : AC V) (P : V → Prop)
    (h : ∀ n, ∀ v ∈ ac.output.getD n [], P v) :
    ∀ (input : List Nat) (state : Nat), ∀ v ∈ acScanBytes ac state input, P v := by
  intro input
  induction input with
  | nil => intro state v hv; exact absurd hv (by simp [acScanBytes])
  | cons b bs ih =>
      intro state v hv
      rw [acScanBytes] at hv
      rcases List.mem_append.mp hv with hm | hm
      · exact h _ v hm
      · exact ih _ v hm

theorem searchBytes_no_val (ac : AC Nat) (i : Nat) (input : List Nat)
    (he : i ∉ ac.emptyPatternValues) (ho : ∀ n, i ∉ ac.output.getD n []) :
    i ∉ ac.searchBytes input := by
  rw [AC.searchBytes]
  intro hmem
  rcases List.mem_append.mp hmem with hm | hm
  · exact he hm
  · exact acScanBytes_no_val ac (fun w => w ≠ i)
      (fun m w hw hwi => ho m (hwi ▸ hw)) input 0 i hm rfl

theorem eqInsert_no_val (m : List (List Char × List Nat)) (key : List Char)
    (id i : Nat) (h : EqNoVal m i) (hid : id ≠ i) :
    EqNoVal (eqInsert m key id) i := by
  induction m with
  | nil =>
      intro kv hkv
      rw [eqInsert] at hkv
      rw [List.mem_singleton.mp hkv]
      intro hmem
      exact hid (List.mem_singleton.mp hmem).symm
  | cons hd rest ih =>
      intro kv hkv
      rw [eqInsert] at hkv
      by_cases hk : hd.1 = key
      · rw [if_pos hk] at hkv
        rcases List.mem_cons.mp hkv with hm | hm
        · rw [hm]
          intro hmem
          rcases List.mem_append.mp hmem with h2 | h2
          · exact h hd (List.mem_cons_self hd rest) h2
          · exact hid (List.mem_singleton.mp h2).symm
        · exact h kv (List.mem_cons_of_mem _ hm)
      · rw [if_neg hk] at hkv
        rcases List.mem_cons.mp hkv with hm | hm
        · rw [hm]
          exact h hd (List.mem_cons_self hd rest)
        · exact ih (fun kv2 hkv2 => h kv2 (List.mem_cons_of_mem _ hkv2)) kv hm

theorem eqLookup_no_val (m : List (List Char × List Nat)) (key : List Char)
    (i : Nat) (h : EqNoVal m i) (ids : List Nat)
    (hl : eqLookup m key = some ids) : i ∉ ids := by
  induction m with
  | nil => exact absurd hl (by rw [eqLookup]; simp)
  | cons hd rest ih =>
      rw [eqLookup] at hl
      by_cases hk : hd.1 = key
      · rw [if_pos hk] at hl
        have : ids = hd.2 := (Option.some.injEq _ _ ▸ hl).symm
        rw [this]
        exact h hd (List.mem_cons_self hd rest)
      · rw [if_neg hk] at hl
        exact ih (fun kv hkv => h kv (List.mem_cons_of_mem _ hkv)) hl

/-- The id `i` occurs in none of the sixteen structures of the accumulator. -/
def IdxNoVal (b : IdxBuild) (i : Nat) : Prop :=
  (∀ p, EqNoVal (b.eq p) i) ∧
  (∀ p, TrieNoVal (b.sw p) i) ∧
  (∀ p, TrieNoVal (b.ew p) i) ∧
  (∀ p, i ∉ (b.ct p).emptyPatternValues
    ∧ ∀ n, i ∉ ((b.ct p).buildNodes.getD n ACNode.empty).output)

theorem condInsert_no_val (j : Nat) (b : IdxBuild) (cond : Condition) (i : Nat)
    (h : IdxNoVal b i) (hj : j = i → cond.negated = true) :
    IdxNoVal (condInsert j b cond) i := by
  obtain ⟨h1, h2, h3, h4⟩ := h
  by_cases hneg : cond.negated
  · rw [condInsert, if_pos hneg]
    exact ⟨h1, h2, h3, h4⟩
  · have hji : j ≠ i := fun he => hneg (hj he)
    rw [condInsert, if_neg hneg]
    cases hop : cond.operator with
    | equals =>
        refine ⟨?_, h2, h3, h4⟩
        intro p
        simp only [updPart]
        by_cases hp : p = cond.part
        · rw [if_pos hp]
          exact eqInsert_no_val _ _ _ _ (h1 p) hji
        · rw [if_neg hp]
          exact h1 p
    | startsWith =>
        refine ⟨h1, ?_, h3, h4⟩
        intro p
        simp only [updPart]
        by_cases hp : p = cond.part
        · rw [if_pos hp]
          exact trie_insert_no_val _ _ _ _ (h2 p) hji
        · rw [if_neg hp]
          exact h2 p
    | endsWith =>
        refine ⟨h1, h2, ?_, h4⟩
        intro p
        simp only [updPart]
        by_cases hp : p = cond.part
        · rw [if_pos hp]
          exact trie_insert_no_val _ _ _ _ (h3 p) hji
        · rw [if_neg hp]
          exact h3 p
    | contains =>
        refine ⟨h1, h2, h3, ?_⟩
        intro p
        simp only [updPart]
        by_cases hp : p = cond.part
        · rw [if_pos hp]
          exact ac_insert_no_val _ _ _ _ hji (h4 p).1 (h4 p).2
        · rw [if_neg hp]
          exact h4 p

theorem condFold_no_val (j i : Nat) (conds : List Condition) :
    ∀ b : IdxBuild, IdxNoVal b i →
      (j = i → ∀ c ∈ conds, c.negated = true) →
      IdxNoVal (conds.foldl (condInsert j) b) i := by
  induction conds with
  | nil => intro b h _; exact h
  | cons cond rest ih =>
      intro b h hj
      rw [List.foldl_cons]
      refine ih _ (condInsert_no_val j b cond i h ?_) ?_
      · intro he
        exact hj he cond (List.mem_cons_self cond _)
      · intro he c hc
        exact hj he c (List.mem_cons_of_mem _ hc)

theorem ruleInsert_no_val (b : IdxBuild) (pr : Nat × Rule) (i : Nat)
    (h : IdxNoVal b i) (hj : pr.1 = i → ∀ c ∈ pr.2.conditions, c.negated = true) :
    IdxNoVal (ruleInsert b pr) i :=
  condFold_no_val pr.1 i pr.2.conditions b h hj

theorem trieNew_no_val (i : Nat) : TrieNoVal Trie.new i := by
  refine ⟨by simp [Trie.new], ?_⟩
  intro n
  rw [Trie.new]
  by_cases hn : n = 0
  · subst hn
    simp [getNode, TrieNode.empty]
  · rw [getNode, List.getD_eq_getElem?_getD, List.getElem?_eq_none (by
      simp only [List.length_singleton]
      omega)]
    simp [TrieNode.empty]

theorem acNew_no_val (i : Nat) :
    i ∉ (AC.new : AC Nat).emptyPatternValues
      ∧ ∀ n, i ∉ ((AC.new : AC Nat).buildNodes.getD n ACNode.empty).output := by
  refine ⟨by simp [AC.new], ?_⟩
  intro n
  rw [AC.new]
  by_cases hn : n = 0
  · subst hn
    simp [ACNode.empty]
  · rw [List.getD_eq_getElem?_getD, List.getElem?_eq_none (by
      simp only [List.length_singleton]
      omega)]
    simp [ACNode.empty]

theorem idxFold_no_val (pairs : List (Nat × Rule)) (i : Nat) :
    ∀ b : IdxBuild, IdxNoVal b i →
      (∀ pr ∈ pairs, pr.1 = i → ∀ c ∈ pr.2.conditions, c.negated = true) →
      IdxNoVal (pairs.foldl ruleInsert b) i := by
  induction pairs with
  | nil => intro b h _; exact h
  | cons pr rest ih =>
      intro b h hall
      rw [List.foldl_cons]
      refine ih _ (ruleInsert_no_val b pr i h
        (hall pr (List.mem_cons_self pr rest))) ?_
      intro pr2 hpr2
      exact hall pr2 (List.mem_cons_of_mem _ hpr2)

/-- The id of a rule with only negated conditions appears in none of the
index's structures. -/
theorem ruleIndex_no_val (rules : List Rule) (i : Nat)
    (hall : ∀ c ∈ (rules.getD i dfltRule).conditions, c.negated = true) :
    (∀ p, EqNoVal ((RuleIndex.new rules).equalsIndexes p) i) ∧
    (∀ p, TrieNoVal ((RuleIndex.new rules).startsWithIndexes p) i) ∧
    (∀ p, TrieNoVal ((RuleIndex.new rules).endsWithIndexes p) i) ∧
    (∀ p, i ∉ ((RuleIndex.new rules).containsAcIndexes p).emptyPatternValues
      ∧ ∀ n, i ∉ ((RuleIndex.new rules).containsAcIndexes p).output.getD n []) := by
  have hstart : IdxNoVal
      { eq := fun _ => [], sw := fun _ => Trie.new, ew := fun _ => Trie.new,
        ct := fun _ => AC.new, counts := List.replicate rules.length 0 } i := by
    refine ⟨?_, ?_, ?_, ?_⟩
    · intro p kv hkv
      exact absurd hkv (by simp)
    · intro p
      exact trieNew_no_val i
    · intro p
      exact trieNew_no_val i
    · intro p
      exact acNew_no_val i
  have hpairs : ∀ pr ∈ rules.enum, pr.1 = i →
      ∀ c ∈ pr.2.conditions, c.negated = true := by
    rintro ⟨j, r⟩ hpr he c hc
    have he2 : j = i := he
    have hj : rules[j]? = some r := List.mk_mem_enum_iff_getElem?.mp hpr
    have hr : rules.getD i dfltRule = r := by
      rw [List.getD_eq_getElem?_getD, ← he2, hj]
      rfl
    have hc2 : c ∈ r.conditions := hc
    exact hall c (hr ▸ hc2)
  have hfold := idxFold_no_val rules.enum i _ hstart hpairs
  obtain ⟨h1, h2, h3, h4⟩ := hfold
  refine ⟨h1, h2, h3, ?_⟩
  intro p
  constructor
  · exact (h4 p).1
  · exact ac_build_no_val _ i (h4 p).2

theorem condInsert_counts (j : Nat) (b : IdxBuild) (cond : Condition) :
    (condInsert j b cond).counts
      = if cond.negated then b.counts
        else b.counts.set j ((b.counts.getD j 0 + 1) % U32MOD) := by
  rw [condInsert]
  by_cases hneg : cond.negated
  · rw [if_pos hneg, if_pos hneg]
  · rw [if_neg hneg, if_neg hneg]
    cases cond.operator <;> rfl

theorem condFold_counts_zero (j i : Nat) (conds : List Condition) :
    ∀ b : IdxBuild,
      (j = i → ∀ c ∈ conds, c.negated = true) →
      b.counts.getD i 0 = 0 →
      (conds.foldl (condInsert j) b).counts.getD i 0 = 0 := by
  induction conds with
  | nil => intro b _ h0; exact h0
  | cons cond rest ih =>
      intro b hj h0
      rw [List.foldl_cons]
      refine ih _ (fun he c hc => hj he c (List.mem_cons_of_mem _ hc)) ?_
      rw [condInsert_counts]
      by_cases hneg : cond.negated
      · rw [if_pos hneg]
        exact h0
      · rw [if_neg hneg]
        have hji : j ≠ i := fun he => hneg (hj he cond (List.mem_cons_self cond _))
        rw [getD_set_ne_g _ _ _ _ _ hji]
        exact h0

theorem idxFold_counts_zero (pairs : List (Nat × Rule)) (i : Nat) :
    ∀ b : IdxBuild,
      (∀ pr ∈ pairs, pr.1 = i → ∀ c ∈ pr.2.conditions, c.negated = true) →
      b.counts.getD i 0 = 0 →
      (pairs.foldl ruleInsert b).counts.getD i 0 = 0 := by
  induction pairs with
  | nil => intro b _ h0; exact h0
  | cons pr rest ih =>
      intro b hall h0
      rw [List.foldl_cons]
      refine ih _ (fun pr2 hpr2 => hall pr2 (List.mem_cons_of_mem _ hpr2)) ?_
      rw [ruleInsert]
      exact condFold_counts_zero pr.1 i pr.2.conditions b
        (hall pr (List.mem_cons_self pr rest)) h0

/-- The non-negated count of a rule with only negated conditions is zero. -/
theorem ruleIndex_nonNegated_zero (rules : List Rule) (i : Nat)
    (hall : ∀ c ∈ (rules.getD i dfltRule).conditions, c.negated = true) :
    (RuleIndex.new rules).nonNegatedCounts.getD i 0 = 0 := by
  have hpairs : ∀ pr ∈ rules.enum, pr.1 = i →
      ∀ c ∈ pr.2.conditions, c.negated = true := by
    rintro ⟨j, r⟩ hpr he c hc
    have he2 : j = i := he
    have hj : rules[j]? = some r := List.mk_mem_enum_iff_getElem?.mp hpr
    have hr : rules.getD i dfltRule = r := by
      rw [List.getD_eq_getElem?_getD, ← he2, hj]
      rfl
    have hc2 : c ∈ r.conditions := hc
    exact hall c (hr ▸ hc2)
  have h0 : (List.replicate rules.length (0 : Nat)).getD i 0 = 0 := by
    by_cases hi : i < rules.length
    · rw [List.getD_eq_getElem?_getD, List.getElem?_replicate, if_pos hi]
      rfl
    · rw [List.getD_eq_getElem?_getD, List.getElem?_eq_none (by
        rw [List.length_replicate]; omega)]
      rfl
  exact idxFold_counts_zero rules.enum i _ hpairs h0

theorem increment_fold_zero (L : List Nat) (i : Nat) (hL : i ∉ L) :
    ∀ c : CandidateResult, c.satisfiedCounts.getD i 0 = 0 →
      (L.foldl CandidateResult.increment c).satisfiedCounts.getD i 0 = 0 := by
  induction L with
  | nil => intro c h0; exact h0
  | cons id rest ih =>
      intro c h0
      rw [List.foldl_cons]
      refine ih (fun hm => hL (List.mem_cons_of_mem _ hm)) _ ?_
      rw [increment_counts, getD_set_ne]
      · exact h0
      · intro he
        exact hL (he ▸ List.mem_cons_self id rest)

theorem queryStep_zero (rules : List Rule) (url : ParsedUrl) (part : UrlPart)
    (i : Nat) (cand : CandidateResult)
    (hall : ∀ c ∈ (rules.getD i dfltRule).conditions, c.negated = true)
    (h0 : cand.satisfiedCounts.getD i 0 = 0) :
    (queryStep (RuleIndex.new rules) url cand part).satisfiedCounts.getD i 0 = 0 := by
  obtain ⟨heq, hsw, hew, hct⟩ := ruleIndex_no_val rules i hall
  rw [queryStep]
  have step1 : ∀ c : CandidateResult, c.satisfiedCounts.getD i 0 = 0 →
      (if (RuleIndex.new rules).hasContains part then
        (((RuleIndex.new rules).containsAcIndexes part).searchBytes
            (strBytes (url.part part))).foldl CandidateResult.increment c
       else c).satisfiedCounts.getD i 0 = 0 := by
    intro c h
    by_cases hg : (RuleIndex.new rules).hasContains part
    · rw [if_pos hg]
      exact increment_fold_zero _ i
        (searchBytes_no_val _ i _ (hct part).1 (hct part).2) c h
    · rw [if_neg hg]
      exact h
  refine step1 _ ?_
  have step2 : ∀ c : CandidateResult, c.satisfiedCounts.getD i 0 = 0 →
      (if (RuleIndex.new rules).hasEndsWith part then
        (((RuleIndex.new rules).endsWithIndexes part).findPrefixesOfBytes
            (strBytes (url.part part)).reverse).foldl CandidateResult.increment c
       else c).satisfiedCounts.getD i 0 = 0 := by
    intro c h
    by_cases hg : (RuleIndex.new rules).hasEndsWith part
    · rw [if_pos hg]
      exact increment_fold_zero _ i (trie_find_no_val _ i _ (hew part)) c h
    · rw [if_neg hg]
      exact h
  refine step2 _ ?_
  have step3 : ∀ c : CandidateResult, c.satisfiedCounts.getD i 0 = 0 →
      (if (RuleIndex.new rules).hasStartsWith part then
        (((RuleIndex.new rules).startsWithIndexes part).findPrefixesOfBytes
            (strBytes (url.part part))).foldl CandidateResult.increment c
       else c).satisfiedCounts.getD i 0 = 0 := by
    intro c h
    by_cases hg : (RuleIndex.new rules).hasStartsWith part
    · rw [if_pos hg]
      exact increment_fold_zero _ i (trie_find_no_val _ i _ (hsw part)) c h
    · rw [if_neg hg]
      exact h
  refine step3 _ ?_
  by_cases hg : (RuleIndex.new rules).hasEquals part
  · rw [if_pos hg]
    rcases hl : eqLookup ((RuleIndex.new rules).equalsIndexes part) (url.part part)
        with _ | ids
    · exact h0
    · exact increment_fold_zero _ i
        (eqLookup_no_val _ _ i (heq part) ids hl) cand h0
  · rw [if_neg hg]
    exact h0

theorem queryInto_zero (rules : List Rule) (url : ParsedUrl) (i : Nat)
    (hall : ∀ c ∈ (rules.getD i dfltRule).conditions, c.negated = true) :
    ((RuleIndex.new rules).queryCandidatesInto url
        CandidateResult.new).satisfiedCounts.getD i 0 = 0 := by
  rw [RuleIndex.queryCandidatesInto]
  have h0 : (CandidateResult.new.ensureCapacityAndReset
      (RuleIndex.new rules).ruleCount).satisfiedCounts.getD i 0 = 0 := by
    refine ensure_reset_zeroes _ _ ?_ ?_ i
    · intro j hj
      exact absurd rfl hj
    · intro j hj
      exact absurd hj (by simp [CandidateResult.new])
  have hfold : ∀ (parts : List UrlPart) (c : CandidateResult),
      c.satisfiedCounts.getD i 0 = 0 →
      (parts.foldl (queryStep (RuleIndex.new rules) url) c).satisfiedCounts.getD i 0 = 0 := by
    intro parts
    induction parts with
    | nil => intro c h; exact h
    | cons p rest ih =>
        intro c h
        rw [List.foldl_cons]
        exact ih _ (queryStep_zero rules url p i c hall h)
  exact hfold UrlPart.ALL _ h0

/-- C6: a rule whose conditions are all negated is considered on every query
regardless of its candidate count — the engine's skip test is never taken
for it — and whether it is accepted is decided solely by the direct negated
check: its candidate count is 0 and its non-negated total is 0, so the
count-equality test always passes, and the rule matches exactly when none
of its negated conditions' operators hold on the URL parts. -/
theorem c6_all_negated_direct_check (rules : List Rule) (url : ParsedUrl)
    (i : Nat) (_hi : i < rules.length)
    (hall : ∀ c ∈ (rules.getD i dfltRule).conditions, c.negated = true) :
    ((RuleIndex.new rules).queryCandidatesInto url
        CandidateResult.new).satisfiedCounts.getD i 0 = 0 ∧
    (!((RuleIndex.new rules).queryCandidatesInto url
          CandidateResult.new).isCandidate ((RuleIndex.new rules).ruleId i)
      && !((rules.getD i dfltRule).conditions.all Condition.negated)) = false ∧
    (((RuleIndex.new rules).queryCandidatesInto url
          CandidateResult.new).allSatisfied ((RuleIndex.new rules).ruleId i)
        (RuleIndex.new rules).nonNegatedCounts
      && noNegatedConditionsMatch (rules.getD i dfltRule) url)
      = noNegatedConditionsMatch (rules.getD i dfltRule) url ∧
    noNegatedConditionsMatch (rules.getD i dfltRule) url
      = (rules.getD i dfltRule).conditions.all fun c => !matchesDirect c url := by
  have h0 := queryInto_zero rules url i hall
  refine ⟨h0, ?_, ?_, ?_⟩
  · have hneg : (rules.getD i dfltRule).conditions.all Condition.negated = true := by
      rw [List.all_eq_true]
      exact hall
    rw [hneg]
    simp
  · have hsat : ((RuleIndex.new rules).queryCandidatesInto url
        CandidateResult.new).allSatisfied ((RuleIndex.new rules).ruleId i)
        (RuleIndex.new rules).nonNegatedCounts = true := by
      rw [CandidateResult.allSatisfied]
      have hr : (RuleIndex.new rules).ruleId i = i := rfl
      rw [hr, h0, ruleIndex_nonNegated_zero rules i hall]
      simp
    rw [hsat]
    simp
  · rw [noNegatedConditionsMatch]
    have haux : ∀ L : List Condition, (∀ c ∈ L, c.negated = true) →
        (L.all fun cond => !(cond.negated && matchesDirect cond url))
          = L.all fun c => !matchesDirect c url := by
      intro L
      induction L with
      | nil => intro _; rfl
      | cons c rest ih =>
          intro hL
          rw [List.all_cons, List.all_cons, hL c (List.mem_cons_self c rest),
            ih (fun c2 hc2 => hL c2 (List.mem_cons_of_mem _ hc2))]
          simp
    exact haux _ hall

def negRule : Rule :=
  { name := cs ("n"), priority := 0,
    conditions := [{ part := UrlPart.path, operator := Operator.startsWith,
                     value := cs ("/admin"), negated := true }],
    result := cs ("n") }

def negUrl : ParsedUrl :=
  { host := cs ("x.com"), path := cs ("/admin/panel"), file := cs ("panel"),
    query := [] }

/-- C6 witness: applied at a concrete single fully-negated rule — the engine
skip test is not taken for it regardless of its candidate count. -/
theorem c6_all_negated_direct_check_witness :
    (!((RuleIndex.new [negRule]).queryCandidatesInto negUrl
          CandidateResult.new).isCandidate ((RuleIndex.new [negRule]).ruleId 0)
      && !(([negRule].getD 0 dfltRule).conditions.all Condition.negated))
      = false :=
  (c6_all_negated_direct_check [negRule] negUrl 0 (by decide) (by decide)).2.1

/-! ## Aho-Corasick search correctness (claim C5)

The development characterises the automaton produced by `AC.build` against
the insert-phase trie: `acWalk` is the trie walk, `lswWord` picks the
longest suffix of a string that is a trie word, and the built DFA is shown
to track that longest suffix one character at a time. -/

/-- Trie walk from a state along a word, following the build-phase goto
(aho_corasick.rs `get_goto_build`, iterated). -/
def acWalk {V : Type} (nodes : List (ACNode V)) : Nat → List Char → Option Nat
  | s, [] => some s
  | s, c :: rest =>
      match getGotoBuild nodes s c with
      | some t => acWalk nodes t rest
      | none => none

/-- Child state targets of a trie state, in BFS enqueue order. -/
def kidsT {V : Type} (nodes : List (ACNode V)) (s : Nat) : List Nat :=
  (acChildren (nodes.getD s ACNode.empty).ascii
    (nodes.getD s ACNode.empty).extended).map Prod.snd

/-- The in-edge of a trie state, searched over all states' child lists
(unique on well-formed arenas). -/
def inEdge {V : Type} (nodes : List (ACNode V)) (t : Nat) : Option (Nat × Char) :=
  ((List.range nodes.length).flatMap fun s =>
    (acChildren (nodes.getD s ACNode.empty).ascii
        (nodes.getD s ACNode.empty).extended).filterMap fun ct =>
      if ct.2 = t then some (s, ct.1) else none).head?

/-- The word spelled by the unique trie path from the root to a state
(junk on the root or malformed arenas). -/
def wordOf {V : Type} (nodes : List (ACNode V)) : Nat → List Char
  | 0 => []
  | t + 1 =>
      match inEdge nodes (t + 1) with
      | some sc =>
          if h : sc.1 < t + 1 then wordOf nodes sc.1 ++ [sc.2] else []
      | none => []
  termination_by t => t
  decreasing_by exact h

/-- Depth of a trie state: the length of its word. -/
def depthS {V : Type} (nodes : List (ACNode V)) (s : Nat) : Nat :=
  (wordOf nodes s).length

/-- The state a word walks to from the root (root on junk). -/
def wState {V : Type} (nodes : List (ACNode V)) (w : List Char) : Nat :=
  (acWalk nodes 0 w).getD 0

/-- Longest suffix of a string that is a trie word, scanning suffixes
longest-first. -/
def lswWord {V : Type} (nodes : List (ACNode V)) : List Char → List Char
  | [] => []
  | c :: w =>
      if (acWalk nodes 0 (c :: w)).isSome then c :: w else lswWord nodes w

/-- The state of the longest suffix word: the specification of the DFA
state after scanning a string. -/
def reachS {V : Type} (nodes : List (ACNode V)) (t : List Char) : Nat :=
  wState nodes (lswWord nodes t)

/-- Specification of the completed-DFA transition out of a state. -/
def deltaS {V : Type} (nodes : List (ACNode V)) (s : Nat) (c : Char) : Nat :=
  reachS nodes (wordOf nodes s ++ [c])

/-- Specification of the failure link: the state of the longest proper
suffix of a state's word that is a trie word. -/
def failS {V : Type} (nodes : List (ACNode V)) (s : Nat) : Nat :=
  reachS nodes (wordOf nodes s).tail

/-- The automaton an insertion list denotes before `build`
(aho_corasick.rs: `new` followed by the `insert` calls). -/
def acOf {V : Type} (pairs : List (List Char × V)) : AC V :=
  pairs.foldl (fun ac pv => ac.insert pv.1 pv.2) AC.new

/-- Well-formedness of the insert-phase arena, maintained by `AC.insert`:
the root exists, every edge goes from a lower index to a strictly higher
nonzero index in range, in-edges are unique, every state is reachable,
extended transitions carry non-ASCII keys without duplicates, and the root
emits nothing. -/
structure ArenaInv {V : Type} (nodes : List (ACNode V)) : Prop where
  root_lt : 0 < nodes.length
  edge_lt : ∀ s c t, s < nodes.length → getGotoBuild nodes s c = some t →
    s < t ∧ t < nodes.length
  edge_uniq : ∀ s1 c1 s2 c2 t, s1 < nodes.length → s2 < nodes.length →
    getGotoBuild nodes s1 c1 = some t → getGotoBuild nodes s2 c2 = some t →
    s1 = s2 ∧ c1 = c2
  reach_all : ∀ t, t < nodes.length → ∃ w, acWalk nodes 0 w = some t
  ext_high : ∀ s, s < nodes.length →
    ∀ p ∈ (nodes.getD s ACNode.empty).extended, 128 ≤ (p.1).toNat
  ext_keys : ∀ s, s < nodes.length →
    ((nodes.getD s ACNode.empty).extended.map Prod.fst).Nodup
  root_out : (nodes.getD 0 ACNode.empty).output = []

theorem lookupA_append {V : Type} (l1 l2 : List (Char × V)) (c : Char) :
    lookupA (l1 ++ l2) c =
      match lookupA l1 c with
      | some v => some v
      | none => lookupA l2 c := by
  induction l1 with
  | nil => rfl
  | cons p rest ih =>
      by_cases h : p.1 = c
      · simp [lookupA, h]
      · simp only [List.cons_append, lookupA, if_neg h]
        exact ih

theorem lookupA_some_mem {V : Type} (l : List (Char × V)) (c : Char) (v : V)
    (h : lookupA l c = some v) : (c, v) ∈ l := by
  induction l with
  | nil => exact absurd h (by simp [lookupA])
  | cons p rest ih =>
      by_cases hk : p.1 = c
      · rw [lookupA, if_pos hk] at h
        have hcp : (c, v) = p := by
          rw [← hk, ← Option.some_inj.mp h]
        rw [hcp]
        exact List.mem_cons_self p rest
      · rw [lookupA, if_neg hk] at h
        exact List.mem_cons_of_mem _ (ih h)

theorem lookupA_none_key {V : Type} (l : List (Char × V)) (c : Char)
    (h : lookupA l c = none) : c ∉ l.map Prod.fst := by
  induction l with
  | nil => simp
  | cons p rest ih =>
      by_cases hk : p.1 = c
      · rw [lookupA, if_pos hk] at h
        exact absurd h (by simp)
      · rw [lookupA, if_neg hk] at h
        simp only [List.map_cons, List.mem_cons]
        rintro (hc | hc)
        · exact hk hc.symm
        · exact ih h hc

theorem mem_lookupA {V : Type} (l : List (Char × V)) (c : Char) (v : V)
    (hk : (l.map Prod.fst).Nodup) (hm : (c, v) ∈ l) : lookupA l c = some v := by
  induction l with
  | nil => exact absurd hm (by simp)
  | cons p rest ih =>
      rw [List.map_cons, List.nodup_cons] at hk
      rcases List.mem_cons.mp hm with he | hm2
      · rw [← he, lookupA, if_pos rfl]
      · have hne : p.1 ≠ c := by
          intro hc
          exact hk.1 (hc ▸ List.mem_map_of_mem Prod.fst hm2)
        rw [lookupA, if_neg hne]
        exact ih hk.2 hm2

theorem acWalk_append_w {V : Type} (nodes : List (ACNode V)) (w1 w2 : List Char) :
    ∀ s, acWalk nodes s (w1 ++ w2) =
      match acWalk nodes s w1 with
      | some m => acWalk nodes m w2
      | none => none := by
  induction w1 with
  | nil => intro s; rfl
  | cons c rest ih =>
      intro s
      rcases hg : getGotoBuild nodes s c with _ | t
      · simp only [List.cons_append, acWalk, hg]
      · simp only [List.cons_append, acWalk, hg]
        exact ih t

theorem acWalk_snoc {V : Type} (nodes : List (ACNode V)) (w : List Char)
    (c : Char) (s : Nat) :
    acWalk nodes s (w ++ [c]) =
      match acWalk nodes s w with
      | some m => getGotoBuild nodes m c
      | none => none := by
  rw [acWalk_append_w]
  rcases acWalk nodes s w with _ | m
  · rfl
  · show acWalk nodes m [c] = _
    rcases hg : getGotoBuild nodes m c with _ | t
    · simp [acWalk, hg]
    · simp [acWalk, hg]

/-- Every state reached by at least one step of a walk is an edge target. -/
theorem acWalk_cons_target {V : Type} (nodes : List (ACNode V)) :
    ∀ (w : List Char) (c : Char) (s t : Nat),
      acWalk nodes s (c :: w) = some t →
      ∃ m c2, getGotoBuild nodes m c2 = some t := by
  intro w
  induction w with
  | nil =>
      intro c s t h
      rcases hg : getGotoBuild nodes s c with _ | u
      · rw [acWalk, hg] at h
        exact absurd h (by simp)
      · rw [acWalk, hg] at h
        have : u = t := Option.some_inj.mp h
        exact ⟨s, c, this ▸ hg⟩
  | cons c2 rest ih =>
      intro c s t h
      rcases hg : getGotoBuild nodes s c with _ | u
      · rw [acWalk, hg] at h
        exact absurd h (by simp)
      · rw [acWalk, hg] at h
        exact ih c2 u t h

theorem getD_append_d {α : Type} (l : List α) (d : α) (s : Nat) :
    (l ++ [d]).getD s d = l.getD s d := by
  rcases Nat.lt_trichotomy s l.length with h | h | h
  · rw [List.getD_eq_getElem?_getD, List.getElem?_append_left h,
      ← List.getD_eq_getElem?_getD]
  · subst h
    rw [List.getD_eq_getElem?_getD, List.getElem?_append_right (le_refl _),
      List.getD_eq_getElem?_getD, List.getElem?_eq_none (le_refl _)]
    simp
  · rw [List.getD_eq_getElem?_getD, List.getElem?_eq_none (by
      rw [List.length_append]
      simp only [List.length_singleton]
      omega),
      List.getD_eq_getElem?_getD, List.getElem?_eq_none (by omega)]

theorem getD_map_g {α β : Type} (f : α → β) (l : List α) (i : Nat) (d : α) :
    (l.map f).getD i (f d) = f (l.getD i d) := by
  rcases Nat.lt_or_ge i l.length with h | h
  · rw [List.getD_eq_getElem?_getD, List.getElem?_map,
      List.getElem?_eq_getElem h, List.getD_eq_getElem?_getD,
      List.getElem?_eq_getElem h]
    rfl
  · rw [List.getD_eq_getElem?_getD, List.getElem?_eq_none (by simp [h]),
      List.getD_eq_getElem?_getD, List.getElem?_eq_none h]
    rfl

theorem getGotoBuild_oob {V : Type} (nodes : List (ACNode V)) (s : Nat)
    (c : Char) (h : nodes.length ≤ s) : getGotoBuild nodes s c = none := by
  rw [getGotoBuild, List.getD_eq_getElem?_getD, List.getElem?_eq_none h]
  by_cases hc : c.toNat < 128
  · rw [if_pos hc]
    rfl
  · rw [if_neg hc]
    rfl

theorem getGotoBuild_set_same {V : Type} (nodes : List (ACNode V)) (s : Nat)
    (c : Char) (t : Nat) (hs : s < nodes.length)
    (h0 : getGotoBuild nodes s c = none) :
    getGotoBuild (setGotoBuild nodes s c t) s c = some t := by
  rw [setGotoBuild, getGotoBuild]
  by_cases hc : c.toNat < 128
  · rw [if_pos hc, if_pos hc, getD_set_self_g _ _ _ _ hs]
    simp
  · rw [if_neg hc, if_neg hc, getD_set_self_g _ _ _ _ hs]
    simp only
    rw [getGotoBuild, if_neg hc] at h0
    rw [lookupA_append, h0, lookupA, if_pos rfl]

theorem getGotoBuild_set_other {V : Type} (nodes : List (ACNode V)) (s : Nat)
    (c : Char) (t : Nat) (s2 : Nat) (c2 : Char) (hne : s2 ≠ s ∨ c2 ≠ c) :
    getGotoBuild (setGotoBuild nodes s c t) s2 c2
      = getGotoBuild nodes s2 c2 := by
  by_cases hs2 : s2 = s
  · subst hs2
    have hcne : c2 ≠ c := hne.resolve_left (fun h => h rfl)
    by_cases hs : s2 < nodes.length
    · rw [setGotoBuild, getGotoBuild, getGotoBuild]
      by_cases hc : c.toNat < 128
      · rw [if_pos hc, getD_set_self_g _ _ _ _ hs]
        by_cases hc2 : c2.toNat < 128
        · rw [if_pos hc2, if_pos hc2]
          simp only
          rw [if_neg (fun h => hcne (char_toNat_inj c2 c (h : c2.toNat = c.toNat)))]
        · rw [if_neg hc2, if_neg hc2]
      · rw [if_neg hc, getD_set_self_g _ _ _ _ hs]
        by_cases hc2 : c2.toNat < 128
        · rw [if_pos hc2, if_pos hc2]
        · rw [if_neg hc2, if_neg hc2]
          simp only
          rw [lookupA_append]
          rcases hl : lookupA (nodes.getD s2 ACNode.empty).extended c2 with _ | v
          · simp only
            rw [lookupA, if_neg (fun h => hcne h.symm)]
            rfl
          · rfl
    · rw [setGotoBuild]
      by_cases hc : c.toNat < 128
      · rw [if_pos hc, List.set_eq_of_length_le (by omega)]
      · rw [if_neg hc, List.set_eq_of_length_le (by omega)]
  · rw [setGotoBuild, getGotoBuild, getGotoBuild]
    by_cases hc : c.toNat < 128
    · rw [if_pos hc, getD_set_ne_g _ _ _ _ _ (fun h => hs2 h.symm)]
    · rw [if_neg hc, getD_set_ne_g _ _ _ _ _ (fun h => hs2 h.symm)]

theorem getGotoBuild_append_empty {V : Type} (nodes : List (ACNode V))
    (s : Nat) (c : Char) :
    getGotoBuild (nodes ++ [ACNode.empty]) s c = getGotoBuild nodes s c := by
  rw [getGotoBuild, getGotoBuild, getD_append_d]

theorem getGotoBuild_step_mono {V : Type} (nodes : List (ACNode V)) (s0 : Nat)
    (c0 : Char) (N : Nat) (h0 : getGotoBuild nodes s0 c0 = none) :
    ∀ s c t, getGotoBuild nodes s c = some t →
      getGotoBuild (setGotoBuild nodes s0 c0 N ++ [ACNode.empty]) s c
        = some t := by
  intro s c t h
  rw [getGotoBuild_append_empty]
  by_cases hsc : s = s0 ∧ c = c0
  · rw [hsc.1, hsc.2] at h
    rw [h0] at h
    exact absurd h (by simp)
  · rw [getGotoBuild_set_other]
    · exact h
    · by_cases h1 : s = s0
      · exact Or.inr (fun h2 => hsc ⟨h1, h2⟩)
      · exact Or.inl h1

theorem getGotoBuild_step_cases {V : Type} (nodes : List (ACNode V)) (s0 : Nat)
    (c0 : Char) (hs0 : s0 < nodes.length)
    (h0 : getGotoBuild nodes s0 c0 = none) :
    ∀ s c t,
      getGotoBuild (setGotoBuild nodes s0 c0 nodes.length ++ [ACNode.empty]) s c
        = some t →
      getGotoBuild nodes s c = some t ∨ (s = s0 ∧ c = c0 ∧ t = nodes.length) := by
  intro s c t h
  rw [getGotoBuild_append_empty] at h
  by_cases hsc : s = s0 ∧ c = c0
  · right
    rw [hsc.1, hsc.2] at h
    rw [getGotoBuild_set_same _ _ _ _ hs0 h0] at h
    exact ⟨hsc.1, hsc.2, (Option.some_inj.mp h).symm⟩
  · left
    rw [getGotoBuild_set_other] at h
    · exact h
    · by_cases h1 : s = s0
      · exact Or.inr (fun h2 => hsc ⟨h1, h2⟩)
      · exact Or.inl h1

theorem acWalk_mono {V : Type} {a b : List (ACNode V)}
    (h : ∀ s c t, getGotoBuild a s c = some t → getGotoBuild b s c = some t) :
    ∀ (w : List Char) (s t : Nat), acWalk a s w = some t → acWalk b s w = some t := by
  intro w
  induction w with
  | nil => intro s t hw; exact hw
  | cons c rest ih =>
      intro s t hw
      rcases hg : getGotoBuild a s c with _ | u
      · rw [acWalk, hg] at hw
        exact absurd hw (by simp)
      · rw [acWalk, hg] at hw
        rw [acWalk, h s c u hg]
        exact ih u t hw

theorem setGotoBuild_ext_ascii {V : Type} (nodes : List (ACNode V)) (s0 : Nat)
    (c0 : Char) (N : Nat) (hc : c0.toNat < 128) (m : Nat) :
    ((setGotoBuild nodes s0 c0 N).getD m ACNode.empty).extended
      = (nodes.getD m ACNode.empty).extended := by
  rw [setGotoBuild, if_pos hc]
  by_cases hs : s0 < nodes.length
  · by_cases hm : s0 = m
    · subst hm
      rw [getD_set_self_g _ _ _ _ hs]
    · rw [getD_set_ne_g _ _ _ _ _ hm]
  · rw [List.set_eq_of_length_le (by omega)]

theorem setGotoBuild_ext_ne {V : Type} (nodes : List (ACNode V)) (s0 : Nat)
    (c0 : Char) (N : Nat) (m : Nat) (hm : m ≠ s0) :
    ((setGotoBuild nodes s0 c0 N).getD m ACNode.empty).extended
      = (nodes.getD m ACNode.empty).extended := by
  rw [setGotoBuild]
  by_cases hc : c0.toNat < 128
  · rw [if_pos hc, getD_set_ne_g _ _ _ _ _ (fun h => hm h.symm)]
  · rw [if_neg hc, getD_set_ne_g _ _ _ _ _ (fun h => hm h.symm)]

theorem setGotoBuild_ext_self {V : Type} (nodes : List (ACNode V)) (s0 : Nat)
    (c0 : Char) (N : Nat) (hc : ¬ c0.toNat < 128) (hs : s0 < nodes.length) :
    ((setGotoBuild nodes s0 c0 N).getD s0 ACNode.empty).extended
      = (nodes.getD s0 ACNode.empty).extended ++ [(c0, N)] := by
  rw [setGotoBuild, if_neg hc, getD_set_self_g _ _ _ _ hs]

theorem getD_oob {α : Type} (l : List α) (d : α) (s : Nat)
    (h : l.length ≤ s) : l.getD s d = d := by
  rw [List.getD_eq_getElem?_getD, List.getElem?_eq_none h]
  rfl

theorem acInsertWalk_out_eq {V : Type} (pattern : List Char) :
    ∀ (nodes : List (ACNode V)) (state m : Nat),
      ((acInsertWalk nodes state pattern).1.getD m ACNode.empty).output
        = (nodes.getD m ACNode.empty).output := by
  induction pattern with
  | nil => intro nodes state m; rfl
  | cons c rest ih =>
      intro nodes state m
      rcases hg : getGotoBuild nodes state c with _ | next
      · have hstep : acInsertWalk nodes state (c :: rest)
            = acInsertWalk (setGotoBuild nodes state c nodes.length
                ++ [ACNode.empty]) nodes.length rest := by
          rw [acInsertWalk, hg]
        rw [hstep, ih, acStep_output]
      · have hstep : acInsertWalk nodes state (c :: rest)
            = acInsertWalk nodes next rest := by
          rw [acInsertWalk, hg]
        rw [hstep, ih]

/-- The insert walk preserves the arena invariant, only adds edges, ends in
range at a reachable state, and spells the pattern from the start state in
the resulting arena. -/
theorem acInsertWalk_master {V : Type} (pattern : List Char) :
    ∀ (nodes : List (ACNode V)) (state : Nat),
      ArenaInv nodes → state < nodes.length →
      (∃ w, acWalk nodes 0 w = some state) →
      ArenaInv (acInsertWalk nodes state pattern).1 ∧
      nodes.length ≤ (acInsertWalk nodes state pattern).1.length ∧
      (∀ s c t, getGotoBuild nodes s c = some t →
        getGotoBuild (acInsertWalk nodes state pattern).1 s c = some t) ∧
      (acInsertWalk nodes state pattern).2
          < (acInsertWalk nodes state pattern).1.length ∧
      (∃ w, acWalk (acInsertWalk nodes state pattern).1 0 w
          = some (acInsertWalk nodes state pattern).2) ∧
      acWalk (acInsertWalk nodes state pattern).1 state pattern
        = some (acInsertWalk nodes state pattern).2 := by
  induction pattern with
  | nil =>
      intro nodes state hA hs hr
      exact ⟨hA, le_refl _, fun s c t h => h, hs, hr, rfl⟩
  | cons c rest ih =>
      intro nodes state hA hs hr
      rcases hg : getGotoBuild nodes state c with _ | next
      · have hstep : acInsertWalk nodes state (c :: rest)
            = acInsertWalk (setGotoBuild nodes state c nodes.length
                ++ [ACNode.empty]) nodes.length rest := by
          rw [acInsertWalk, hg]
        have hlen2 : (setGotoBuild nodes state c nodes.length
            ++ [ACNode.empty]).length = nodes.length + 1 := by
          rw [List.length_append, setGotoBuild_length]
          simp
        have hmono2 := getGotoBuild_step_mono nodes state c nodes.length hg
        have hcases2 := getGotoBuild_step_cases nodes state c hs hg
        have hnew : getGotoBuild (setGotoBuild nodes state c nodes.length
            ++ [ACNode.empty]) state c = some nodes.length := by
          rw [getGotoBuild_append_empty]
          exact getGotoBuild_set_same nodes state c nodes.length hs hg
        obtain ⟨w0, hw0⟩ := hr
        have hreachN : acWalk (setGotoBuild nodes state c nodes.length
            ++ [ACNode.empty]) 0 (w0 ++ [c]) = some nodes.length := by
          rw [acWalk_snoc, acWalk_mono hmono2 w0 0 state hw0]
          exact hnew
        have hsrc_lt : ∀ s c2 t, getGotoBuild nodes s c2 = some t →
            s < nodes.length := by
          intro s c2 t h
          by_contra hge
          rw [getGotoBuild_oob nodes s c2 (by omega)] at h
          exact absurd h (by simp)
        have hA2 : ArenaInv (setGotoBuild nodes state c nodes.length
            ++ [ACNode.empty]) := by
          refine ⟨by omega, ?_, ?_, ?_, ?_, ?_, ?_⟩
          · intro s c2 t hslt hedge
            rcases hcases2 s c2 t hedge with hold | ⟨he1, he2, he3⟩
            · obtain ⟨h1, h2⟩ := hA.edge_lt s c2 t (hsrc_lt s c2 t hold) hold
              omega
            · rw [he1, he3]
              omega
          · intro s1 c1 s2 c2 t h1lt h2lt he1 he2
            rcases hcases2 s1 c1 t he1 with ho1 | ⟨hx1, hx2, hx3⟩
            · rcases hcases2 s2 c2 t he2 with ho2 | ⟨hy1, hy2, hy3⟩
              · exact hA.edge_uniq s1 c1 s2 c2 t (hsrc_lt s1 c1 t ho1)
                  (hsrc_lt s2 c2 t ho2) ho1 ho2
              · obtain ⟨_, h2⟩ := hA.edge_lt s1 c1 t (hsrc_lt s1 c1 t ho1) ho1
                omega
            · rcases hcases2 s2 c2 t he2 with ho2 | ⟨hy1, hy2, hy3⟩
              · obtain ⟨_, h2⟩ := hA.edge_lt s2 c2 t (hsrc_lt s2 c2 t ho2) ho2
                omega
              · rw [hx1, hx2, hy1, hy2]
                exact ⟨rfl, rfl⟩
          · intro t ht
            by_cases htl : t < nodes.length
            · obtain ⟨w, hw⟩ := hA.reach_all t htl
              exact ⟨w, acWalk_mono hmono2 w 0 t hw⟩
            · have : t = nodes.length := by omega
              rw [this]
              exact ⟨w0 ++ [c], hreachN⟩
          · intro s hslt p hp
            rw [getD_append_d] at hp
            by_cases hsl : s < nodes.length
            · by_cases hc : c.toNat < 128
              · rw [setGotoBuild_ext_ascii nodes state c nodes.length hc] at hp
                exact hA.ext_high s hsl p hp
              · by_cases hss : s = state
                · rw [hss, setGotoBuild_ext_self nodes state c nodes.length hc hs] at hp
                  rcases List.mem_append.mp hp with hm | hm
                  · exact hA.ext_high state hs p hm
                  · rw [List.mem_singleton.mp hm]
                    show 128 ≤ c.toNat
                    omega
                · rw [setGotoBuild_ext_ne nodes state c nodes.length s hss] at hp
                  exact hA.ext_high s hsl p hp
            · rw [setGotoBuild, ] at hp
              by_cases hc : c.toNat < 128
              · rw [if_pos hc, List.getD_eq_getElem?_getD, List.getElem?_eq_none (by
                  rw [List.length_set]
                  omega)] at hp
                exact absurd hp (by simp [ACNode.empty])
              · rw [if_neg hc, List.getD_eq_getElem?_getD, List.getElem?_eq_none (by
                  rw [List.length_set]
                  omega)] at hp
                exact absurd hp (by simp [ACNode.empty])
          · intro s hslt
            rw [getD_append_d]
            by_cases hsl : s < nodes.length
            · by_cases hc : c.toNat < 128
              · rw [setGotoBuild_ext_ascii nodes state c nodes.length hc]
                exact hA.ext_keys s hsl
              · by_cases hss : s = state
                · rw [hss, setGotoBuild_ext_self nodes state c nodes.length hc hs]
                  rw [List.map_append]
                  rw [List.nodup_append]
                  refine ⟨hA.ext_keys state hs, by simp, ?_⟩
                  intro a ha hb
                  rw [getGotoBuild, if_neg hc] at hg
                  have := lookupA_none_key _ c hg
                  simp only [List.map_cons, List.map_nil, List.mem_singleton] at hb
                  rw [hb] at ha
                  exact this ha
                · rw [setGotoBuild_ext_ne nodes state c nodes.length s hss]
                  exact hA.ext_keys s hsl
            · rw [setGotoBuild]
              by_cases hc : c.toNat < 128
              · rw [if_pos hc, List.getD_eq_getElem?_getD, List.getElem?_eq_none (by
                  rw [List.length_set]
                  omega)]
                simp [ACNode.empty]
              · rw [if_neg hc, List.getD_eq_getElem?_getD, List.getElem?_eq_none (by
                  rw [List.length_set]
                  omega)]
                simp [ACNode.empty]
          · have h1 : ((setGotoBuild nodes state c nodes.length
                ++ [ACNode.empty]).getD 0 ACNode.empty).output
                = (nodes.getD 0 ACNode.empty).output := acStep_output nodes state c nodes.length 0
            rw [h1]
            exact hA.root_out
        obtain ⟨ihA, ihlen, ihmono, ihlast, ihreach, ihwalk⟩ :=
          ih (setGotoBuild nodes state c nodes.length ++ [ACNode.empty])
            nodes.length hA2 (by omega) ⟨w0 ++ [c], hreachN⟩
        rw [hstep]
        refine ⟨ihA, by omega, ?_, ihlast, ihreach, ?_⟩
        · intro s c2 t h
          exact ihmono s c2 t (hmono2 s c2 t h)
        · rw [acWalk, ihmono state c nodes.length hnew]
          exact ihwalk
      · have hstep : acInsertWalk nodes state (c :: rest)
            = acInsertWalk nodes next rest := by
          rw [acInsertWalk, hg]
        obtain ⟨hnl, hnr⟩ := hA.edge_lt state c next hs hg
        obtain ⟨w0, hw0⟩ := hr
        have hr2 : ∃ w2, acWalk nodes 0 w2 = some next :=
          ⟨w0 ++ [c], by rw [acWalk_snoc, hw0]; exact hg⟩
        obtain ⟨ihA, ihlen, ihmono, ihlast, ihreach, ihwalk⟩ :=
          ih nodes next hA hnr hr2
        rw [hstep]
        refine ⟨ihA, ihlen, ihmono, ihlast, ihreach, ?_⟩
        rw [acWalk, ihmono state c next hg]
        exact ihwalk

theorem getGotoBuild_set_output {V : Type} (nodes : List (ACNode V)) (l : Nat)
    (out : List V) (s : Nat) (c : Char) :
    getGotoBuild (nodes.set l { nodes.getD l ACNode.empty with output := out }) s c
      = getGotoBuild nodes s c := by
  by_cases hl : l < nodes.length
  · by_cases hs : s = l
    · subst hs
      rw [getGotoBuild, getGotoBuild, getD_set_self_g _ _ _ _ hl]
    · rw [getGotoBuild, getGotoBuild, getD_set_ne_g _ _ _ _ _ (fun h => hs h.symm)]
  · rw [List.set_eq_of_length_le (by omega)]

theorem ext_set_output {V : Type} (nodes : List (ACNode V)) (l : Nat)
    (out : List V) (s : Nat) :
    ((nodes.set l { nodes.getD l ACNode.empty with output := out }).getD s
        ACNode.empty).extended
      = (nodes.getD s ACNode.empty).extended := by
  by_cases hl : l < nodes.length
  · by_cases hs : s = l
    · subst hs
      rw [getD_set_self_g _ _ _ _ hl]
    · rw [getD_set_ne_g _ _ _ _ _ (fun h => hs h.symm)]
  · rw [List.set_eq_of_length_le (by omega)]

theorem out_set_output_self {V : Type} (nodes : List (ACNode V)) (l : Nat)
    (out : List V) (hl : l < nodes.length) :
    ((nodes.set l { nodes.getD l ACNode.empty with output := out }).getD l
        ACNode.empty).output = out := by
  rw [getD_set_self_g _ _ _ _ hl]

theorem out_set_output_ne {V : Type} (nodes : List (ACNode V)) (l : Nat)
    (out : List V) (s : Nat) (hs : s ≠ l) :
    ((nodes.set l { nodes.getD l ACNode.empty with output := out }).getD s
        ACNode.empty).output = (nodes.getD s ACNode.empty).output := by
  rw [getD_set_ne_g _ _ _ _ _ (fun h => hs h.symm)]

theorem acWalk_congr {V : Type} {a b : List (ACNode V)}
    (h : ∀ s c, getGotoBuild a s c = getGotoBuild b s c) :
    ∀ (w : List Char) (s : Nat), acWalk a s w = acWalk b s w := by
  intro w
  induction w with
  | nil => intro s; rfl
  | cons c rest ih =>
      intro s
      rw [acWalk, acWalk, h s c]
      rcases getGotoBuild b s c with _ | t
      · rfl
      · exact ih t

/-- Relation between an automaton and the list of insertions processed so
far: the arena is well formed, the empty-pattern list holds exactly the
empty insertions' values, and the node outputs hold exactly the nonempty
patterns' values at their walk states. -/
def InsDenotes {V : Type} (ac : AC V) (processed : List (List Char × V)) : Prop :=
  ArenaInv ac.buildNodes ∧
  (∀ v, v ∈ ac.emptyPatternValues ↔ ([], v) ∈ processed) ∧
  (∀ p v, (p, v) ∈ processed → p ≠ [] →
    ∃ s, acWalk ac.buildNodes 0 p = some s ∧
      v ∈ (ac.buildNodes.getD s ACNode.empty).output) ∧
  (∀ s v, v ∈ (ac.buildNodes.getD s ACNode.empty).output →
    ∃ p, (p, v) ∈ processed ∧ p ≠ [] ∧ acWalk ac.buildNodes 0 p = some s)

theorem insert_denotes {V : Type} (ac : AC V) (processed : List (List Char × V))
    (p0 : List Char) (v0 : V) (h : InsDenotes ac processed) :
    InsDenotes (ac.insert p0 v0) (processed ++ [(p0, v0)]) := by
  obtain ⟨hA, hE, hC, hS⟩ := h
  rw [AC.insert]
  by_cases hp : p0 = []
  · rw [if_pos hp]
    refine ⟨hA, ?_, ?_, ?_⟩
    · intro v
      simp only [List.mem_append, List.mem_singleton, hE v]
      constructor
      · rintro (hm | hm)
        · exact Or.inl hm
        · exact Or.inr (by rw [hm, hp])
      · rintro (hm | hm)
        · exact Or.inl hm
        · exact Or.inr (congrArg Prod.snd hm)
    · intro p v hm hne
      rcases List.mem_append.mp hm with hm2 | hm2
      · exact hC p v hm2 hne
      · have : p = p0 := congrArg Prod.fst (List.mem_singleton.mp hm2)
        exact absurd (this.trans hp) hne
    · intro s v hv
      obtain ⟨p, hm, hne, hw⟩ := hS s v hv
      exact ⟨p, List.mem_append.mpr (Or.inl hm), hne, hw⟩
  · rw [if_neg hp]
    obtain ⟨mA, mlen, mmono, mlast, mreach, mwalk⟩ :=
      acInsertWalk_master p0 ac.buildNodes 0 hA hA.root_lt ⟨[], rfl⟩
    have hg3 : ∀ s c, getGotoBuild
        ((acInsertWalk ac.buildNodes 0 p0).1.set (acInsertWalk ac.buildNodes 0 p0).2
          { (acInsertWalk ac.buildNodes 0 p0).1.getD
              (acInsertWalk ac.buildNodes 0 p0).2 ACNode.empty with
            output := ((acInsertWalk ac.buildNodes 0 p0).1.getD
              (acInsertWalk ac.buildNodes 0 p0).2 ACNode.empty).output ++ [v0] }) s c
        = getGotoBuild (acInsertWalk ac.buildNodes 0 p0).1 s c :=
      fun s c => getGotoBuild_set_output _ _ _ s c
    have hlast0 : (acInsertWalk ac.buildNodes 0 p0).2 ≠ 0 := by
      obtain ⟨c, w, hp0⟩ : ∃ c w, p0 = c :: w := by
        rcases p0 with _ | ⟨c, w⟩
        · exact absurd rfl hp
        · exact ⟨c, w, rfl⟩
      rw [hp0] at mwalk mA ⊢
      obtain ⟨m, c2, hedge⟩ := acWalk_cons_target _ w c 0 _ mwalk
      have hm : m < (acInsertWalk ac.buildNodes 0 (c :: w)).1.length := by
        by_contra hge
        rw [getGotoBuild_oob _ m c2 (by omega)] at hedge
        exact absurd hedge (by simp)
      obtain ⟨h1, _⟩ := mA.edge_lt m c2 _ hm hedge
      omega
    refine ⟨?_, ?_, ?_, ?_⟩
    · refine ⟨?_, ?_, ?_, ?_, ?_, ?_, ?_⟩
      · simp only [List.length_set]
        exact mA.root_lt
      · intro s c t hslt hedge
        rw [hg3] at hedge
        simp only [List.length_set] at hslt ⊢
        exact mA.edge_lt s c t hslt hedge
      · intro s1 c1 s2 c2 t h1 h2 he1 he2
        rw [hg3] at he1 he2
        simp only [List.length_set] at h1 h2
        exact mA.edge_uniq s1 c1 s2 c2 t h1 h2 he1 he2
      · intro t ht
        simp only [List.length_set] at ht
        obtain ⟨w, hw⟩ := mA.reach_all t ht
        refine ⟨w, ?_⟩
        rw [acWalk_congr hg3 w 0]
        exact hw
      · intro s hslt p hpm
        rw [ext_set_output] at hpm
        simp only [List.length_set] at hslt
        exact mA.ext_high s hslt p hpm
      · intro s hslt
        rw [ext_set_output]
        simp only [List.length_set] at hslt
        exact mA.ext_keys s hslt
      · rw [out_set_output_ne _ _ _ _ (fun hh => hlast0 hh.symm)]
        rw [acInsertWalk_out_eq]
        exact hA.root_out
    · intro v
      simp only [List.mem_append, List.mem_singleton, hE v]
      constructor
      · intro hm
        exact Or.inl hm
      · rintro (hm | hm)
        · exact hm
        · have : ([] : List Char) = p0 := congrArg Prod.fst hm
          exact absurd this.symm hp
    · intro p v hm hne
      rcases List.mem_append.mp hm with hm2 | hm2
      · obtain ⟨s, hw, hv⟩ := hC p v hm2 hne
        have hw2 : acWalk (acInsertWalk ac.buildNodes 0 p0).1 0 p = some s :=
          acWalk_mono mmono p 0 s hw
        refine ⟨s, ?_, ?_⟩
        · rw [acWalk_congr hg3 p 0]
          exact hw2
        · by_cases hsl : s = (acInsertWalk ac.buildNodes 0 p0).2
          · rw [hsl, out_set_output_self _ _ _ mlast, acInsertWalk_out_eq]
            exact List.mem_append.mpr (Or.inl (hsl ▸ hv))
          · rw [out_set_output_ne _ _ _ _ hsl, acInsertWalk_out_eq]
            exact hv
      · have hp2 : p = p0 := congrArg Prod.fst (List.mem_singleton.mp hm2)
        have hv2 : v = v0 := congrArg Prod.snd (List.mem_singleton.mp hm2)
        refine ⟨(acInsertWalk ac.buildNodes 0 p0).2, ?_, ?_⟩
        · rw [hp2, acWalk_congr hg3 p0 0]
          exact mwalk
        · rw [out_set_output_self _ _ _ mlast, hv2]
          exact List.mem_append.mpr (Or.inr (List.mem_singleton.mpr rfl))
    · intro s v hv
      by_cases hsl : s = (acInsertWalk ac.buildNodes 0 p0).2
      · subst hsl
        rw [out_set_output_self _ _ _ mlast, acInsertWalk_out_eq] at hv
        rcases List.mem_append.mp hv with hm | hm
        · obtain ⟨p, hpm, hne, hw⟩ := hS _ v hm
          refine ⟨p, List.mem_append.mpr (Or.inl hpm), hne, ?_⟩
          rw [acWalk_congr hg3 p 0]
          exact acWalk_mono mmono p 0 _ hw
        · refine ⟨p0, List.mem_append.mpr (Or.inr ?_), hp, ?_⟩
          · rw [List.mem_singleton.mp hm]
            exact List.mem_singleton.mpr rfl
          · rw [acWalk_congr hg3 p0 0]
            exact mwalk
      · rw [out_set_output_ne _ _ _ _ hsl, acInsertWalk_out_eq] at hv
        obtain ⟨p, hpm, hne, hw⟩ := hS s v hv
        refine ⟨p, List.mem_append.mpr (Or.inl hpm), hne, ?_⟩
        rw [acWalk_congr hg3 p 0]
        exact acWalk_mono mmono p 0 s hw

theorem acOf_denotes {V : Type} (pairs : List (List Char × V)) :
    InsDenotes (acOf pairs) pairs := by
  have hnew : InsDenotes (AC.new : AC V) [] := by
    have hgnone : ∀ (s : Nat) (c : Char),
        getGotoBuild ([ACNode.empty] : List (ACNode V)) s c = none := by
      intro s c
      rcases s with _ | s2
      · rw [getGotoBuild]
        by_cases hc : c.toNat < 128
        · rw [if_pos hc]
          rfl
        · rw [if_neg hc]
          rfl
      · exact getGotoBuild_oob _ _ c (by simp)
    refine ⟨⟨by simp [AC.new], ?_, ?_, ?_, ?_, ?_, ?_⟩, ?_, ?_, ?_⟩
    · intro s c t hs hedge
      rw [show (AC.new : AC V).buildNodes = [ACNode.empty] from rfl] at hedge
      rw [hgnone] at hedge
      exact absurd hedge (by simp)
    · intro s1 c1 s2 c2 t h1 h2 he1 he2
      rw [show (AC.new : AC V).buildNodes = [ACNode.empty] from rfl, hgnone] at he1
      exact absurd he1 (by simp)
    · intro t ht
      simp only [AC.new, List.length_singleton] at ht
      have : t = 0 := by omega
      rw [this]
      exact ⟨[], rfl⟩
    · intro s hs p hpm
      rcases s with _ | s2
      · exact absurd hpm (by simp [AC.new, ACNode.empty])
      · simp only [AC.new, List.length_singleton] at hs
        omega
    · intro s hs
      rcases s with _ | s2
      · simp [AC.new, ACNode.empty]
      · simp only [AC.new, List.length_singleton] at hs
        omega
    · simp [AC.new, ACNode.empty]
    · intro v
      simp [AC.new]
    · intro p v hm
      exact absurd hm (by simp)
    · intro s v hv
      rcases s with _ | s2
      · exact absurd hv (by simp [AC.new, ACNode.empty])
      · rw [getD_oob _ _ _ (by simp [AC.new])] at hv
        exact absurd hv (by simp [ACNode.empty])
  have hgen : ∀ (l : List (List Char × V)) (ac : AC V)
      (processed : List (List Char × V)), InsDenotes ac processed →
      InsDenotes (l.foldl (fun a pv => a.insert pv.1 pv.2) ac) (processed ++ l) := by
    intro l
    induction l with
    | nil =>
        intro ac processed h
        rw [List.foldl_nil, List.append_nil]
        exact h
    | cons pv rest ih =>
        intro ac processed h
        rw [List.foldl_cons]
        have := ih (ac.insert pv.1 pv.2) (processed ++ [pv])
          (insert_denotes ac processed pv.1 pv.2 h)
        rw [List.append_assoc] at this
        simp only [List.singleton_append] at this
        exact this
  have := hgen pairs AC.new [] hnew
  rw [List.nil_append] at this
  exact this

theorem char_ofNat_toNat (b : Nat) (h : b < 128) : (Char.ofNat b).toNat = b := by
  have hv : Nat.isValidChar b := Or.inl (by omega)
  simp [Char.ofNat, hv, Char.toNat, Char.ofNatAux]
  rfl

theorem char_ofNat_self (c : Char) (h : c.toNat < 128) :
    Char.ofNat c.toNat = c :=
  char_toNat_inj _ _ (char_ofNat_toNat c.toNat h)

theorem edge_src_lt {V : Type} (nodes : List (ACNode V)) (s : Nat) (c : Char)
    (t : Nat) (h : getGotoBuild nodes s c = some t) : s < nodes.length := by
  by_contra hge
  rw [getGotoBuild_oob nodes s c (by omega)] at h
  exact absurd h (by simp)

theorem acWalk_le {V : Type} (nodes : List (ACNode V)) (hA : ArenaInv nodes) :
    ∀ (w : List Char) (s t : Nat), acWalk nodes s w = some t →
      s + w.length ≤ t := by
  intro w
  induction w with
  | nil => intro s t h; rw [Option.some_inj.mp h]; simp
  | cons c rest ih =>
      intro s t h
      rcases hg : getGotoBuild nodes s c with _ | u
      · rw [acWalk, hg] at h
        exact absurd h (by simp)
      · rw [acWalk, hg] at h
        obtain ⟨h1, _⟩ := hA.edge_lt s c u (edge_src_lt nodes s c u hg) hg
        have := ih u t h
        simp only [List.length_cons]
        omega

theorem acWalk_tgt_lt {V : Type} (nodes : List (ACNode V)) (hA : ArenaInv nodes) :
    ∀ (w : List Char) (s t : Nat), s < nodes.length →
      acWalk nodes s w = some t → t < nodes.length := by
  intro w
  induction w with
  | nil => intro s t hs h; rw [← Option.some_inj.mp h]; exact hs
  | cons c rest ih =>
      intro s t hs h
      rcases hg : getGotoBuild nodes s c with _ | u
      · rw [acWalk, hg] at h
        exact absurd h (by simp)
      · rw [acWalk, hg] at h
        exact ih u t (hA.edge_lt s c u hs hg).2 h

theorem mem_acChildren_edge {V : Type} (nodes : List (ACNode V))
    (hA : ArenaInv nodes) (s : Nat) (hs : s < nodes.length) (c : Char) (t : Nat) :
    (c, t) ∈ acChildren (nodes.getD s ACNode.empty).ascii
        (nodes.getD s ACNode.empty).extended
      ↔ getGotoBuild nodes s c = some t := by
  rw [acChildren]
  constructor
  · intro hm
    rcases List.mem_append.mp hm with hm2 | hm2
    · obtain ⟨b, hb, hfb⟩ := List.mem_filterMap.mp hm2
      rcases hrow : (nodes.getD s ACNode.empty).ascii b with _ | t2
      · rw [hrow] at hfb
        exact absurd hfb (by simp)
      · rw [hrow] at hfb
        simp only [Option.map_some'] at hfb
        have hc : Char.ofNat b = c := congrArg Prod.fst (Option.some_inj.mp hfb)
        have ht : t2 = t := congrArg Prod.snd (Option.some_inj.mp hfb)
        have hblt : b < 128 := List.mem_range.mp hb
        have hcb : c.toNat = b := by
          rw [← hc, char_ofNat_toNat b hblt]
        rw [getGotoBuild, if_pos (by omega), hcb, hrow, ht]
    · have h128 := hA.ext_high s hs _ hm2
      have h128b : 128 ≤ c.toNat := h128
      rw [getGotoBuild, if_neg (by omega)]
      exact mem_lookupA _ _ _ (hA.ext_keys s hs) hm2
  · intro hedge
    by_cases hc : c.toNat < 128
    · refine List.mem_append.mpr (Or.inl ?_)
      refine List.mem_filterMap.mpr ⟨c.toNat, List.mem_range.mpr hc, ?_⟩
      rw [getGotoBuild, if_pos hc] at hedge
      rw [hedge]
      simp only [Option.map_some']
      rw [char_ofNat_self c hc]
    · refine List.mem_append.mpr (Or.inr ?_)
      rw [getGotoBuild, if_neg hc] at hedge
      exact lookupA_some_mem _ _ _ hedge

theorem mem_kidsT {V : Type} (nodes : List (ACNode V)) (hA : ArenaInv nodes)
    (s : Nat) (hs : s < nodes.length) (t : Nat) :
    t ∈ kidsT nodes s ↔ ∃ c, getGotoBuild nodes s c = some t := by
  rw [kidsT]
  constructor
  · intro hm
    obtain ⟨ct, hct, hsnd⟩ := List.mem_map.mp hm
    exact ⟨ct.1, by
      rw [← hsnd]
      exact (mem_acChildren_edge nodes hA s hs ct.1 ct.2).mp hct⟩
  · rintro ⟨c, hedge⟩
    exact List.mem_map.mpr ⟨(c, t),
      (mem_acChildren_edge nodes hA s hs c t).mpr hedge, rfl⟩

theorem nodup_filterMap_of_injOn {α β : Type} (l : List α) (g : α → Option β)
    (hl : l.Nodup)
    (hinj : ∀ a ∈ l, ∀ a2 ∈ l, ∀ b, g a = some b → g a2 = some b → a = a2) :
    (l.filterMap g).Nodup := by
  induction l with
  | nil => simp
  | cons a rest ih =>
      rw [List.nodup_cons] at hl
      rcases hg : g a with _ | b
      · rw [List.filterMap_cons_none hg]
        exact ih hl.2 fun x hx y hy b2 h1 h2 =>
          hinj x (List.mem_cons_of_mem _ hx) y (List.mem_cons_of_mem _ hy) b2 h1 h2
      · rw [List.filterMap_cons_some hg]
        rw [List.nodup_cons]
        refine ⟨?_, ih hl.2 fun x hx y hy b2 h1 h2 =>
          hinj x (List.mem_cons_of_mem _ hx) y (List.mem_cons_of_mem _ hy) b2 h1 h2⟩
        intro hb
        obtain ⟨a2, ha2, hga2⟩ := List.mem_filterMap.mp hb
        have : a = a2 := hinj a (List.mem_cons_self a rest) a2
          (List.mem_cons_of_mem _ ha2) b hg hga2
        rw [this] at hl
        exact hl.1 ha2

theorem acChildren_keys_nodup {V : Type} (nodes : List (ACNode V))
    (hA : ArenaInv nodes) (s : Nat) (hs : s < nodes.length) :
    ((acChildren (nodes.getD s ACNode.empty).ascii
      (nodes.getD s ACNode.empty).extended).map Prod.fst).Nodup := by
  rw [acChildren, List.map_append]
  rw [List.nodup_append]
  refine ⟨?_, hA.ext_keys s hs, ?_⟩
  · rw [List.map_filterMap]
    refine nodup_filterMap_of_injOn _ _ (List.nodup_range 128) ?_
    intro b1 hb1 b2 hb2 c h1 h2
    rcases hr1 : (nodes.getD s ACNode.empty).ascii b1 with _ | t1
    · rw [hr1] at h1
      exact absurd h1 (by simp)
    · rcases hr2 : (nodes.getD s ACNode.empty).ascii b2 with _ | t2
      · rw [hr2] at h2
        exact absurd h2 (by simp)
      · rw [hr1] at h1
        rw [hr2] at h2
        simp only [Option.map_some', Option.some_inj] at h1 h2
        have : Char.ofNat b1 = Char.ofNat b2 := h1.trans h2.symm
        have hb1lt : b1 < 128 := List.mem_range.mp hb1
        have hb2lt : b2 < 128 := List.mem_range.mp hb2
        rw [← char_ofNat_toNat b1 hb1lt, ← char_ofNat_toNat b2 hb2lt, this]
  · intro a ha hb
    rw [List.map_filterMap] at ha
    obtain ⟨b, hbr, hgb⟩ := List.mem_filterMap.mp ha
    rcases hr : (nodes.getD s ACNode.empty).ascii b with _ | t1
    · rw [hr] at hgb
      exact absurd hgb (by simp)
    · rw [hr] at hgb
      simp only [Option.map_some', Option.some_inj] at hgb
      obtain ⟨p, hp, hfst⟩ := List.mem_map.mp hb
      have h128 := hA.ext_high s hs p hp
      have hblt : b < 128 := List.mem_range.mp hbr
      have : a.toNat = b := by
        rw [← hgb]
        exact char_ofNat_toNat b hblt
      rw [← hfst] at this
      omega

theorem kidsT_nodup {V : Type} (nodes : List (ACNode V)) (hA : ArenaInv nodes)
    (s : Nat) (hs : s < nodes.length) : (kidsT nodes s).Nodup := by
  rw [kidsT]
  have hpairs : (acChildren (nodes.getD s ACNode.empty).ascii
      (nodes.getD s ACNode.empty).extended).Nodup :=
    (acChildren_keys_nodup nodes hA s hs).of_map
  refine hpairs.map_on ?_
  intro x hx y hy hxy
  rcases x with ⟨cx, tx⟩
  rcases y with ⟨cy, ty⟩
  simp only at hxy
  have hex := (mem_acChildren_edge nodes hA s hs cx tx).mp hx
  have hey := (mem_acChildren_edge nodes hA s hs cy ty).mp hy
  rw [hxy] at hex
  obtain ⟨_, hc⟩ := hA.edge_uniq s cx s cy ty hs hs hex hey
  rw [hc, hxy]

theorem acWalk_to_edge {V : Type} (nodes : List (ACNode V)) (w : List Char)
    (s t : Nat) (hne : w ≠ []) (h : acWalk nodes s w = some t) :
    ∃ w2 c m, w = w2 ++ [c] ∧ acWalk nodes s w2 = some m ∧
      getGotoBuild nodes m c = some t := by
  rcases List.eq_nil_or_concat w with hw | ⟨w2, c, hw⟩
  · exact absurd hw hne
  · rw [List.concat_eq_append] at hw
    rw [hw, acWalk_snoc] at h
    rcases hm : acWalk nodes s w2 with _ | m
    · rw [hm] at h
      exact absurd h (by simp)
    · rw [hm] at h
      exact ⟨w2, c, m, hw, hm, h⟩

theorem head_eq_of_all {α : Type} (l : List α) (a : α) (hne : a ∈ l)
    (hall : ∀ x ∈ l, x = a) : l.head? = some a := by
  rcases l with _ | ⟨x, rest⟩
  · exact absurd hne (by simp)
  · rw [List.head?_cons, hall x (List.mem_cons_self x rest)]

theorem inEdge_eq {V : Type} (nodes : List (ACNode V)) (hA : ArenaInv nodes)
    (s : Nat) (c : Char) (t : Nat) (hedge : getGotoBuild nodes s c = some t) :
    inEdge nodes t = some (s, c) := by
  rw [inEdge]
  refine head_eq_of_all _ _ ?_ ?_
  · refine List.mem_flatMap.mpr ⟨s, List.mem_range.mpr (edge_src_lt nodes s c t hedge), ?_⟩
    refine List.mem_filterMap.mpr ⟨(c, t), ?_, ?_⟩
    · exact (mem_acChildren_edge nodes hA s (edge_src_lt nodes s c t hedge) c t).mpr hedge
    · rw [if_pos rfl]
  · intro x hx
    obtain ⟨s2, hs2, hfm⟩ := List.mem_flatMap.mp hx
    obtain ⟨ct, hct, hite⟩ := List.mem_filterMap.mp hfm
    by_cases hc2 : ct.2 = t
    · rw [if_pos hc2] at hite
      have hx2 : x = (s2, ct.1) := (Option.some_inj.mp hite).symm
      have hedge2 : getGotoBuild nodes s2 ct.1 = some t := by
        rw [← hc2]
        refine (mem_acChildren_edge nodes hA s2 (List.mem_range.mp hs2) ct.1 ct.2).mp ?_
        rcases ct with ⟨cc, tt⟩
        exact hct
      obtain ⟨hs, hcv⟩ := hA.edge_uniq s2 ct.1 s c t (List.mem_range.mp hs2)
        (edge_src_lt nodes s c t hedge) hedge2 hedge
      rw [hx2, hs, hcv]
    · rw [if_neg hc2] at hite
      exact absurd hite (by simp)

theorem wordOf_walk {V : Type} (nodes : List (ACNode V)) (hA : ArenaInv nodes) :
    ∀ t, t < nodes.length → acWalk nodes 0 (wordOf nodes t) = some t := by
  intro t
  induction t using Nat.strong_induction_on with
  | _ t ih =>
      intro ht
      rcases t with _ | t2
      · simp only [wordOf]
        rfl
      · obtain ⟨w, hw⟩ := hA.reach_all (t2 + 1) ht
        have hwne : w ≠ [] := by
          intro hnil
          rw [hnil] at hw
          exact absurd (Option.some_inj.mp hw) (by omega)
        obtain ⟨w2, c, m, hdec, hw2, hedge⟩ :=
          acWalk_to_edge nodes w 0 (t2 + 1) hwne hw
        have hie := inEdge_eq nodes hA m c (t2 + 1) hedge
        have hmlt : m < t2 + 1 := (hA.edge_lt m c (t2 + 1)
          (edge_src_lt nodes m c _ hedge) hedge).1
        rw [wordOf, hie]
        simp only [hmlt, dif_pos]
        rw [acWalk_snoc, ih m hmlt (by omega)]
        exact hedge

theorem acWalk_inj {V : Type} (nodes : List (ACNode V)) (hA : ArenaInv nodes) :
    ∀ t w1 w2, acWalk nodes 0 w1 = some t → acWalk nodes 0 w2 = some t →
      w1 = w2 := by
  intro t
  induction t using Nat.strong_induction_on with
  | _ t ih =>
      intro w1 w2 h1 h2
      rcases t with _ | t2
      · rcases w1 with _ | ⟨c1, r1⟩
        · rcases w2 with _ | ⟨c2, r2⟩
          · rfl
          · obtain ⟨m, cc, hedge⟩ := acWalk_cons_target nodes r2 c2 0 0 h2
            have := (hA.edge_lt m cc 0 (edge_src_lt nodes m cc 0 hedge) hedge).1
            omega
        · obtain ⟨m, cc, hedge⟩ := acWalk_cons_target nodes r1 c1 0 0 h1
          have := (hA.edge_lt m cc 0 (edge_src_lt nodes m cc 0 hedge) hedge).1
          omega
      · have hne1 : w1 ≠ [] := by
          intro hnil
          rw [hnil] at h1
          exact absurd (Option.some_inj.mp h1) (by omega)
        have hne2 : w2 ≠ [] := by
          intro hnil
          rw [hnil] at h2
          exact absurd (Option.some_inj.mp h2) (by omega)
        obtain ⟨u1, c1, m1, hd1, hu1, he1⟩ :=
          acWalk_to_edge nodes w1 0 (t2 + 1) hne1 h1
        obtain ⟨u2, c2, m2, hd2, hu2, he2⟩ :=
          acWalk_to_edge nodes w2 0 (t2 + 1) hne2 h2
        obtain ⟨hm, hc⟩ := hA.edge_uniq m1 c1 m2 c2 (t2 + 1)
          (edge_src_lt nodes m1 c1 _ he1) (edge_src_lt nodes m2 c2 _ he2) he1 he2
        rw [hm] at hu1
        have hmlt : m2 < t2 + 1 := (hA.edge_lt m2 c2 (t2 + 1)
          (edge_src_lt nodes m2 c2 _ he2) he2).1
        have := ih m2 hmlt u1 u2 hu1 hu2
        rw [hd1, hd2, this, hc]

theorem wordOf_edge {V : Type} (nodes : List (ACNode V)) (hA : ArenaInv nodes)
    (s : Nat) (c : Char) (t : Nat) (hedge : getGotoBuild nodes s c = some t) :
    wordOf nodes t = wordOf nodes s ++ [c] := by
  have hslt := edge_src_lt nodes s c t hedge
  have htlt := (hA.edge_lt s c t hslt hedge).2
  refine acWalk_inj nodes hA t _ _ (wordOf_walk nodes hA t htlt) ?_
  rw [acWalk_snoc, wordOf_walk nodes hA s hslt]
  exact hedge

theorem wordOf_nil_iff {V : Type} (nodes : List (ACNode V)) (hA : ArenaInv nodes)
    (t : Nat) (ht : t < nodes.length) : wordOf nodes t = [] ↔ t = 0 := by
  constructor
  · intro h
    have := wordOf_walk nodes hA t ht
    rw [h] at this
    exact (Option.some_inj.mp this).symm
  · intro h
    rw [h]
    simp only [wordOf]

theorem depthS_le {V : Type} (nodes : List (ACNode V)) (hA : ArenaInv nodes)
    (t : Nat) (ht : t < nodes.length) : depthS nodes t ≤ t := by
  have := acWalk_le nodes hA (wordOf nodes t) 0 t (wordOf_walk nodes hA t ht)
  rw [depthS]
  omega

theorem depthS_edge {V : Type} (nodes : List (ACNode V)) (hA : ArenaInv nodes)
    (s : Nat) (c : Char) (t : Nat) (hedge : getGotoBuild nodes s c = some t) :
    depthS nodes t = depthS nodes s + 1 := by
  rw [depthS, depthS, wordOf_edge nodes hA s c t hedge, List.length_append]
  rfl

theorem suffix_antisym {α : Type} {l1 l2 : List α} (h1 : l1 <:+ l2)
    (h2 : l2 <:+ l1) : l1 = l2 := by
  obtain ⟨p, hp⟩ := h1
  obtain ⟨q, hq⟩ := h2
  have hlen : p.length + l1.length = l2.length := by
    rw [← hp, List.length_append]
  have hlen2 : q.length + l2.length = l1.length := by
    rw [← hq, List.length_append]
  have hp0 : p.length = 0 := by omega
  have : p = [] := List.length_eq_zero.mp hp0
  rw [this] at hp
  exact hp.symm ▸ rfl

theorem suffix_append_same {α : Type} {l1 l2 : List α} (z : List α)
    (h : l1 <:+ l2) : l1 ++ z <:+ l2 ++ z := by
  obtain ⟨p, hp⟩ := h
  exact ⟨p, by rw [← hp, List.append_assoc]⟩

theorem suffix_concat_cases {α : Type} {y w : List α} {c : α}
    (h : y <:+ w ++ [c]) : y = [] ∨ ∃ y2, y = y2 ++ [c] ∧ y2 <:+ w := by
  rcases List.eq_nil_or_concat y with hy | ⟨y2, c2, hy⟩
  · exact Or.inl hy
  · rw [List.concat_eq_append] at hy
    right
    obtain ⟨p, hp⟩ := h
    rw [hy] at hp
    rw [← List.append_assoc] at hp
    obtain ⟨hpre, hone⟩ := List.append_inj' hp rfl
    have hc : c2 = c := List.singleton_inj.mp hone
    exact ⟨y2, by rw [hy, hc], ⟨p, hpre⟩⟩

theorem acWalk_isSome_pref {V : Type} (nodes : List (ACNode V)) (y z : List Char)
    (h : (acWalk nodes 0 (y ++ z)).isSome) : (acWalk nodes 0 y).isSome := by
  rw [acWalk_append_w] at h
  rcases hw : acWalk nodes 0 y with _ | m
  · rw [hw] at h
    exact absurd h (by simp)
  · simp

theorem lswWord_suffix {V : Type} (nodes : List (ACNode V)) :
    ∀ w, lswWord nodes w <:+ w := by
  intro w
  induction w with
  | nil => exact List.nil_suffix
  | cons c rest ih =>
      rw [lswWord]
      by_cases h : (acWalk nodes 0 (c :: rest)).isSome
      · rw [if_pos h]
      · rw [if_neg h]
        exact ih.trans (List.suffix_cons c rest)

theorem lswWord_isWord {V : Type} (nodes : List (ACNode V)) :
    ∀ w, (acWalk nodes 0 (lswWord nodes w)).isSome := by
  intro w
  induction w with
  | nil => simp [lswWord, acWalk]
  | cons c rest ih =>
      rw [lswWord]
      by_cases h : (acWalk nodes 0 (c :: rest)).isSome
      · rw [if_pos h]
        exact h
      · rw [if_neg h]
        exact ih

theorem suffix_word_le_lsw {V : Type} (nodes : List (ACNode V)) :
    ∀ w y, y <:+ w → (acWalk nodes 0 y).isSome → y <:+ lswWord nodes w := by
  intro w
  induction w with
  | nil =>
      intro y hy _
      rw [List.suffix_nil.mp hy]
      exact List.nil_suffix
  | cons c rest ih =>
      intro y hy hsome
      rw [lswWord]
      by_cases h : (acWalk nodes 0 (c :: rest)).isSome
      · rw [if_pos h]
        exact hy
      · rw [if_neg h]
        rcases List.suffix_cons_iff.mp hy with he | ht
        · rw [he] at hsome
          exact absurd hsome h
        · exact ih y ht hsome

theorem lswWord_of_isWord {V : Type} (nodes : List (ACNode V)) (w : List Char)
    (h : (acWalk nodes 0 w).isSome) : lswWord nodes w = w := by
  rcases w with _ | ⟨c, rest⟩
  · rfl
  · rw [lswWord, if_pos h]

theorem lswWord_eq_of {V : Type} (nodes : List (ACNode V)) (w u : List Char)
    (hu : u <:+ w) (hsome : (acWalk nodes 0 u).isSome)
    (hmax : ∀ y, y <:+ w → (acWalk nodes 0 y).isSome → y <:+ u) :
    lswWord nodes w = u := by
  refine suffix_antisym ?_ ?_
  · exact hmax _ (lswWord_suffix nodes w) (lswWord_isWord nodes w)
  · exact suffix_word_le_lsw nodes w u hu hsome

/-- The key step: the longest suffix word of `w ++ [c]` only depends on the
longest suffix word of `w`. -/
theorem lswWord_append_char {V : Type} (nodes : List (ACNode V)) (w : List Char)
    (c : Char) :
    lswWord nodes (w ++ [c]) = lswWord nodes (lswWord nodes w ++ [c]) := by
  refine lswWord_eq_of nodes _ _ ?_ (lswWord_isWord nodes _) ?_
  · rcases suffix_concat_cases (lswWord_suffix nodes (lswWord nodes w ++ [c]))
        with he | ⟨y2, hy2, hsuf⟩
    · rw [he]
      exact List.nil_suffix
    · rw [hy2]
      exact suffix_append_same [c] (hsuf.trans (lswWord_suffix nodes w))
  · intro y hy hsome
    rcases suffix_concat_cases hy with he | ⟨y2, hy2, hsuf⟩
    · rw [he]
      exact List.nil_suffix
    · have hy2some : (acWalk nodes 0 y2).isSome := by
        rw [hy2] at hsome
        exact acWalk_isSome_pref nodes y2 [c] hsome
      have : y2 <:+ lswWord nodes w := suffix_word_le_lsw nodes w y2 hsuf hy2some
      rw [hy2]
      exact suffix_word_le_lsw nodes _ _ (suffix_append_same [c] this) (hy2 ▸ hsome)

theorem wState_lt {V : Type} (nodes : List (ACNode V)) (hA : ArenaInv nodes)
    (u : List Char) (h : (acWalk nodes 0 u).isSome) :
    wState nodes u < nodes.length := by
  rcases hw : acWalk nodes 0 u with _ | s
  · rw [hw] at h
    exact absurd h (by simp)
  · rw [wState, hw]
    exact acWalk_tgt_lt nodes hA u 0 s hA.root_lt hw

theorem reachS_lt {V : Type} (nodes : List (ACNode V)) (hA : ArenaInv nodes)
    (t : List Char) : reachS nodes t < nodes.length :=
  wState_lt nodes hA _ (lswWord_isWord nodes t)

theorem wordOf_wState {V : Type} (nodes : List (ACNode V)) (hA : ArenaInv nodes)
    (u : List Char) (h : (acWalk nodes 0 u).isSome) :
    wordOf nodes (wState nodes u) = u := by
  rcases hw : acWalk nodes 0 u with _ | s
  · rw [hw] at h
    exact absurd h (by simp)
  · rw [wState, hw]
    exact acWalk_inj nodes hA s _ _
      (wordOf_walk nodes hA s (acWalk_tgt_lt nodes hA u 0 s hA.root_lt hw)) hw

theorem wordOf_reachS {V : Type} (nodes : List (ACNode V)) (hA : ArenaInv nodes)
    (t : List Char) : wordOf nodes (reachS nodes t) = lswWord nodes t :=
  wordOf_wState nodes hA _ (lswWord_isWord nodes t)

theorem reachS_nil {V : Type} (nodes : List (ACNode V)) : reachS nodes [] = 0 := by
  rw [reachS, lswWord, wState, acWalk]
  rfl

/-- The DFA-state specification advances by `deltaS` on each character. -/
theorem reachS_append_char {V : Type} (nodes : List (ACNode V))
    (hA : ArenaInv nodes) (t : List Char) (c : Char) :
    reachS nodes (t ++ [c]) = deltaS nodes (reachS nodes t) c := by
  rw [deltaS, wordOf_reachS nodes hA t, reachS, reachS,
    lswWord_append_char nodes t c]

/-- Transition recurrence, edge case: a trie edge is the transition. -/
theorem deltaS_edge {V : Type} (nodes : List (ACNode V)) (hA : ArenaInv nodes)
    (s : Nat) (c : Char) (t : Nat) (hedge : getGotoBuild nodes s c = some t) :
    deltaS nodes s c = t := by
  have hslt := edge_src_lt nodes s c t hedge
  have hw : acWalk nodes 0 (wordOf nodes s ++ [c]) = some t := by
    rw [acWalk_snoc, wordOf_walk nodes hA s hslt]
    exact hedge
  rw [deltaS, reachS, lswWord_of_isWord nodes _ (by rw [hw]; rfl), wState, hw]
  rfl

/-- Transition recurrence, failure case: with no trie edge the transition
agrees with the failure state's transition. -/
theorem deltaS_fail {V : Type} (nodes : List (ACNode V)) (hA : ArenaInv nodes)
    (s : Nat) (c : Char) (hs : s < nodes.length) (hs0 : s ≠ 0)
    (hnone : getGotoBuild nodes s c = none) :
    deltaS nodes s c = deltaS nodes (failS nodes s) c := by
  have hwne : wordOf nodes s ≠ [] :=
    fun h => hs0 ((wordOf_nil_iff nodes hA s hs).mp h)
  obtain ⟨ch, wt, hw⟩ : ∃ ch wt, wordOf nodes s = ch :: wt := by
    rcases hx : wordOf nodes s with _ | ⟨ch, wt⟩
    · exact absurd hx hwne
    · exact ⟨ch, wt, rfl⟩
  have hnotword : ¬ (acWalk nodes 0 (wordOf nodes s ++ [c])).isSome := by
    rw [acWalk_snoc, wordOf_walk nodes hA s hs]
    show ¬ (getGotoBuild nodes s c).isSome = true
    rw [hnone]
    simp
  have h1 : lswWord nodes (wordOf nodes s ++ [c])
      = lswWord nodes ((wordOf nodes s).tail ++ [c]) := by
    rw [hw]
    rw [hw, List.cons_append] at hnotword
    show lswWord nodes (ch :: (wt ++ [c])) = lswWord nodes (wt ++ [c])
    rw [lswWord, if_neg hnotword]
  have h2 : wordOf nodes (failS nodes s) = lswWord nodes ((wordOf nodes s).tail) :=
    wordOf_reachS nodes hA _
  have key : wState nodes (lswWord nodes (wordOf nodes s ++ [c]))
      = wState nodes (lswWord nodes (wordOf nodes (failS nodes s) ++ [c])) := by
    rw [h1, h2, ← lswWord_append_char]
  exact key

/-- Transition recurrence at the root with no edge: stay at the root. -/
theorem deltaS_root {V : Type} (nodes : List (ACNode V)) (c : Char)
    (hnone : getGotoBuild nodes 0 c = none) :
    deltaS nodes 0 c = 0 := by
  have hword0 : wordOf nodes 0 = [] := by simp only [wordOf]
  have hwalk : ¬ (acWalk nodes 0 [c]).isSome := by
    rw [show acWalk nodes 0 [c] = none from by rw [acWalk, hnone]]
    simp
  have key : wState nodes (lswWord nodes ([] ++ [c])) = 0 := by
    rw [List.nil_append, lswWord, if_neg hwalk]
    rfl
  show wState nodes (lswWord nodes (wordOf nodes 0 ++ [c])) = 0
  rw [hword0]
  exact key

/-- Failure of a child reached from the root. -/
theorem failS_child_root {V : Type} (nodes : List (ACNode V))
    (hA : ArenaInv nodes) (c : Char) (u : Nat)
    (hedge : getGotoBuild nodes 0 c = some u) : failS nodes u = 0 := by
  rw [failS, wordOf_edge nodes hA 0 c u hedge]
  have : wordOf nodes 0 = [] := by simp only [wordOf]
  rw [this, List.nil_append]
  exact reachS_nil nodes

/-- Failure of a child reached from a non-root state. -/
theorem failS_child {V : Type} (nodes : List (ACNode V)) (hA : ArenaInv nodes)
    (s : Nat) (c : Char) (u : Nat) (hs0 : s ≠ 0)
    (hedge : getGotoBuild nodes s c = some u) :
    failS nodes u = deltaS nodes (failS nodes s) c := by
  have hslt := edge_src_lt nodes s c u hedge
  obtain ⟨ch, wt, hw⟩ : ∃ ch wt, wordOf nodes s = ch :: wt := by
    rcases hx : wordOf nodes s with _ | ⟨ch, wt⟩
    · exact absurd ((wordOf_nil_iff nodes hA s hslt).mp hx) hs0
    · exact ⟨ch, wt, rfl⟩
  have ht : (wordOf nodes s).tail = wt := by
    rw [hw, List.tail_cons]
  have h2 : wordOf nodes (failS nodes s) = lswWord nodes wt := by
    have h3 : wordOf nodes (failS nodes s)
        = lswWord nodes ((wordOf nodes s).tail) := wordOf_reachS nodes hA _
    rw [ht] at h3
    exact h3
  have key : reachS nodes (wt ++ [c]) = deltaS nodes (failS nodes s) c := by
    show wState nodes (lswWord nodes (wt ++ [c]))
      = wState nodes (lswWord nodes (wordOf nodes (failS nodes s) ++ [c]))
    rw [h2, ← lswWord_append_char]
  have hL : failS nodes u = reachS nodes (wt ++ [c]) := by
    have h3 : wordOf nodes u = ch :: (wt ++ [c]) := by
      rw [wordOf_edge nodes hA s c u hedge, hw, List.cons_append]
    rw [failS, h3, List.tail_cons]
  rw [hL]
  exact key

/-- The failure state strictly decreases depth. -/
theorem depthS_failS_lt {V : Type} (nodes : List (ACNode V)) (hA : ArenaInv nodes)
    (s : Nat) (hs : s < nodes.length) (hs0 : s ≠ 0) :
    depthS nodes (failS nodes s) < depthS nodes s := by
  have hwne : wordOf nodes s ≠ [] :=
    fun h => hs0 ((wordOf_nil_iff nodes hA s hs).mp h)
  have h1 : wordOf nodes (failS nodes s) = lswWord nodes (wordOf nodes s).tail :=
    wordOf_reachS nodes hA _
  have h2 := (lswWord_suffix nodes (wordOf nodes s).tail).length_le
  rw [depthS, depthS, h1]
  rcases hx : wordOf nodes s with _ | ⟨ch, wt⟩
  · exact absurd hx hwne
  · rw [hx] at h2
    simp only [List.length_cons, List.tail_cons] at h2 ⊢
    omega

theorem failS_lt {V : Type} (nodes : List (ACNode V)) (hA : ArenaInv nodes)
    (s : Nat) : failS nodes s < nodes.length :=
  reachS_lt nodes hA _

/-! Build-phase table views, mirroring the let-bindings of `AC.build`. -/

/-- `AC.build`'s initial goto table (the trie rows). -/
def bGoto0 {V : Type} (nodes : List (ACNode V)) : List (Nat → Option Nat) :=
  nodes.map ACNode.ascii

/-- The root row before completion. -/
def bRootRow {V : Type} (nodes : List (ACNode V)) : Nat → Option Nat :=
  (bGoto0 nodes).getD 0 (fun _ => none)

/-- The root row after phase 1: missing ASCII slots become root self-loops. -/
def bRootRow1 {V : Type} (nodes : List (ACNode V)) : Nat → Option Nat :=
  fun b => if b < 128 then some ((bRootRow nodes b).getD 0) else bRootRow nodes b

/-- The goto table after phase 1. -/
def bGoto1 {V : Type} (nodes : List (ACNode V)) : List (Nat → Option Nat) :=
  (bGoto0 nodes).set 0 (bRootRow1 nodes)

/-- The extended-transition table (the trie's non-ASCII edges). -/
def bExt {V : Type} (nodes : List (ACNode V)) : List (List (Char × Nat)) :=
  nodes.map ACNode.extended

/-- The initial output table (the trie outputs). -/
def bOut0 {V : Type} (nodes : List (ACNode V)) : List (List V) :=
  nodes.map ACNode.output

/-- Phase 2's initial queue. -/
def bQueue1 {V : Type} (nodes : List (ACNode V)) : List Nat :=
  ((List.range 128).filterMap (bRootRow nodes)) ++
    ((bExt nodes).getD 0 []).map Prod.snd

/-- Phase 3's initial queue. -/
def bQueue3 {V : Type} (nodes : List (ACNode V)) : List Nat :=
  ((List.range 128).filterMap fun b =>
      match bRootRow1 nodes b with
      | some t => if t ≠ 0 then some t else none
      | none => none) ++
    ((bExt nodes).getD 0 []).map Prod.snd

/-- Phase 2's result. -/
def bP2 {V : Type} (nodes : List (ACNode V)) : List Nat × List (List V) :=
  phase2Loop (bGoto1 nodes) (bExt nodes) (nodes.length + 1) (bQueue1 nodes)
    (List.replicate nodes.length 0) (bOut0 nodes)

/-- Phase 3's result. -/
def bP3 {V : Type} (nodes : List (ACNode V)) :
    List (Nat → Option Nat) × List (List (Char × Nat)) :=
  phase3Loop (bP2 nodes).1 (nodes.length + 1) (bQueue3 nodes) (bGoto1 nodes)
    (bExt nodes)

theorem build_parts {V : Type} (ac : AC V) :
    ac.build = { buildNodes := [], emptyPatternValues := ac.emptyPatternValues,
                 hasPatterns := ac.hasPatterns,
                 gotoTable := (bP3 ac.buildNodes).1,
                 extendedGoto := (bP3 ac.buildNodes).2,
                 output := (bP2 ac.buildNodes).2, built := true } := rfl

theorem bGoto0_getD {V : Type} (nodes : List (ACNode V)) (s : Nat) :
    (bGoto0 nodes).getD s (fun _ => none) = (nodes.getD s ACNode.empty).ascii :=
  getD_map_g ACNode.ascii nodes s ACNode.empty

theorem bExt_getD {V : Type} (nodes : List (ACNode V)) (s : Nat) :
    (bExt nodes).getD s [] = (nodes.getD s ACNode.empty).extended :=
  getD_map_g ACNode.extended nodes s ACNode.empty

theorem bOut0_getD {V : Type} (nodes : List (ACNode V)) (s : Nat) :
    (bOut0 nodes).getD s [] = (nodes.getD s ACNode.empty).output :=
  getD_map_g ACNode.output nodes s ACNode.empty

theorem bGoto0_length {V : Type} (nodes : List (ACNode V)) :
    (bGoto0 nodes).length = nodes.length := List.length_map nodes ACNode.ascii

theorem bGoto1_length {V : Type} (nodes : List (ACNode V)) :
    (bGoto1 nodes).length = nodes.length := by
  rw [bGoto1, List.length_set, bGoto0_length]

theorem bExt_length {V : Type} (nodes : List (ACNode V)) :
    (bExt nodes).length = nodes.length := List.length_map nodes ACNode.extended

theorem bOut0_length {V : Type} (nodes : List (ACNode V)) :
    (bOut0 nodes).length = nodes.length := List.length_map nodes ACNode.output

theorem bGoto1_getD_zero {V : Type} (nodes : List (ACNode V))
    (h0 : 0 < nodes.length) :
    (bGoto1 nodes).getD 0 (fun _ => none) = bRootRow1 nodes := by
  rw [bGoto1, getD_set_self_g]
  rw [bGoto0_length]
  exact h0

theorem bGoto1_getD_ne {V : Type} (nodes : List (ACNode V)) (s : Nat)
    (hs : s ≠ 0) :
    (bGoto1 nodes).getD s (fun _ => none) = (nodes.getD s ACNode.empty).ascii := by
  rw [bGoto1, getD_set_ne_g _ _ _ _ _ (fun h => hs h.symm), bGoto0_getD]

/-- `getGotoSearch` over the phase-1 tables agrees with the trie goto away
from the root. -/
theorem getGotoSearch_ne {V : Type} (nodes : List (ACNode V)) (s : Nat)
    (hs : s ≠ 0) (c : Char) :
    getGotoSearch (bGoto1 nodes) (bExt nodes) s c = getGotoBuild nodes s c := by
  rw [getGotoSearch, getGotoBuild, bGoto1_getD_ne nodes s hs, bExt_getD]

/-- The child target list splits into the ASCII part and the extended part. -/
theorem kidsT_decomp {V : Type} (nodes : List (ACNode V)) (s : Nat) :
    kidsT nodes s
      = (List.range 128).filterMap (nodes.getD s ACNode.empty).ascii
        ++ ((nodes.getD s ACNode.empty).extended.map Prod.snd) := by
  rw [kidsT, acChildren, List.map_append]
  congr 1
  rw [List.map_filterMap]
  refine List.filterMap_congr ?_
  intro b _
  rcases (nodes.getD s ACNode.empty).ascii b with _ | t
  · rfl
  · rfl

theorem bQueue1_eq {V : Type} (nodes : List (ACNode V)) :
    bQueue1 nodes = kidsT nodes 0 := by
  rw [bQueue1, kidsT_decomp, bRootRow, bGoto0_getD, bExt_getD]

theorem bQueue3_eq {V : Type} (nodes : List (ACNode V)) (hA : ArenaInv nodes) :
    bQueue3 nodes = kidsT nodes 0 := by
  rw [bQueue3, kidsT_decomp, bExt_getD]
  congr 1
  refine List.filterMap_congr ?_
  intro b hb
  rw [bRootRow1, if_pos (List.mem_range.mp hb)]
  rcases hr : bRootRow nodes b with _ | t
  · rw [bRootRow, bGoto0_getD] at hr
    rw [hr]
    rfl
  · rw [bRootRow, bGoto0_getD] at hr
    have hedge : getGotoBuild nodes 0 (Char.ofNat b) = some t := by
      rw [getGotoBuild, if_pos (by
        rw [char_ofNat_toNat b (List.mem_range.mp hb)]
        exact List.mem_range.mp hb), char_ofNat_toNat b (List.mem_range.mp hb)]
      exact hr
    have ht0 : t ≠ 0 := by
      have := (hA.edge_lt 0 (Char.ofNat b) t
        (edge_src_lt nodes 0 _ t hedge) hedge).1
      omega
    rw [hr]
    simp only [Option.getD_some]
    rw [if_pos ht0]

theorem depthS_zero {V : Type} (nodes : List (ACNode V)) (hA : ArenaInv nodes)
    (x : Nat) (hx : x < nodes.length) (hd : depthS nodes x = 0) : x = 0 := by
  rw [depthS, List.length_eq_zero] at hd
  exact (wordOf_nil_iff nodes hA x hx).mp hd

/-- The root's completed match step computes the root transition. -/
theorem rootMatch {V : Type} (nodes : List (ACNode V)) (hA : ArenaInv nodes)
    (h0 : 0 < nodes.length) (c : Char) :
    (match getGotoSearch (bGoto1 nodes) (bExt nodes) 0 c with
      | some t => t
      | none => 0) = deltaS nodes 0 c := by
  rw [getGotoSearch]
  by_cases hc : c.toNat < 128
  · rw [if_pos hc, bGoto1_getD_zero nodes h0, bRootRow1, if_pos hc, bRootRow,
      bGoto0_getD]
    rcases hr : (nodes.getD 0 ACNode.empty).ascii c.toNat with _ | t
    · simp only [Option.getD_none]
      refine (deltaS_root nodes c ?_).symm
      rw [getGotoBuild, if_pos hc, hr]
    · simp only [Option.getD_some]
      refine (deltaS_edge nodes hA 0 c t ?_).symm
      rw [getGotoBuild, if_pos hc, hr]
  · rw [if_neg hc, bExt_getD]
    rcases hr : lookupA (nodes.getD 0 ACNode.empty).extended c with _ | t
    · refine (deltaS_root nodes c ?_).symm
      rw [getGotoBuild, if_neg hc, hr]
    · refine (deltaS_edge nodes hA 0 c t ?_).symm
      rw [getGotoBuild, if_neg hc, hr]

theorem followFailAux_correct {V : Type} (nodes : List (ACNode V))
    (hA : ArenaInv nodes) (fail : List Nat) (c : Char) (D : Nat)
    (hfc : ∀ x, x < nodes.length → x ≠ 0 → depthS nodes x < D →
      fail.getD x 0 = failS nodes x) :
    ∀ (d x fuel : Nat), x < nodes.length → depthS nodes x < D →
      depthS nodes x ≤ d → depthS nodes x < fuel →
      (match getGotoSearch (bGoto1 nodes) (bExt nodes)
          (followFailAux (bGoto1 nodes) (bExt nodes) fail c fuel x) c with
        | some t => t
        | none => 0) = deltaS nodes x c := by
  intro d
  induction d with
  | zero =>
      intro x fuel hx hxD hxd hfuel
      have hx0 : x = 0 := depthS_zero nodes hA x hx (by omega)
      rcases fuel with _ | f
      · omega
      · subst hx0
        rw [followFailAux, if_neg (by
          rintro ⟨h1, _⟩
          exact h1 rfl)]
        exact rootMatch nodes hA hA.root_lt c
  | succ d ih =>
      intro x fuel hx hxD hxd hfuel
      rcases fuel with _ | f
      · omega
      · by_cases hx0 : x = 0
        · subst hx0
          rw [followFailAux, if_neg (by
            rintro ⟨h1, _⟩
            exact h1 rfl)]
          exact rootMatch nodes hA hA.root_lt c
        · rcases hg : getGotoBuild nodes x c with _ | e
          · rw [followFailAux, if_pos ⟨hx0, by rw [getGotoSearch_ne nodes x hx0 c]; exact hg⟩]
            rw [hfc x hx hx0 hxD]
            have hdlt := depthS_failS_lt nodes hA x hx hx0
            rw [ih (failS nodes x) f (failS_lt nodes hA x) (by omega) (by omega)
              (by omega)]
            exact (deltaS_fail nodes hA x c hx hx0 hg).symm
          · rw [followFailAux, if_neg (by
              rintro ⟨_, h2⟩
              rw [getGotoSearch_ne nodes x hx0 c, hg] at h2
              exact absurd h2 (by simp))]
            rw [getGotoSearch_ne nodes x hx0 c, hg]
            exact (deltaS_edge nodes hA x c e hg).symm

theorem followFail_correct {V : Type} (nodes : List (ACNode V))
    (hA : ArenaInv nodes) (fail : List Nat) (r : Nat) (c : Char)
    (hr : r < nodes.length) (hr0 : r ≠ 0)
    (hfr : fail.getD r 0 = failS nodes r)
    (hfc : ∀ x, x < nodes.length → x ≠ 0 → depthS nodes x < depthS nodes r →
      fail.getD x 0 = failS nodes x) :
    followFail (bGoto1 nodes) (bExt nodes) fail r c
      = deltaS nodes (failS nodes r) c := by
  rw [followFail, hfr]
  have hflt := failS_lt nodes hA r
  have hdlt := depthS_failS_lt nodes hA r hr hr0
  refine followFailAux_correct nodes hA fail c (depthS nodes r) hfc
    (depthS nodes (failS nodes r)) (failS nodes r) ((bGoto1 nodes).length + 1)
    hflt hdlt (le_refl _) ?_
  rw [bGoto1_length]
  have := depthS_le nodes hA (failS nodes r) hflt
  omega

theorem depthS_pos {V : Type} (nodes : List (ACNode V)) (hA : ArenaInv nodes)
    (x : Nat) (hx : x < nodes.length) (hx0 : x ≠ 0) : 1 ≤ depthS nodes x := by
  by_contra hlt
  exact hx0 (depthS_zero nodes hA x hx (by omega))

theorem depth_one_root_kid {V : Type} (nodes : List (ACNode V))
    (hA : ArenaInv nodes) (x : Nat) (hx : x < nodes.length)
    (hd : depthS nodes x = 1) : x ∈ kidsT nodes 0 := by
  obtain ⟨c, hw⟩ : ∃ c, wordOf nodes x = [c] := by
    rcases hq : wordOf nodes x with _ | ⟨c, rest⟩
    · rw [depthS, hq] at hd
      exact absurd hd (by simp)
    · rcases rest with _ | ⟨c2, r2⟩
      · exact ⟨c, rfl⟩
      · rw [depthS, hq] at hd
        simp only [List.length_cons] at hd
        omega
  have hwalk := wordOf_walk nodes hA x hx
  rw [hw] at hwalk
  rcases hg : getGotoBuild nodes 0 c with _ | t
  · rw [acWalk, hg] at hwalk
    exact absurd hwalk (by simp)
  · rw [acWalk, hg] at hwalk
    have : t = x := Option.some_inj.mp hwalk
    exact (mem_kidsT nodes hA 0 hA.root_lt x).mpr ⟨c, this ▸ hg⟩

theorem parent_exists {V : Type} (nodes : List (ACNode V)) (hA : ArenaInv nodes)
    (x : Nat) (hx : x < nodes.length) (hx0 : x ≠ 0) :
    ∃ m c, getGotoBuild nodes m c = some x ∧ m < nodes.length ∧
      depthS nodes m + 1 = depthS nodes x := by
  have hwalk := wordOf_walk nodes hA x hx
  have hwne : wordOf nodes x ≠ [] :=
    fun h => hx0 ((wordOf_nil_iff nodes hA x hx).mp h)
  obtain ⟨w2, c, m, hdec, hw2, hedge⟩ := acWalk_to_edge nodes _ 0 x hwne hwalk
  have hmlt : m < nodes.length := acWalk_tgt_lt nodes hA w2 0 m hA.root_lt hw2
  refine ⟨m, c, hedge, hmlt, ?_⟩
  have hwm : wordOf nodes m = w2 :=
    acWalk_inj nodes hA m _ _ (wordOf_walk nodes hA m hmlt) hw2
  rw [depthS, depthS, hwm, hdec, List.length_append]
  rfl

/-- BFS traversal invariant shared by phases 2 and 3: `done` is the list of
dequeued states, `q` the current queue. -/
structure BfsInv {V : Type} (nodes : List (ACNode V)) (done q : List Nat) :
    Prop where
  nodup : (done ++ q).Nodup
  inRange : ∀ x ∈ done ++ q, x < nodes.length ∧ x ≠ 0
  sorted : (done ++ q).Pairwise (fun a b => depthS nodes a ≤ depthS nodes b)
  twoLevel : ∀ x ∈ q, ∀ y ∈ q, depthS nodes x ≤ depthS nodes y + 1
  kidsDone : ∀ p ∈ done, ∀ x ∈ kidsT nodes p, x ∈ done ++ q
  rootKids : ∀ x ∈ kidsT nodes 0, x ∈ done ++ q
  parentDone : ∀ x ∈ done ++ q, depthS nodes x = 1 ∨
    (∃ p c, p ∈ done ∧ getGotoBuild nodes p c = some x)
  frontier : ∀ x, x < nodes.length → x ≠ 0 → ∀ y ∈ q,
    depthS nodes x < depthS nodes y → x ∈ done ++ q

/-- When `cur` heads the queue, every strictly shallower state is done. -/
theorem bfs_shallower_done {V : Type} {nodes : List (ACNode V)}
    {done rest : List Nat} {cur : Nat} (hA : ArenaInv nodes)
    (hinv : BfsInv nodes done (cur :: rest)) :
    ∀ x, x < nodes.length → x ≠ 0 → depthS nodes x < depthS nodes cur →
      x ∈ done := by
  intro x hx hx0 hd
  have hmem := hinv.frontier x hx hx0 cur (List.mem_cons_self cur rest) hd
  rcases List.mem_append.mp hmem with hm | hm
  · exact hm
  · have hq := List.pairwise_append.mp hinv.sorted
    rcases List.mem_cons.mp hm with he | hm2
    · rw [he] at hd
      omega
    · have := (List.pairwise_cons.mp hq.2.1).1 x hm2
      omega

/-- When `cur` heads the queue, every state at most as deep as `cur` is
discovered. -/
theorem bfs_discovered {V : Type} {nodes : List (ACNode V)}
    {done rest : List Nat} {cur : Nat} (hA : ArenaInv nodes)
    (hinv : BfsInv nodes done (cur :: rest)) :
    ∀ x, x < nodes.length → x ≠ 0 → depthS nodes x ≤ depthS nodes cur →
      x ∈ done ++ (cur :: rest) := by
  intro x hx hx0 hd
  rcases Nat.lt_or_ge (depthS nodes x) (depthS nodes cur) with hlt | hge
  · exact List.mem_append.mpr (Or.inl (bfs_shallower_done hA hinv x hx hx0 hlt))
  · have heq : depthS nodes x = depthS nodes cur := by omega
    by_cases hd1 : depthS nodes x = 1
    · exact hinv.rootKids x (depth_one_root_kid nodes hA x hx hd1)
    · obtain ⟨m, c, hedge, hmlt, hmd⟩ := parent_exists nodes hA x hx hx0
      have hdx := depthS_pos nodes hA x hx hx0
      have hm0 : m ≠ 0 := by
        intro h0
        subst h0
        have : depthS nodes 0 = 0 := by
          rw [depthS]
          have : wordOf nodes (0 : Nat) = [] := by simp only [wordOf]
          rw [this]
          rfl
        omega
      have hmdone : m ∈ done :=
        bfs_shallower_done hA hinv m hmlt hm0 (by omega)
      exact hinv.kidsDone m hmdone x
        ((mem_kidsT nodes hA m hmlt x).mpr ⟨c, hedge⟩)

/-- The fresh states enqueued while processing `cur` are undiscovered. -/
theorem bfs_kids_fresh {V : Type} {nodes : List (ACNode V)}
    {done rest : List Nat} {cur : Nat} (hA : ArenaInv nodes)
    (hinv : BfsInv nodes done (cur :: rest)) :
    ∀ x ∈ kidsT nodes cur, x ∉ done ++ (cur :: rest) := by
  intro x hkx hmem
  obtain ⟨hcl, hc0⟩ := hinv.inRange cur
    (List.mem_append.mpr (Or.inr (List.mem_cons_self cur rest)))
  obtain ⟨c, hedge⟩ := (mem_kidsT nodes hA cur hcl x).mp hkx
  rcases hinv.parentDone x hmem with hd1 | ⟨p, c2, hp, hedge2⟩
  · have : depthS nodes x = depthS nodes cur + 1 := by
      rw [depthS_edge nodes hA cur c x hedge]
    have hcd := depthS_pos nodes hA cur hcl hc0
    omega
  · obtain ⟨hpc, _⟩ := hA.edge_uniq p c2 cur c x
      (edge_src_lt nodes p c2 x hedge2) hcl hedge2 hedge
    rw [hpc] at hp
    have : cur ∉ done := by
      intro hc
      have := List.nodup_append.mp hinv.nodup
      exact this.2.2 hc (List.mem_cons_self cur rest)
    exact this hp

theorem mem_shuffle {α : Type} {done rest kids : List α} {cur x : α}
    (h : x ∈ done ++ (cur :: rest)) :
    x ∈ (done ++ [cur]) ++ (rest ++ kids) := by
  simp only [List.mem_append, List.mem_cons, List.mem_singleton] at h ⊢
  tauto

theorem depthS_root_zero {V : Type} (nodes : List (ACNode V)) :
    depthS nodes 0 = 0 := by
  rw [depthS]
  have : wordOf nodes (0 : Nat) = [] := by simp only [wordOf]
  rw [this]
  rfl

/-- One BFS dequeue preserves the traversal invariant. -/
theorem bfs_step {V : Type} {nodes : List (ACNode V)} {done rest : List Nat}
    {cur : Nat} (hA : ArenaInv nodes)
    (hinv : BfsInv nodes done (cur :: rest)) :
    BfsInv nodes (done ++ [cur]) (rest ++ kidsT nodes cur) := by
  obtain ⟨hcl, hc0⟩ := hinv.inRange cur
    (List.mem_append.mpr (Or.inr (List.mem_cons_self cur rest)))
  have hshuffled : done ++ (cur :: rest) = (done ++ [cur]) ++ rest := by
    rw [List.append_assoc]
    rfl
  have hkdep : ∀ x ∈ kidsT nodes cur, depthS nodes x = depthS nodes cur + 1 := by
    intro x hx
    obtain ⟨c, hedge⟩ := (mem_kidsT nodes hA cur hcl x).mp hx
    exact depthS_edge nodes hA cur c x hedge
  have hkrange : ∀ x ∈ kidsT nodes cur, x < nodes.length ∧ x ≠ 0 := by
    intro x hx
    obtain ⟨c, hedge⟩ := (mem_kidsT nodes hA cur hcl x).mp hx
    obtain ⟨h1, h2⟩ := hA.edge_lt cur c x hcl hedge
    exact ⟨h2, by omega⟩
  have hfresh := bfs_kids_fresh hA hinv
  have hcross := (List.pairwise_append.mp hinv.sorted).2.2
  have hqpair := (List.pairwise_append.mp hinv.sorted).2.1
  have hcurrest := (List.pairwise_cons.mp hqpair).1
  refine ⟨?_, ?_, ?_, ?_, ?_, ?_, ?_, ?_⟩
  · rw [← List.append_assoc, ← hshuffled, List.nodup_append]
    refine ⟨hinv.nodup, kidsT_nodup nodes hA cur hcl, ?_⟩
    intro a ha hak
    exact hfresh a hak ha
  · intro x hx
    rcases List.mem_append.mp hx with hx1 | hx2
    · refine hinv.inRange x ?_
      rcases List.mem_append.mp hx1 with h | h
      · exact List.mem_append.mpr (Or.inl h)
      · refine List.mem_append.mpr (Or.inr ?_)
        rw [List.mem_singleton.mp h]
        exact List.mem_cons_self cur rest
    · rcases List.mem_append.mp hx2 with h | h
      · exact hinv.inRange x
          (List.mem_append.mpr (Or.inr (List.mem_cons_of_mem cur h)))
      · exact hkrange x h
  · rw [← List.append_assoc, ← hshuffled, List.pairwise_append]
    refine ⟨hinv.sorted, ?_, ?_⟩
    · refine List.pairwise_of_forall_mem_list ?_
      intro a ha b hb
      rw [hkdep a ha, hkdep b hb]
    · intro a ha b hb
      rw [hkdep b hb]
      rcases List.mem_append.mp ha with h | h
      · have := hcross a h cur (List.mem_cons_self cur rest)
        omega
      · rcases List.mem_cons.mp h with he | hm
        · rw [he]
          omega
        · have := hinv.twoLevel a (List.mem_cons_of_mem _ hm) cur
            (List.mem_cons_self cur rest)
          omega
  · intro x hx y hy
    rcases List.mem_append.mp hx with hx | hx
    · rcases List.mem_append.mp hy with hy | hy
      · exact hinv.twoLevel x (List.mem_cons_of_mem _ hx) y
          (List.mem_cons_of_mem _ hy)
      · have h1 := hinv.twoLevel x (List.mem_cons_of_mem _ hx) cur
          (List.mem_cons_self cur rest)
        rw [hkdep y hy]
        omega
    · rw [hkdep x hx]
      rcases List.mem_append.mp hy with hy | hy
      · have := hcurrest y hy
        omega
      · rw [hkdep y hy]
        omega
  · intro p hp x hx
    rcases List.mem_append.mp hp with hp | hp
    · exact mem_shuffle (hinv.kidsDone p hp x hx)
    · rw [List.mem_singleton.mp hp] at hx
      exact List.mem_append.mpr (Or.inr (List.mem_append.mpr (Or.inr hx)))
  · intro x hx
    exact mem_shuffle (hinv.rootKids x hx)
  · intro x hx
    have hsplit : x ∈ done ++ (cur :: rest) ∨ x ∈ kidsT nodes cur := by
      simp only [List.mem_append, List.mem_cons, List.mem_singleton] at hx ⊢
      tauto
    rcases hsplit with hx | hx
    · rcases hinv.parentDone x hx with h | ⟨p, c, hp, he⟩
      · exact Or.inl h
      · exact Or.inr ⟨p, c, List.mem_append.mpr (Or.inl hp), he⟩
    · obtain ⟨c, hedge⟩ := (mem_kidsT nodes hA cur hcl x).mp hx
      exact Or.inr ⟨cur, c,
        List.mem_append.mpr (Or.inr (List.mem_singleton.mpr rfl)), hedge⟩
  · intro x hxl hx0 y hy hd
    rcases List.mem_append.mp hy with hy | hy
    · exact mem_shuffle (hinv.frontier x hxl hx0 y (List.mem_cons_of_mem _ hy) hd)
    · rw [hkdep y hy] at hd
      exact mem_shuffle (bfs_discovered hA hinv x hxl hx0 (by omega))

theorem bfs_count {V : Type} {nodes : List (ACNode V)} {done q : List Nat}
    (hinv : BfsInv nodes done q) (h0 : 0 < nodes.length) :
    (done ++ q).length + 1 ≤ nodes.length := by
  have hcardeq := List.toFinset_card_of_nodup hinv.nodup
  have hsub2 : (done ++ q).toFinset ⊆ (Finset.range nodes.length).erase 0 := by
    intro x hx
    obtain ⟨h1, h2⟩ := hinv.inRange x (List.mem_toFinset.mp hx)
    exact Finset.mem_erase.mpr ⟨h2, Finset.mem_range.mpr h1⟩
  have hcard := Finset.card_le_card hsub2
  have herase : ((Finset.range nodes.length).erase 0).card = nodes.length - 1 := by
    rw [Finset.card_erase_of_mem (Finset.mem_range.mpr h0), Finset.card_range]
  omega

theorem bfs_complete {V : Type} {nodes : List (ACNode V)} (hA : ArenaInv nodes)
    {done : List Nat} (hinv : BfsInv nodes done []) :
    ∀ x, x < nodes.length → x ≠ 0 → x ∈ done := by
  have main : ∀ d x, depthS nodes x = d → x < nodes.length → x ≠ 0 →
      x ∈ done := by
    intro d
    induction d using Nat.strong_induction_on with
    | _ d ih =>
        intro x hdx hx hx0
        by_cases hd1 : depthS nodes x = 1
        · have := hinv.rootKids x (depth_one_root_kid nodes hA x hx hd1)
          rw [List.append_nil] at this
          exact this
        · have hdpos := depthS_pos nodes hA x hx hx0
          obtain ⟨m, c, hedge, hml, hmd⟩ := parent_exists nodes hA x hx hx0
          have hm0 : m ≠ 0 := by
            intro hz
            rw [hz, depthS_root_zero] at hmd
            omega
          have hmdone : m ∈ done := ih (depthS nodes m) (by omega) m rfl hml hm0
          have := hinv.kidsDone m hmdone x
            ((mem_kidsT nodes hA m hml x).mpr ⟨c, hedge⟩)
          rw [List.append_nil] at this
          exact this
  exact fun x hx hx0 => main (depthS nodes x) x rfl hx hx0

theorem bfs_init {V : Type} (nodes : List (ACNode V)) (hA : ArenaInv nodes) :
    BfsInv nodes [] (kidsT nodes 0) := by
  have hkdep : ∀ x ∈ kidsT nodes 0, depthS nodes x = 1 := by
    intro x hx
    obtain ⟨c, hedge⟩ := (mem_kidsT nodes hA 0 hA.root_lt x).mp hx
    rw [depthS_edge nodes hA 0 c x hedge, depthS_root_zero]
  have hkrange : ∀ x ∈ kidsT nodes 0, x < nodes.length ∧ x ≠ 0 := by
    intro x hx
    obtain ⟨c, hedge⟩ := (mem_kidsT nodes hA 0 hA.root_lt x).mp hx
    obtain ⟨h1, h2⟩ := hA.edge_lt 0 c x hA.root_lt hedge
    exact ⟨h2, by omega⟩
  refine ⟨?_, ?_, ?_, ?_, ?_, ?_, ?_, ?_⟩
  · rw [List.nil_append]
    exact kidsT_nodup nodes hA 0 hA.root_lt
  · intro x hx
    rw [List.nil_append] at hx
    exact hkrange x hx
  · rw [List.nil_append]
    refine List.pairwise_of_forall_mem_list ?_
    intro a ha b hb
    rw [hkdep a ha, hkdep b hb]
  · intro x hx y hy
    rw [hkdep x hx, hkdep y hy]
    omega
  · intro p hp
    exact absurd hp (by simp)
  · intro x hx
    rw [List.nil_append]
    exact hx
  · intro x hx
    rw [List.nil_append] at hx
    exact Or.inl (hkdep x hx)
  · intro x hxl hx0 y hy hd
    rw [hkdep y hy] at hd
    have := depthS_pos nodes hA x hxl hx0
    omega

/-- Membership specification of a merged output list: the values attached to
all suffix words of the state's word. -/
def MergedIff {V : Type} (nodes : List (ACNode V)) (v : V) (s : Nat) : Prop :=
  ∃ w2 u, w2 <:+ wordOf nodes s ∧ acWalk nodes 0 w2 = some u ∧
    v ∈ (bOut0 nodes).getD u []

theorem mergedIff_zero {V : Type} (nodes : List (ACNode V)) (hA : ArenaInv nodes)
    (v : V) : ¬ MergedIff nodes v 0 := by
  rintro ⟨w2, u, hsuf, hw, hv⟩
  have hw0 : wordOf nodes (0 : Nat) = [] := by simp only [wordOf]
  rw [hw0, List.suffix_nil] at hsuf
  rw [hsuf] at hw
  have hu : u = 0 := (Option.some_inj.mp hw).symm
  rw [hu, bOut0_getD, hA.root_out] at hv
  exact absurd hv (by simp)

theorem mergedIff_unfold {V : Type} (nodes : List (ACNode V))
    (hA : ArenaInv nodes) (u : Nat) (hu : u < nodes.length) (hu0 : u ≠ 0)
    (v : V) :
    MergedIff nodes v u ↔
      v ∈ (bOut0 nodes).getD u [] ∨ MergedIff nodes v (failS nodes u) := by
  have hwne : wordOf nodes u ≠ [] :=
    fun h => hu0 ((wordOf_nil_iff nodes hA u hu).mp h)
  have hfw : wordOf nodes (failS nodes u) = lswWord nodes (wordOf nodes u).tail :=
    wordOf_reachS nodes hA _
  constructor
  · rintro ⟨w2, st, hsuf, hw, hv⟩
    by_cases hfull : w2 = wordOf nodes u
    · left
      have : st = u := by
        have h2 := wordOf_walk nodes hA u hu
        rw [← hfull] at h2
        rw [hw] at h2
        exact Option.some_inj.mp h2
      rw [← this]
      exact hv
    · right
      have htail : w2 <:+ (wordOf nodes u).tail := by
        rcases hq : wordOf nodes u with _ | ⟨ch, wt⟩
        · exact absurd hq hwne
        · rw [hq] at hsuf hfull
          rcases List.suffix_cons_iff.mp hsuf with he | ht
          · exact absurd he hfull
          · exact ht
      refine ⟨w2, st, ?_, hw, hv⟩
      rw [hfw]
      exact suffix_word_le_lsw nodes _ w2 htail (by rw [hw]; rfl)
  · rintro (hv | ⟨w2, st, hsuf, hw, hv⟩)
    · exact ⟨wordOf nodes u, u, List.suffix_refl _, wordOf_walk nodes hA u hu, hv⟩
    · refine ⟨w2, st, ?_, hw, hv⟩
      rw [hfw] at hsuf
      exact hsuf.trans ((lswWord_suffix nodes _).trans (List.tail_suffix _))

/-- Phase-2 table invariant: states in `S` carry their final failure link and
merged output, states outside are untouched. -/
def P2At {V : Type} (nodes : List (ACNode V)) (fail : List Nat)
    (out : List (List V)) (S : Nat → Prop) : Prop :=
  fail.length = nodes.length ∧ out.length = nodes.length ∧
  fail.getD 0 0 = 0 ∧ out.getD 0 [] = [] ∧
  (∀ s, s < nodes.length → s ≠ 0 → S s →
    fail.getD s 0 = failS nodes s ∧
    ∀ v, v ∈ out.getD s [] ↔ MergedIff nodes v s) ∧
  (∀ s, s ≠ 0 → ¬ S s →
    fail.getD s 0 = 0 ∧ out.getD s [] = (bOut0 nodes).getD s [])

theorem P2At_congr {V : Type} {nodes : List (ACNode V)} {fail : List Nat}
    {out : List (List V)} {S1 S2 : Nat → Prop} (h : ∀ s, S1 s ↔ S2 s)
    (hP : P2At nodes fail out S1) : P2At nodes fail out S2 := by
  obtain ⟨h1, h2, h3, h4, h5, h6⟩ := hP
  exact ⟨h1, h2, h3, h4,
    fun s hs hs0 hS => h5 s hs hs0 ((h s).mpr hS),
    fun s hs0 hS => h6 s hs0 (fun hx => hS ((h s).mp hx))⟩

theorem p2_kid_update {V : Type} (nodes : List (ACNode V)) (hA : ArenaInv nodes)
    (fail : List Nat) (out : List (List V)) (S : Nat → Prop) (cur u : Nat)
    (c : Char) (hP : P2At nodes fail out S) (hcl : cur < nodes.length)
    (hc0 : cur ≠ 0) (hScur : S cur)
    (hSle : ∀ x, x < nodes.length → x ≠ 0 →
      depthS nodes x ≤ depthS nodes cur → S x)
    (hedge : getGotoBuild nodes cur c = some u) (hufresh : ¬ S u) :
    P2At nodes
      (fail.set u (followFail (bGoto1 nodes) (bExt nodes) fail cur c))
      (mergeOutput out u (followFail (bGoto1 nodes) (bExt nodes) fail cur c))
      (fun s => S s ∨ s = u) := by
  obtain ⟨hL1, hL2, hF0, hO0, hDisc, hUn⟩ := hP
  obtain ⟨hcu, hul⟩ := hA.edge_lt cur c u hcl hedge
  have hu0 : u ≠ 0 := by omega
  have hdu : depthS nodes u = depthS nodes cur + 1 :=
    depthS_edge nodes hA cur c u hedge
  have hff : followFail (bGoto1 nodes) (bExt nodes) fail cur c
      = failS nodes u := by
    rw [followFail_correct nodes hA fail cur c hcl hc0
      (hDisc cur hcl hc0 hScur).1 (fun x hx hx0 hdx =>
        (hDisc x hx hx0 (hSle x hx hx0 (by omega))).1)]
    exact (failS_child nodes hA cur c u hc0 hedge).symm
  have hflt : failS nodes u < nodes.length := failS_lt nodes hA u
  have hfd : depthS nodes (failS nodes u) < depthS nodes u :=
    depthS_failS_lt nodes hA u hul hu0
  have hfiff : ∀ v, v ∈ out.getD (failS nodes u) []
      ↔ MergedIff nodes v (failS nodes u) := by
    by_cases hf0 : failS nodes u = 0
    · intro v
      rw [hf0, hO0]
      constructor
      · intro hm
        exact absurd hm (by simp)
      · intro hm
        exact absurd hm (mergedIff_zero nodes hA v)
    · exact (hDisc (failS nodes u) hflt hf0
        (hSle (failS nodes u) hflt hf0 (by omega))).2
  rw [hff]
  refine ⟨by rw [List.length_set]; exact hL1, ?_, ?_, ?_, ?_, ?_⟩
  · rw [mergeOutput]
    by_cases he : (out.getD (failS nodes u) []).isEmpty
    · rw [if_pos he]
      exact hL2
    · rw [if_neg he, List.length_set]
      exact hL2
  · rw [getD_set_ne_g _ _ _ _ _ hu0]
    exact hF0
  · rw [mergeOutput]
    by_cases he : (out.getD (failS nodes u) []).isEmpty
    · rw [if_pos he]
      exact hO0
    · rw [if_neg he, getD_set_ne_g _ _ _ _ _ hu0]
      exact hO0
  · intro s hs hs0 hS
    rcases hS with hS | hSu
    · by_cases hsu : s = u
      · exact absurd (hsu ▸ hS) hufresh
      · constructor
        · rw [getD_set_ne_g _ _ _ _ _ (fun h => hsu h.symm)]
          exact (hDisc s hs hs0 hS).1
        · intro v
          rw [mergeOutput]
          by_cases he : (out.getD (failS nodes u) []).isEmpty
          · rw [if_pos he]
            exact (hDisc s hs hs0 hS).2 v
          · rw [if_neg he, getD_set_ne_g _ _ _ _ _ (fun h => hsu h.symm)]
            exact (hDisc s hs hs0 hS).2 v
    · subst hSu
      constructor
      · rw [getD_set_self_g _ _ _ _ (by rw [hL1]; exact hul)]
      · intro v
        have hOu : out.getD s [] = (bOut0 nodes).getD s [] :=
          (hUn s hs0 hufresh).2
        rw [mergeOutput]
        by_cases he : (out.getD (failS nodes s) []).isEmpty
        · rw [if_pos he]
          rw [hOu, mergedIff_unfold nodes hA s hs hs0 v]
          have hno : ¬ MergedIff nodes v (failS nodes s) := by
            intro hm
            have hmem := (hfiff v).mpr hm
            rw [List.isEmpty_iff] at he
            rw [he] at hmem
            exact absurd hmem (by simp)
          constructor
          · intro hv
            exact Or.inl hv
          · rintro (hv | hv)
            · exact hv
            · exact absurd hv hno
        · rw [if_neg he, getD_set_self_g _ _ _ _ (by rw [hL2]; exact hs)]
          rw [hOu, List.mem_append, mergedIff_unfold nodes hA s hs hs0 v]
          constructor
          · rintro (hv | hv)
            · exact Or.inl hv
            · exact Or.inr ((hfiff v).mp hv)
          · rintro (hv | hv)
            · exact Or.inl hv
            · exact Or.inr ((hfiff v).mpr hv)
  · intro s hs0 hS
    have hS1 : ¬ S s := fun h => hS (Or.inl h)
    have hsu : s ≠ u := fun h => hS (Or.inr h)
    constructor
    · rw [getD_set_ne_g _ _ _ _ _ (fun h => hsu h.symm)]
      exact (hUn s hs0 hS1).1
    · rw [mergeOutput]
      by_cases he : (out.getD (failS nodes u) []).isEmpty
      · rw [if_pos he]
        exact (hUn s hs0 hS1).2
      · rw [if_neg he, getD_set_ne_g _ _ _ _ _ (fun h => hsu h.symm)]
        exact (hUn s hs0 hS1).2

theorem p2_fold {V : Type} (nodes : List (ACNode V)) (hA : ArenaInv nodes)
    (cur : Nat) (hcl : cur < nodes.length) (hc0 : cur ≠ 0) :
    ∀ (ks : List (Char × Nat)) (fail : List Nat) (out : List (List V))
      (acc : List Nat) (S : Nat → Prop),
      (∀ p ∈ ks, getGotoBuild nodes cur p.1 = some p.2) →
      (∀ p ∈ ks, ¬ S p.2) →
      ((ks.map Prod.snd).Nodup) →
      P2At nodes fail out S → S cur →
      (∀ x, x < nodes.length → x ≠ 0 →
        depthS nodes x ≤ depthS nodes cur → S x) →
      P2At nodes
        (ks.foldl (fun acc2 kid =>
          ((acc2.1.1.set kid.2
              (followFail (bGoto1 nodes) (bExt nodes) acc2.1.1 cur kid.1),
            mergeOutput acc2.1.2 kid.2
              (followFail (bGoto1 nodes) (bExt nodes) acc2.1.1 cur kid.1)),
           acc2.2 ++ [kid.2])) ((fail, out), acc)).1.1
        (ks.foldl (fun acc2 kid =>
          ((acc2.1.1.set kid.2
              (followFail (bGoto1 nodes) (bExt nodes) acc2.1.1 cur kid.1),
            mergeOutput acc2.1.2 kid.2
              (followFail (bGoto1 nodes) (bExt nodes) acc2.1.1 cur kid.1)),
           acc2.2 ++ [kid.2])) ((fail, out), acc)).1.2
        (fun s => S s ∨ s ∈ ks.map Prod.snd)
      ∧ (ks.foldl (fun acc2 kid =>
          ((acc2.1.1.set kid.2
              (followFail (bGoto1 nodes) (bExt nodes) acc2.1.1 cur kid.1),
            mergeOutput acc2.1.2 kid.2
              (followFail (bGoto1 nodes) (bExt nodes) acc2.1.1 cur kid.1)),
           acc2.2 ++ [kid.2])) ((fail, out), acc)).2 = acc ++ ks.map Prod.snd := by
  intro ks
  induction ks with
  | nil =>
      intro fail out acc S hedges hfreshs hnd hP hScur hSle
      rw [List.foldl_nil]
      refine ⟨P2At_congr (fun s => ?_) hP, by simp⟩
      constructor
      · intro h
        exact Or.inl h
      · rintro (h | h)
        · exact h
        · exact absurd h (by simp)
  | cons kid ks2 ih =>
      intro fail out acc S hedges hfreshs hnd hP hScur hSle
      rw [List.foldl_cons]
      have hedge : getGotoBuild nodes cur kid.1 = some kid.2 :=
        hedges kid (List.mem_cons_self kid ks2)
      have hufresh : ¬ S kid.2 := hfreshs kid (List.mem_cons_self kid ks2)
      have hP2 := p2_kid_update nodes hA fail out S cur kid.2 kid.1 hP hcl hc0
        hScur hSle hedge hufresh
      rw [List.map_cons, List.nodup_cons] at hnd
      have hres := ih _ _ (acc ++ [kid.2]) (fun s => S s ∨ s = kid.2)
        (fun p hp => hedges p (List.mem_cons_of_mem _ hp))
        (fun p hp => by
          rintro (h | h)
          · exact hfreshs p (List.mem_cons_of_mem _ hp) h
          · exact hnd.1 (h ▸ List.mem_map_of_mem Prod.snd hp))
        hnd.2 hP2 (Or.inl hScur)
        (fun x hx hx0 hd => Or.inl (hSle x hx hx0 hd))
      refine ⟨P2At_congr (fun s => ?_) hres.1, ?_⟩
      · simp only [List.map_cons, List.mem_cons]
        tauto
      · rw [hres.2, List.append_assoc]
        simp

theorem phase2Step_correct {V : Type} (nodes : List (ACNode V))
    (hA : ArenaInv nodes) (done rest : List Nat) (cur : Nat)
    (fail : List Nat) (out : List (List V))
    (hinv : BfsInv nodes done (cur :: rest))
    (hP : P2At nodes fail out (fun s => s ∈ done ++ (cur :: rest))) :
    P2At nodes (phase2Step (bGoto1 nodes) (bExt nodes) cur (fail, out)).1.1
      (phase2Step (bGoto1 nodes) (bExt nodes) cur (fail, out)).1.2
      (fun s => s ∈ (done ++ [cur]) ++ (rest ++ kidsT nodes cur)) ∧
    (phase2Step (bGoto1 nodes) (bExt nodes) cur (fail, out)).2
      = kidsT nodes cur := by
  obtain ⟨hcl, hc0⟩ := hinv.inRange cur
    (List.mem_append.mpr (Or.inr (List.mem_cons_self cur rest)))
  have hstep : phase2Step (bGoto1 nodes) (bExt nodes) cur (fail, out)
      = (acChildren ((bGoto1 nodes).getD cur (fun _ => none))
          ((bExt nodes).getD cur [])).foldl
          (fun acc2 kid =>
            ((acc2.1.1.set kid.2
                (followFail (bGoto1 nodes) (bExt nodes) acc2.1.1 cur kid.1),
              mergeOutput acc2.1.2 kid.2
                (followFail (bGoto1 nodes) (bExt nodes) acc2.1.1 cur kid.1)),
             acc2.2 ++ [kid.2])) ((fail, out), []) := rfl
  have hkids : acChildren ((bGoto1 nodes).getD cur (fun _ => none))
      ((bExt nodes).getD cur [])
      = acChildren ((nodes.getD cur ACNode.empty).ascii)
          ((nodes.getD cur ACNode.empty).extended) := by
    rw [bGoto1_getD_ne nodes cur hc0, bExt_getD]
  have hedges : ∀ p ∈ acChildren ((nodes.getD cur ACNode.empty).ascii)
      ((nodes.getD cur ACNode.empty).extended),
      getGotoBuild nodes cur p.1 = some p.2 := by
    intro p hp
    refine (mem_acChildren_edge nodes hA cur hcl p.1 p.2).mp ?_
    rcases p with ⟨c, t⟩
    exact hp
  have hfreshs : ∀ p ∈ acChildren ((nodes.getD cur ACNode.empty).ascii)
      ((nodes.getD cur ACNode.empty).extended),
      ¬ p.2 ∈ done ++ (cur :: rest) := by
    intro p hp
    exact bfs_kids_fresh hA hinv p.2 (List.mem_map_of_mem Prod.snd hp)
  have hnd : ((acChildren ((nodes.getD cur ACNode.empty).ascii)
      ((nodes.getD cur ACNode.empty).extended)).map Prod.snd).Nodup :=
    kidsT_nodup nodes hA cur hcl
  have hScur : cur ∈ done ++ (cur :: rest) :=
    List.mem_append.mpr (Or.inr (List.mem_cons_self cur rest))
  have hmain := p2_fold nodes hA cur hcl hc0
    (acChildren ((nodes.getD cur ACNode.empty).ascii)
      ((nodes.getD cur ACNode.empty).extended)) fail out []
    (fun s => s ∈ done ++ (cur :: rest)) hedges hfreshs hnd hP hScur
    (bfs_discovered hA hinv)
  rw [hstep, hkids]
  refine ⟨P2At_congr (fun s => ?_) hmain.1, ?_⟩
  · show (s ∈ done ++ (cur :: rest) ∨ s ∈ kidsT nodes cur) ↔ _
    simp only [List.mem_append, List.mem_cons, List.mem_singleton]
    tauto
  · rw [hmain.2, List.nil_append]
    rfl

theorem getD_replicate {α : Type} (n : Nat) (a : α) (i : Nat) :
    (List.replicate n a).getD i a = a := by
  rcases Nat.lt_or_ge i n with h | h
  · rw [List.getD_eq_getElem?_getD, List.getElem?_eq_getElem (by
      rw [List.length_replicate]; exact h)]
    rw [List.getElem_replicate]
    rfl
  · rw [getD_oob]
    rw [List.length_replicate]
    exact h

theorem phase2_run {V : Type} (nodes : List (ACNode V)) (hA : ArenaInv nodes) :
    ∀ (fuel : Nat) (done q : List Nat) (fail : List Nat) (out : List (List V)),
      BfsInv nodes done q →
      nodes.length ≤ fuel + done.length + 1 →
      P2At nodes fail out (fun s => s ∈ done ++ q) →
      P2At nodes (phase2Loop (bGoto1 nodes) (bExt nodes) fuel q fail out).1
        (phase2Loop (bGoto1 nodes) (bExt nodes) fuel q fail out).2
        (fun s => s < nodes.length ∧ s ≠ 0) := by
  have leaf : ∀ (done : List Nat) (fail : List Nat) (out : List (List V)),
      BfsInv nodes done [] →
      P2At nodes fail out (fun s => s ∈ done ++ ([] : List Nat)) →
      P2At nodes fail out (fun s => s < nodes.length ∧ s ≠ 0) := by
    intro done fail out hinv hP
    refine P2At_congr (fun s => ?_) hP
    rw [List.append_nil]
    constructor
    · intro hm
      exact hinv.inRange s (by rw [List.append_nil]; exact hm)
    · rintro ⟨h1, h2⟩
      exact bfs_complete hA hinv s h1 h2
  intro fuel
  induction fuel with
  | zero =>
      intro done q fail out hinv harith hP
      rcases q with _ | ⟨cur, rest⟩
      · exact leaf done fail out hinv hP
      · have := bfs_count hinv hA.root_lt
        rw [List.length_append, List.length_cons] at this
        omega
  | succ f ih =>
      intro done q fail out hinv harith hP
      rcases q with _ | ⟨cur, rest⟩
      · exact leaf done fail out hinv hP
      · have hsc := phase2Step_correct nodes hA done rest cur fail out hinv hP
        have hunf : phase2Loop (bGoto1 nodes) (bExt nodes) (f + 1)
            (cur :: rest) fail out
            = phase2Loop (bGoto1 nodes) (bExt nodes) f
                (rest ++ (phase2Step (bGoto1 nodes) (bExt nodes) cur
                  (fail, out)).2)
                (phase2Step (bGoto1 nodes) (bExt nodes) cur (fail, out)).1.1
                (phase2Step (bGoto1 nodes) (bExt nodes) cur (fail, out)).1.2 :=
          rfl
        rw [hunf, hsc.2]
        refine ih (done ++ [cur]) (rest ++ kidsT nodes cur) _ _
          (bfs_step hA hinv) ?_ hsc.1
        rw [List.length_append, List.length_singleton]
        omega

theorem bP2_correct {V : Type} (nodes : List (ACNode V)) (hA : ArenaInv nodes) :
    P2At nodes (bP2 nodes).1 (bP2 nodes).2
      (fun s => s < nodes.length ∧ s ≠ 0) := by
  have hfailS1 : ∀ s ∈ kidsT nodes 0, failS nodes s = 0 := by
    intro s hs
    obtain ⟨c, hedge⟩ := (mem_kidsT nodes hA 0 hA.root_lt s).mp hs
    exact failS_child_root nodes hA c s hedge
  have hinit : P2At nodes (List.replicate nodes.length 0) (bOut0 nodes)
      (fun s => s ∈ ([] : List Nat) ++ kidsT nodes 0) := by
    refine ⟨List.length_replicate _ _, bOut0_length nodes, getD_replicate _ _ _,
      by rw [bOut0_getD]; exact hA.root_out, ?_, ?_⟩
    · intro s hs hs0 hS
      rw [List.nil_append] at hS
      constructor
      · rw [getD_replicate, hfailS1 s hS]
      · intro v
        rw [mergedIff_unfold nodes hA s hs hs0 v, hfailS1 s hS]
        constructor
        · intro h
          exact Or.inl h
        · rintro (h | h)
          · exact h
          · exact absurd h (mergedIff_zero nodes hA v)
    · intro s hs0 hS
      exact ⟨getD_replicate _ _ _, rfl⟩
  have := phase2_run nodes hA (nodes.length + 1) [] (kidsT nodes 0)
    (List.replicate nodes.length 0) (bOut0 nodes) (bfs_init nodes hA)
    (by omega) hinit
  rw [bP2, bQueue1_eq]
  exact this

/-- Phase-3 table invariant: processed states carry completed rows and
transitively inherited extended maps; unprocessed states still carry their
trie rows. -/
def P3At {V : Type} (nodes : List (ACNode V)) (goto : List (Nat → Option Nat))
    (ext : List (List (Char × Nat))) (S : Nat → Prop) : Prop :=
  goto.length = nodes.length ∧ ext.length = nodes.length ∧
  goto.getD 0 (fun _ => none) = bRootRow1 nodes ∧
  ext.getD 0 [] = (nodes.getD 0 ACNode.empty).extended ∧
  (∀ s, s < nodes.length → s ≠ 0 → S s →
    (∀ b, b < 128 →
      (goto.getD s (fun _ => none)) b = some (deltaS nodes s (Char.ofNat b))) ∧
    (∀ c : Char, ¬ c.toNat < 128 →
      (lookupA (ext.getD s []) c).getD 0 = deltaS nodes s c)) ∧
  (∀ s, s ≠ 0 → ¬ S s →
    goto.getD s (fun _ => none) = (nodes.getD s ACNode.empty).ascii ∧
    ext.getD s [] = (nodes.getD s ACNode.empty).extended)

theorem P3At_congr {V : Type} {nodes : List (ACNode V)}
    {goto : List (Nat → Option Nat)} {ext : List (List (Char × Nat))}
    {S1 S2 : Nat → Prop} (h : ∀ s, S1 s ↔ S2 s)
    (hP : P3At nodes goto ext S1) : P3At nodes goto ext S2 := by
  obtain ⟨h1, h2, h3, h4, h5, h6⟩ := hP
  exact ⟨h1, h2, h3, h4,
    fun s hs hs0 hS => h5 s hs hs0 ((h s).mpr hS),
    fun s hs0 hS => h6 s hs0 (fun hx => hS ((h s).mp hx))⟩

theorem rootRow1_delta {V : Type} (nodes : List (ACNode V)) (hA : ArenaInv nodes)
    (b : Nat) (hb : b < 128) :
    bRootRow1 nodes b = some (deltaS nodes 0 (Char.ofNat b)) := by
  rw [bRootRow1, if_pos hb, bRootRow, bGoto0_getD]
  have hct : (Char.ofNat b).toNat = b := char_ofNat_toNat b hb
  rcases hr : (nodes.getD 0 ACNode.empty).ascii b with _ | t
  · rw [deltaS_root nodes (Char.ofNat b) (by
      rw [getGotoBuild, if_pos (by omega), hct, hr])]
    rfl
  · rw [deltaS_edge nodes hA 0 (Char.ofNat b) t (by
      rw [getGotoBuild, if_pos (by omega), hct]
      exact hr)]
    rfl

theorem rootExt_delta {V : Type} (nodes : List (ACNode V)) (hA : ArenaInv nodes)
    (c : Char) (hc : ¬ c.toNat < 128) :
    (lookupA (nodes.getD 0 ACNode.empty).extended c).getD 0
      = deltaS nodes 0 c := by
  rcases hr : lookupA (nodes.getD 0 ACNode.empty).extended c with _ | t
  · rw [deltaS_root nodes c (by rw [getGotoBuild, if_neg hc]; exact hr)]
    rfl
  · rw [deltaS_edge nodes hA 0 c t (by rw [getGotoBuild, if_neg hc]; exact hr)]
    rfl

theorem lookupA_filter {A : Type} (l : List (Char × A)) (p : Char × A → Bool)
    (c : Char) (hp : ∀ v, p (c, v) = true) :
    lookupA (l.filter p) c = lookupA l c := by
  induction l with
  | nil => rfl
  | cons kv rest ih =>
      rcases kv with ⟨k, v⟩
      by_cases hk : k = c
      · have hpkv : p (k, v) = true := by
          rw [hk]
          exact hp v
        rw [List.filter_cons_of_pos hpkv, lookupA, if_pos hk, lookupA, if_pos hk]
      · rcases hq : p (k, v) with _ | _
        · rw [List.filter_cons_of_neg (by rw [hq]; simp), lookupA, if_neg hk]
          exact ih
        · rw [List.filter_cons_of_pos hq, lookupA, if_neg hk, lookupA, if_neg hk]
          exact ih

theorem phase3Step_correct {V : Type} (nodes : List (ACNode V))
    (hA : ArenaInv nodes) (done rest : List Nat) (cur : Nat)
    (goto : List (Nat → Option Nat)) (ext : List (List (Char × Nat)))
    (fail : List Nat) (hinv : BfsInv nodes done (cur :: rest))
    (hfailF : ∀ s, s < nodes.length → s ≠ 0 → fail.getD s 0 = failS nodes s)
    (hP : P3At nodes goto ext (fun s => s ∈ done)) :
    P3At nodes (phase3Step goto ext fail cur).1.1
      (phase3Step goto ext fail cur).1.2
      (fun s => s ∈ done ++ [cur]) ∧
    (phase3Step goto ext fail cur).2 = kidsT nodes cur := by
  obtain ⟨hcl, hc0⟩ := hinv.inRange cur
    (List.mem_append.mpr (Or.inr (List.mem_cons_self cur rest)))
  obtain ⟨hL1, hL2, hR1, hR2, hDisc, hUn⟩ := hP
  have hcurdone : cur ∉ done := by
    intro hc
    exact (List.nodup_append.mp hinv.nodup).2.2 hc (List.mem_cons_self cur rest)
  obtain ⟨hrow, hext⟩ := hUn cur hc0 hcurdone
  have hf : fail.getD cur 0 = failS nodes cur := hfailF cur hcl hc0
  have hflt : failS nodes cur < nodes.length := failS_lt nodes hA cur
  have hfd : depthS nodes (failS nodes cur) < depthS nodes cur :=
    depthS_failS_lt nodes hA cur hcl hc0
  have hfrow : ∀ b, b < 128 →
      (goto.getD (failS nodes cur) (fun _ => none)) b
        = some (deltaS nodes (failS nodes cur) (Char.ofNat b)) := by
    intro b hb
    by_cases hf0 : failS nodes cur = 0
    · rw [hf0, hR1]
      exact rootRow1_delta nodes hA b hb
    · have hfdone : failS nodes cur ∈ done :=
        bfs_shallower_done hA hinv (failS nodes cur) hflt hf0 hfd
      exact (hDisc (failS nodes cur) hflt hf0 hfdone).1 b hb
  have hfext : ∀ c : Char, ¬ c.toNat < 128 →
      (lookupA (ext.getD (failS nodes cur) []) c).getD 0
        = deltaS nodes (failS nodes cur) c := by
    intro c hc
    by_cases hf0 : failS nodes cur = 0
    · rw [hf0, hR2]
      exact rootExt_delta nodes hA c hc
    · have hfdone : failS nodes cur ∈ done :=
        bfs_shallower_done hA hinv (failS nodes cur) hflt hf0 hfd
      exact (hDisc (failS nodes cur) hflt hf0 hfdone).2 c hc
  have hstep : phase3Step goto ext fail cur
      = ((goto.set cur (fun b =>
            match (goto.getD cur (fun _ => none)) b with
            | some t => some t
            | none => (goto.getD (fail.getD cur 0) (fun _ => none)) b),
          ext.set cur (ext.getD cur [] ++
            (ext.getD (fail.getD cur 0) []).filter fun kv =>
              lookupA (ext.getD cur []) kv.1 = none)),
         (List.range 128).filterMap (goto.getD cur (fun _ => none))
           ++ ((ext.getD cur []).map Prod.snd).filter (· ≠ 0)) := rfl
  rw [hstep, hf, hrow, hext]
  constructor
  · refine ⟨by rw [List.length_set]; exact hL1,
      by rw [List.length_set]; exact hL2, ?_, ?_, ?_, ?_⟩
    · rw [getD_set_ne_g _ _ _ _ _ hc0]
      exact hR1
    · rw [getD_set_ne_g _ _ _ _ _ hc0]
      exact hR2
    · intro s hs hs0 hS
      rcases List.mem_append.mp hS with hSd | hSc
      · have hsc : s ≠ cur := fun h => hcurdone (h ▸ hSd)
        constructor
        · rw [getD_set_ne_g _ _ _ _ _ (fun h => hsc h.symm)]
          exact (hDisc s hs hs0 hSd).1
        · intro c hc
          rw [getD_set_ne_g _ _ _ _ _ (fun h => hsc h.symm)]
          exact (hDisc s hs hs0 hSd).2 c hc
      · have hsc : s = cur := List.mem_singleton.mp hSc
        subst hsc
        constructor
        · intro b hb
          rw [getD_set_self_g _ _ _ _ (by rw [hL1]; exact hs)]
          have hct : (Char.ofNat b).toNat = b := char_ofNat_toNat b hb
          rcases hr : (nodes.getD s ACNode.empty).ascii b with _ | t
          · have hnone : getGotoBuild nodes s (Char.ofNat b) = none := by
              rw [getGotoBuild, if_pos (by omega), hct, hr]
            rw [hfrow b hb, deltaS_fail nodes hA s (Char.ofNat b) hs hs0 hnone]
          · have hedge : getGotoBuild nodes s (Char.ofNat b) = some t := by
              rw [getGotoBuild, if_pos (by omega), hct]
              exact hr
            rw [deltaS_edge nodes hA s (Char.ofNat b) t hedge]
        · intro c hc
          rw [getD_set_self_g _ _ _ _ (by rw [hL2]; exact hs)]
          rw [lookupA_append]
          rcases hr : lookupA (nodes.getD s ACNode.empty).extended c with _ | t
          · have hnone : getGotoBuild nodes s c = none := by
              rw [getGotoBuild, if_neg hc]
              exact hr
            have hfilter : lookupA
                (((ext.getD (failS nodes s) []).filter fun kv =>
                  lookupA (nodes.getD s ACNode.empty).extended kv.1 = none)) c
                = lookupA (ext.getD (failS nodes s) []) c := by
              refine lookupA_filter _ _ c ?_
              intro v
              simp only [hr]
              exact decide_eq_true trivial
            simp only
            rw [hfilter, hfext c hc,
              deltaS_fail nodes hA s c hs hs0 hnone]
          · rw [deltaS_edge nodes hA s c t (by rw [getGotoBuild, if_neg hc]; exact hr)]
            rfl
    · intro s hs0 hS
      have hsd : s ∉ done := fun h => hS (List.mem_append.mpr (Or.inl h))
      have hsc : s ≠ cur := fun h => hS (List.mem_append.mpr (Or.inr (by
        rw [h]
        exact List.mem_singleton.mpr rfl)))
      constructor
      · rw [getD_set_ne_g _ _ _ _ _ (fun h => hsc h.symm)]
        exact (hUn s hs0 hsd).1
      · rw [getD_set_ne_g _ _ _ _ _ (fun h => hsc h.symm)]
        exact (hUn s hs0 hsd).2
  · show (List.range 128).filterMap (nodes.getD cur ACNode.empty).ascii
        ++ ((nodes.getD cur ACNode.empty).extended.map Prod.snd).filter (· ≠ 0)
      = kidsT nodes cur
    rw [kidsT_decomp]
    congr 1
    refine List.filter_eq_self.mpr ?_
    intro t ht
    obtain ⟨kv, hkv, hsnd⟩ := List.mem_map.mp ht
    have h128 := hA.ext_high cur hcl kv hkv
    have hedge : getGotoBuild nodes cur kv.1 = some kv.2 := by
      rw [getGotoBuild, if_neg (by omega)]
      exact mem_lookupA _ _ _ (hA.ext_keys cur hcl) (by
        rcases kv with ⟨k, v⟩
        exact hkv)
    obtain ⟨h1, _⟩ := hA.edge_lt cur kv.1 kv.2 hcl hedge
    rw [← hsnd]
    exact decide_eq_true (by omega)

theorem phase3_run {V : Type} (nodes : List (ACNode V)) (hA : ArenaInv nodes)
    (fail : List Nat)
    (hfailF : ∀ s, s < nodes.length → s ≠ 0 → fail.getD s 0 = failS nodes s) :
    ∀ (fuel : Nat) (done q : List Nat) (goto : List (Nat → Option Nat))
      (ext : List (List (Char × Nat))),
      BfsInv nodes done q →
      nodes.length ≤ fuel + done.length + 1 →
      P3At nodes goto ext (fun s => s ∈ done) →
      P3At nodes (phase3Loop fail fuel q goto ext).1
        (phase3Loop fail fuel q goto ext).2
        (fun s => s < nodes.length ∧ s ≠ 0) := by
  have leaf : ∀ (done : List Nat) (goto : List (Nat → Option Nat))
      (ext : List (List (Char × Nat))),
      BfsInv nodes done [] →
      P3At nodes goto ext (fun s => s ∈ done) →
      P3At nodes goto ext (fun s => s < nodes.length ∧ s ≠ 0) := by
    intro done goto ext hinv hP
    refine P3At_congr (fun s => ?_) hP
    constructor
    · intro hm
      exact hinv.inRange s (by rw [List.append_nil]; exact hm)
    · rintro ⟨h1, h2⟩
      exact bfs_complete hA hinv s h1 h2
  intro fuel
  induction fuel with
  | zero =>
      intro done q goto ext hinv harith hP
      rcases q with _ | ⟨cur, rest⟩
      · exact leaf done goto ext hinv hP
      · have := bfs_count hinv hA.root_lt
        rw [List.length_append, List.length_cons] at this
        omega
  | succ f ih =>
      intro done q goto ext hinv harith hP
      rcases q with _ | ⟨cur, rest⟩
      · exact leaf done goto ext hinv hP
      · have hsc := phase3Step_correct nodes hA done rest cur goto ext fail
          hinv hfailF hP
        have hunf : phase3Loop fail (f + 1) (cur :: rest) goto ext
            = phase3Loop fail f (rest ++ (phase3Step goto ext fail cur).2)
                (phase3Step goto ext fail cur).1.1
                (phase3Step goto ext fail cur).1.2 := rfl
        rw [hunf, hsc.2]
        have hP2 : P3At nodes (phase3Step goto ext fail cur).1.1
            (phase3Step goto ext fail cur).1.2
            (fun s => s ∈ done ++ [cur]) := hsc.1
        refine ih (done ++ [cur]) (rest ++ kidsT nodes cur) _ _
          (bfs_step hA hinv) ?_ hP2
        rw [List.length_append, List.length_singleton]
        omega

theorem bP3_correct {V : Type} (nodes : List (ACNode V)) (hA : ArenaInv nodes) :
    P3At nodes (bP3 nodes).1 (bP3 nodes).2
      (fun s => s < nodes.length ∧ s ≠ 0) := by
  have hP2 := bP2_correct nodes hA
  obtain ⟨hL1, hL2, hF0, hO0, hDisc, hUn⟩ := hP2
  have hfailF : ∀ s, s < nodes.length → s ≠ 0 →
      (bP2 nodes).1.getD s 0 = failS nodes s :=
    fun s hs hs0 => (hDisc s hs hs0 ⟨hs, hs0⟩).1
  have hinit : P3At nodes (bGoto1 nodes) (bExt nodes)
      (fun s => s ∈ ([] : List Nat)) := by
    refine ⟨bGoto1_length nodes, bExt_length nodes,
      bGoto1_getD_zero nodes hA.root_lt, bExt_getD nodes 0, ?_, ?_⟩
    · intro s hs hs0 hS
      exact absurd hS (by simp)
    · intro s hs0 hS
      exact ⟨bGoto1_getD_ne nodes s hs0, bExt_getD nodes s⟩
  have := phase3_run nodes hA (bP2 nodes).1 hfailF (nodes.length + 1) []
    (kidsT nodes 0) (bGoto1 nodes) (bExt nodes) (bfs_init nodes hA)
    (by omega) hinit
  rw [bP3, bQueue3_eq nodes hA]
  exact this

theorem outFinal_iff {V : Type} (nodes : List (ACNode V)) (hA : ArenaInv nodes)
    (s : Nat) (hs : s < nodes.length) (v : V) :
    v ∈ (bP2 nodes).2.getD s [] ↔ MergedIff nodes v s := by
  obtain ⟨hL1, hL2, hF0, hO0, hDisc, hUn⟩ := bP2_correct nodes hA
  by_cases hs0 : s = 0
  · subst hs0
    rw [hO0]
    constructor
    · intro h
      exact absurd h (by simp)
    · intro h
      exact absurd h (mergedIff_zero nodes hA v)
  · exact (hDisc s hs hs0 ⟨hs, hs0⟩).2 v

theorem mergedIff_reach {V : Type} (nodes : List (ACNode V)) (hA : ArenaInv nodes)
    (z : List Char) (v : V) :
    MergedIff nodes v (reachS nodes z) ↔
      ∃ w2 st, w2 <:+ z ∧ acWalk nodes 0 w2 = some st ∧
        v ∈ (bOut0 nodes).getD st [] := by
  rw [MergedIff, wordOf_reachS nodes hA z]
  constructor
  · rintro ⟨w2, st, hsuf, hw, hv⟩
    exact ⟨w2, st, hsuf.trans (lswWord_suffix nodes z), hw, hv⟩
  · rintro ⟨w2, st, hsuf, hw, hv⟩
    exact ⟨w2, st, suffix_word_le_lsw nodes z w2 hsuf (by rw [hw]; rfl), hw, hv⟩

theorem nextState_built {V : Type} (ac : AC V) (hA : ArenaInv ac.buildNodes)
    (s : Nat) (hs : s < ac.buildNodes.length) (c : Char) :
    (ac.build).nextState s c = deltaS ac.buildNodes s c := by
  obtain ⟨hL1, hL2, hR1, hR2, hDisc, hUn⟩ := bP3_correct ac.buildNodes hA
  rw [build_parts, AC.nextState]
  by_cases hc : c.toNat < 128
  · rw [if_pos hc]
    by_cases hs0 : s = 0
    · subst hs0
      show (((bP3 ac.buildNodes).1.getD 0 (fun _ => none)) c.toNat).getD _ = _
      rw [hR1, rootRow1_delta ac.buildNodes hA c.toNat hc, char_ofNat_self c hc]
      rfl
    · show (((bP3 ac.buildNodes).1.getD s (fun _ => none)) c.toNat).getD _ = _
      rw [(hDisc s hs hs0 ⟨hs, hs0⟩).1 c.toNat hc, char_ofNat_self c hc]
      rfl
  · rw [if_neg hc]
    by_cases hs0 : s = 0
    · subst hs0
      show (lookupA ((bP3 ac.buildNodes).2.getD 0 []) c).getD 0 = _
      rw [hR2]
      exact rootExt_delta ac.buildNodes hA c hc
    · show (lookupA ((bP3 ac.buildNodes).2.getD s []) c).getD 0 = _
      exact (hDisc s hs hs0 ⟨hs, hs0⟩).2 c hc

theorem acScan_chars {V : Type} (ac : AC V) (hA : ArenaInv ac.buildNodes)
    (v : V) :
    ∀ (text u : List Char),
      v ∈ acScan ac.build (reachS ac.buildNodes u) text ↔
        ∃ t1 t2 w2 st, text = t1 ++ t2 ∧ t1 ≠ [] ∧ w2 <:+ (u ++ t1) ∧
          acWalk ac.buildNodes 0 w2 = some st ∧
          v ∈ (bOut0 ac.buildNodes).getD st [] := by
  intro text
  induction text with
  | nil =>
      intro u
      constructor
      · intro h
        exact absurd h (by simp [acScan])
      · rintro ⟨t1, t2, w2, st, heq, hne, _⟩
        rcases List.append_eq_nil.mp heq.symm with ⟨h1, _⟩
        exact (hne h1).elim
  | cons c rest ih =>
      intro u
      have hnext : ac.build.nextState (reachS ac.buildNodes u) c
          = reachS ac.buildNodes (u ++ [c]) := by
        rw [nextState_built ac hA _ (reachS_lt ac.buildNodes hA u) c]
        exact (reachS_append_char ac.buildNodes hA u c).symm
      have hstep : acScan ac.build (reachS ac.buildNodes u) (c :: rest)
          = ac.build.output.getD
              (ac.build.nextState (reachS ac.buildNodes u) c) []
            ++ acScan ac.build
              (ac.build.nextState (reachS ac.buildNodes u) c) rest := rfl
      rw [hstep, hnext]
      have hout : ac.build.output = (bP2 ac.buildNodes).2 := by
        rw [build_parts]
      rw [hout, List.mem_append]
      have hA2 : v ∈ (bP2 ac.buildNodes).2.getD
          (reachS ac.buildNodes (u ++ [c])) [] ↔
          ∃ w2 st, w2 <:+ (u ++ [c]) ∧ acWalk ac.buildNodes 0 w2 = some st ∧
            v ∈ (bOut0 ac.buildNodes).getD st [] := by
        rw [outFinal_iff ac.buildNodes hA _
          (reachS_lt ac.buildNodes hA (u ++ [c])) v]
        exact mergedIff_reach ac.buildNodes hA (u ++ [c]) v
      rw [hA2, ih (u ++ [c])]
      constructor
      · rintro (⟨w2, st, hsuf, hw, hv⟩ | ⟨t1, t2, w2, st, heq, hne, hsuf, hw, hv⟩)
        · exact ⟨[c], rest, w2, st, rfl, by simp, hsuf, hw, hv⟩
        · refine ⟨c :: t1, t2, w2, st, by rw [heq, List.cons_append], by simp,
            ?_, hw, hv⟩
          have : (u ++ [c]) ++ t1 = u ++ (c :: t1) := by
            rw [List.append_assoc, List.singleton_append]
          rw [← this]
          exact hsuf
      · rintro ⟨t1, t2, w2, st, heq, hne, hsuf, hw, hv⟩
        obtain ⟨t1h, t1t, ht1⟩ : ∃ t1h t1t, t1 = t1h :: t1t := by
          rcases t1 with _ | ⟨a, b⟩
          · exact absurd rfl hne
          · exact ⟨a, b, rfl⟩
        rw [ht1] at heq hsuf
        rw [List.cons_append] at heq
        have hch : c = t1h := (List.cons_eq_cons.mp heq).1
        have hrest : rest = t1t ++ t2 := (List.cons_eq_cons.mp heq).2
        rw [← hch] at hsuf
        rcases t1t with _ | ⟨d, dt⟩
        · left
          exact ⟨w2, st, hsuf, hw, hv⟩
        · right
          refine ⟨d :: dt, t2, w2, st, hrest, by simp, ?_, hw, hv⟩
          have hassoc : (u ++ [c]) ++ (d :: dt) = u ++ (c :: d :: dt) := by
            rw [List.append_assoc, List.singleton_append]
          rw [hassoc]
          exact hsuf

theorem isSubstrL_iff (p t : List Char) :
    isSubstrL p t = true ↔ ∃ pre post, t = pre ++ p ++ post := by
  induction t with
  | nil =>
      rw [isSubstrL]
      constructor
      · intro h
        refine ⟨[], [], ?_⟩
        rw [List.isEmpty_iff] at h
        rw [h]
        rfl
      · rintro ⟨pre, post, heq⟩
        rcases List.append_eq_nil.mp heq.symm with ⟨h1, h2⟩
        rcases List.append_eq_nil.mp h1 with ⟨h3, h4⟩
        rw [h4]
        rfl
  | cons s ss ih =>
      rw [isSubstrL, Bool.or_eq_true, isPrefL_iff, ih]
      constructor
      · rintro (hpre | ⟨pre, post, heq⟩)
        · obtain ⟨post, hpost⟩ := hpre
          exact ⟨[], post, by rw [← hpost]; rfl⟩
        · exact ⟨s :: pre, post, by rw [heq]; rfl⟩
      · rintro ⟨pre, post, heq⟩
        rcases pre with _ | ⟨q, qre⟩
        · left
          exact ⟨post, by rw [List.nil_append] at heq; rw [← heq]⟩
        · right
          rw [List.cons_append, List.cons_append, List.cons_eq_cons] at heq
          exact ⟨qre, post, heq.2⟩

theorem isSubstrL_nil_l (t : List Char) : isSubstrL [] t = true := by
  rw [isSubstrL_iff]
  exact ⟨[], t, rfl⟩

/-- Scan state after a text: one `next_state` per character from the root. -/
def scanState {V : Type} (ac : AC V) (t : List Char) : Nat :=
  t.foldl ac.nextState 0

theorem acScan_snoc_g {V : Type} (ac : AC V) :
    ∀ (u : List Char) (c : Char) (s : Nat),
      acScan ac s (u ++ [c])
        = acScan ac s u ++ ac.output.getD ((u ++ [c]).foldl ac.nextState s) [] := by
  intro u
  induction u with
  | nil =>
      intro c s
      rw [List.nil_append]
      show ac.output.getD (ac.nextState s c) [] ++ acScan ac (ac.nextState s c) []
        = acScan ac s [] ++ ac.output.getD ([c].foldl ac.nextState s) []
      rw [show acScan ac (ac.nextState s c) [] = [] from rfl,
        show acScan ac s [] = [] from rfl]
      rw [List.append_nil, List.nil_append]
      rfl
  | cons d du ih =>
      intro c s
      rw [List.cons_append]
      show ac.output.getD (ac.nextState s d) []
          ++ acScan ac (ac.nextState s d) (du ++ [c]) = _
      rw [ih c (ac.nextState s d)]
      rw [← List.append_assoc]
      rfl

/-- The full search characterization: after the inserts and `build`, a value
is emitted at least once on a text iff some inserted pattern carrying that
value occurs as a substring (the empty pattern occurring in every text). -/
theorem search_build_mem {V : Type} (pairs : List (List Char × V))
    (text : List Char) (v : V) :
    v ∈ ((acOf pairs).build).search text ↔
      ∃ p, (p, v) ∈ pairs ∧ isSubstrL p text = true := by
  obtain ⟨hA, hE, hC, hS⟩ := acOf_denotes pairs
  have hempties : ((acOf pairs).build).emptyPatternValues
      = (acOf pairs).emptyPatternValues := by
    rw [build_parts]
  rw [AC.search, List.mem_append, hempties]
  have hzero : (0 : Nat) = reachS (acOf pairs).buildNodes [] :=
    (reachS_nil (acOf pairs).buildNodes).symm
  rw [hzero, acScan_chars (acOf pairs) hA v text [], hE v]
  constructor
  · rintro (hm | ⟨t1, t2, w2, st, heq, hne, hsuf, hw, hv⟩)
    · exact ⟨[], hm, isSubstrL_nil_l text⟩
    · rw [List.nil_append] at hsuf
      rw [bOut0_getD] at hv
      obtain ⟨p, hpm, hpne, hpw⟩ := hS st v hv
      have hpw2 : p = w2 := acWalk_inj (acOf pairs).buildNodes hA st p w2 hpw hw
      refine ⟨p, hpm, ?_⟩
      rw [isSubstrL_iff]
      obtain ⟨pre, hpre⟩ := hsuf
      exact ⟨pre, t2, by rw [heq, ← hpre, hpw2]⟩
  · rintro ⟨p, hpm, hsub⟩
    by_cases hp : p = []
    · left
      rw [← hp]
      exact hpm
    · right
      obtain ⟨st, hpw, hv⟩ := hC p v hpm hp
      rw [isSubstrL_iff] at hsub
      obtain ⟨pre, post, heq⟩ := hsub
      refine ⟨pre ++ p, post, p, st, by rw [heq, List.append_assoc], ?_, ?_,
        hpw, by rw [bOut0_getD]; exact hv⟩
      · intro hnil
        rcases List.append_eq_nil.mp hnil with ⟨_, h2⟩
        exact hp h2
      · rw [List.nil_append]
        exact ⟨pre, rfl⟩

/-- Counterexample to C5 as stated: with two patterns sharing one value, the
callback fires on the value although one of the two patterns does not occur,
so the per-pair biconditional fails for that pair. -/
theorem c5_per_pattern_iff_fails :
    7 ∈ (((AC.new.insert (cs ("a")) 7).insert (cs ("b")) 7).build).search
        (cs ("a"))
      ∧ isSubstrL (cs ("b")) (cs ("a")) = false := by decide

/-- C5: after `build()`, for every insertion list and every text, `search`
invokes the callback on a value at least once iff some inserted pattern
carrying that value occurs as a substring of the text, the empty pattern
occurring in every text (the original per-pair biconditional fails when two
patterns share a value); and the scan advances by exactly one
transition-table lookup per input character, never re-walking failure
links: the emissions after `u ++ [c]` extend those after `u` by the output
of the single state `next_state(state(u), c)`. -/
theorem c5_search_value_occurrence {V : Type} (pairs : List (List Char × V))
    (text : List Char) (v : V) :
    (v ∈ ((acOf pairs).build).search text ↔
      ∃ p, (p, v) ∈ pairs ∧ isSubstrL p text = true) ∧
    (∀ (ac : AC V) (u : List Char) (c : Char),
      acScan ac 0 (u ++ [c])
        = acScan ac 0 u ++ ac.output.getD (scanState ac (u ++ [c])) [] ∧
      scanState ac (u ++ [c]) = ac.nextState (scanState ac u) c) := by
  refine ⟨search_build_mem pairs text v, ?_⟩
  intro ac u c
  constructor
  · rw [acScan_snoc_g ac u c 0]
    rfl
  · rw [scanState, scanState, List.foldl_append]
    rfl
